import Mathlib

set_option maxRecDepth 100000

namespace MeterSdk

/-- Fuelled binary logarithm: the position of the highest set bit of `n`. -/
def log2Fuel : Nat → Nat → Nat
  | 0, _ => 0
  | fuel + 1, n => if n < 2 then 0 else log2Fuel fuel (n / 2) + 1

/-- Floor of the binary logarithm of `n` (0 for `n = 0`). -/
def floorLog2 (n : Nat) : Nat := log2Fuel n n

/-- Nearest integer to `n / d`, ties to the even neighbour (IEEE-754 roundTiesToEven). -/
def roundHalfEven (n d : Nat) : Nat :=
  let q := n / d
  let r := n % d
  if 2 * r < d then q
  else if d < 2 * r then q + 1
  else if q % 2 = 0 then q else q + 1

/-- Numerator of `2 ^ e` for an integer exponent. -/
def pow2Num (e : Int) : Nat := if 0 ≤ e then 2 ^ e.toNat else 1

/-- Denominator of `2 ^ e` for an integer exponent. -/
def pow2Den (e : Int) : Nat := if e < 0 then 2 ^ (-e).toNat else 1

/-- A non-negative finite float64 value, kept as the exact fraction `num / den`. -/
structure F64 where
  num : Nat
  den : Nat
deriving DecidableEq, Repr

/-- Binade of the positive fraction `n / d`: the `e` with `2 ^ e ≤ n / d < 2 ^ (e + 1)`. -/
def binade (n d : Nat) : Int :=
  let e0 : Int := (floorLog2 n : Int) - (floorLog2 d : Int)
  if d * pow2Num e0 ≤ n * pow2Den e0 then e0 else e0 - 1

/-- Round the exact non-negative fraction `n / d` to the nearest float64 (53-bit significand,
round half to even); exponent range is not limited. -/
def F64.round (n d : Nat) : F64 :=
  if n = 0 then ⟨0, 1⟩
  else
    let s : Int := 52 - binade n d
    let m := roundHalfEven (n * pow2Num s) (d * pow2Den s)
    ⟨m * pow2Den s, pow2Num s⟩

/-- Conversion `float64(i)` of a non-negative Go int. -/
def F64.ofNat (i : Nat) : F64 := F64.round i 1

/-- Float multiplication `x * y`. -/
def F64.mul (x y : F64) : F64 := F64.round (x.num * y.num) (x.den * y.den)

/-- Float division `x / y`. -/
def F64.div (x y : F64) : F64 := F64.round (x.num * y.den) (x.den * y.num)

/-- Go `math.Ceil` on a non-negative value; the result is an integer-valued float. -/
def F64.ceil (x : F64) : F64 := ⟨(x.num + x.den - 1) / x.den, 1⟩

/-- Float comparison `x >= y`. -/
def F64.ge (x y : F64) : Bool := decide (y.num * x.den ≤ x.num * y.den)

/-- Go `MajorityTwoThird(voterNum, committeeSize int) bool`. -/
def MajorityTwoThird (voterNum committeeSize : Int) : Bool :=
  if voterNum < 0 ∨ committeeSize < 1 then false
  else
    let twoThirds := F64.ceil (F64.div (F64.mul (F64.ofNat committeeSize.toNat) (F64.ofNat 2)) (F64.ofNat 3))
    if F64.ge (F64.ofNat voterNum.toNat) twoThirds then true else false

/-- Go `LeaderMajorityTwoThird(voterNum, committeeSize int) bool`. -/
def LeaderMajorityTwoThird (voterNum committeeSize : Int) : Bool :=
  if voterNum < 0 ∨ committeeSize < 1 then false
  else
    let twoThirds :=
      if committeeSize = 2 then F64.ofNat 1
      else F64.ceil (F64.div (F64.mul (F64.ofNat committeeSize.toNat) (F64.ofNat 2)) (F64.ofNat 3))
    if F64.ge (F64.ofNat voterNum.toNat) twoThirds then true else false

/-- A float value stands for the natural number `k`. -/
def F64.isNat (x : F64) (k : Nat) : Prop := 0 < x.den ∧ x.num = k * x.den

end MeterSdk
namespace MeterSdk

/-- A byte (Go `byte`). -/
abbrev Byte := Fin 256

/-- Go `thor.Bytes32` / `meter.Bytes32`: a `[32]byte` array. -/
structure Bytes32 where
  data : List Byte
  size_eq : data.length = 32
deriving DecidableEq

/-- Go `thor.Address`: a `[20]byte` array. -/
structure Address where
  data : List Byte
  size_eq : data.length = 20
deriving DecidableEq

/-- The zero value of `Bytes32`. -/
def Bytes32.zero : Bytes32 := ⟨List.replicate 32 0, by simp⟩

/-- The zero value of `Address`. -/
def Address.zero : Address := ⟨List.replicate 20 0, by simp⟩

/-- Go `binary.BigEndian.PutUint32`: the four bytes of a `uint32`, most significant first. -/
def putUint32BE (v : Nat) : List Byte :=
  [Fin.ofNat (v / 2 ^ 24), Fin.ofNat (v / 2 ^ 16), Fin.ofNat (v / 2 ^ 8), Fin.ofNat v]

/-- Go `binary.BigEndian.Uint32` on the first four bytes of a slice. -/
def uint32BE : List Byte → Nat
  | b0 :: b1 :: b2 :: b3 :: _ => b0.val * 2 ^ 24 + b1.val * 2 ^ 16 + b2.val * 2 ^ 8 + b3.val
  | _ => 0

/-- Overwrite the first four bytes of a 32-byte array (`binary.BigEndian.PutUint32(id[:], v)`). -/
def Bytes32.putUint32 (id : Bytes32) (v : Nat) : Bytes32 :=
  ⟨putUint32BE v ++ id.data.drop 4, by simp [putUint32BE, id.size_eq]⟩

/-- Minimal big-endian bytes of `n`, most significant first (`[]` for 0); `fuel` bounds the
number of digits. -/
def bigEndianAux : Nat → Nat → List Byte → List Byte
  | 0, _, acc => acc
  | fuel + 1, n, acc => if n = 0 then acc else bigEndianAux fuel (n / 256) (Fin.ofNat n :: acc)

/-- Minimal big-endian representation of an unsigned integer (go-ethereum `putint`). -/
def bigEndian (n : Nat) : List Byte := bigEndianAux n n []

/-- RLP length header: short form below 56 bytes, long form with a big-endian size above. -/
def rlpHead (offset len : Nat) : List Byte :=
  if len < 56 then [Fin.ofNat (offset + len)]
  else Fin.ofNat (offset + 55 + (bigEndian len).length) :: bigEndian len

/-- RLP encoding of a byte string (go-ethereum `writeBytes` / byte arrays). -/
def rlpBytes (b : List Byte) : List Byte :=
  match b with
  | [x] => if x.val < 128 then [x] else rlpHead 128 1 ++ [x]
  | _ => rlpHead 128 b.length ++ b

/-- RLP encoding of an unsigned integer (go-ethereum `writeUint`). -/
def rlpUint (n : Nat) : List Byte := rlpBytes (bigEndian n)

/-- RLP encoding of a list whose elements are already encoded. -/
def rlpList (items : List (List Byte)) : List Byte :=
  rlpHead 192 items.flatten.length ++ items.flatten

/-- Go `headerBody`. The `uint64` and `uint32` fields hold values below `2 ^ 64` and `2 ^ 32`. -/
structure headerBody where
  ParentID : Bytes32
  Timestamp : Nat
  GasLimit : Nat
  LastKBlockHeight : Nat
  BlockType : Nat
  Beneficiary : Address
  Proposer : Address
  GasUsed : Nat
  TotalScore : Nat
  TxsRoot : Bytes32
  StateRoot : Bytes32
  ReceiptsRoot : Bytes32
  Signature : List Byte
deriving DecidableEq

/-- The `cache` field of `Header`: each `atomic.Value` is empty or holds a stored value. -/
structure headerCache where
  signingHash : Option Bytes32
  signer : Option Address
  id : Option Bytes32
deriving DecidableEq

/-- Go `Header`. -/
structure Header where
  Body : headerBody
  cache : headerCache
deriving DecidableEq

/-- The empty cache of a freshly built `Header`. -/
def headerCache.empty : headerCache := ⟨none, none, none⟩

/-- The library primitives used by the header: Blake2b-256 and signer recovery
(`crypto.SigToPub` followed by `crypto.PubkeyToAddress`), which may fail. -/
structure Crypto where
  blake2b : List Byte → Bytes32
  recover : List Byte → List Byte → Option Address

/-- Go `Number(blockID)`: the block number held in the first four bytes of an id. -/
def Number (blockID : Bytes32) : Nat := uint32BE blockID.data

/-- Go `Header.Number`: `Number(ParentID) + 1` in `uint32` arithmetic. -/
def Header.Number (h : Header) : Nat := (MeterSdk.Number h.Body.ParentID + 1) % 2 ^ 32

/-- The byte string that `Header.SigningHash` feeds to the hash: the RLP list of the fields named
in the source, in source order. -/
def Header.signingPayload (h : Header) : List Byte :=
  rlpList [
    rlpBytes h.Body.ParentID.data,
    rlpUint h.Body.Timestamp,
    rlpUint h.Body.GasLimit,
    rlpBytes h.Body.Beneficiary.data,
    rlpUint h.Body.BlockType,
    rlpUint h.Body.LastKBlockHeight,
    rlpUint h.Body.GasUsed,
    rlpUint h.Body.TotalScore,
    rlpBytes h.Body.TxsRoot.data,
    rlpBytes h.Body.StateRoot.data,
    rlpBytes h.Body.ReceiptsRoot.data]

/-- Go `Header.SigningHash`: returns the cached hash if present, else hashes the payload and
stores the result. Returns the hash and the header with its cache updated. -/
def Header.SigningHash (c : Crypto) (h : Header) : Bytes32 × Header :=
  match h.cache.signingHash with
  | some cached => (cached, h)
  | none =>
    let hash := c.blake2b h.signingPayload
    (hash, { h with cache := { h.cache with signingHash := some hash } })

/-- Go `Header.Signature`: a copy of the signature bytes. -/
def Header.Signature (h : Header) : List Byte := [] ++ h.Body.Signature

/-- Go `Header.withSignature`: a new header with the body copied and the signature replaced.
Returns the receiver (untouched by the Go code) and the new header. -/
def Header.withSignature (h : Header) (sig : List Byte) : Header × Header :=
  let cpy : Header := { Body := h.Body, cache := headerCache.empty }
  (h, { cpy with Body := { cpy.Body with Signature := [] ++ sig } })

/-- Go `Header.Signer`: the zero address for the genesis block, the cached signer if present,
else the address recovered from the signature (stored in the cache on success). -/
def Header.Signer (c : Crypto) (h : Header) : Option Address × Header :=
  if h.Number = 0 then (some Address.zero, h)
  else
    match h.cache.signer with
    | some cached => (some cached, h)
    | none =>
      let (hash, h1) := h.SigningHash c
      match c.recover hash.data h1.Body.Signature with
      | none => (none, h1)
      | some signer => (some signer, { h1 with cache := { h1.cache with signer := some signer } })

/-- Go `Header.ID`: the cached id if present; else Blake2b of signing hash and signer (the zero
array when signer recovery fails) with the first four bytes overwritten by the block number in
the deferred function, which also stores the id in the cache. -/
def Header.ID (c : Crypto) (h : Header) : Bytes32 × Header :=
  match h.cache.id with
  | some cached => (cached, h)
  | none =>
    let (signer, h1) := h.Signer c
    match signer with
    | none =>
      let id := Bytes32.zero.putUint32 h1.Number
      (id, { h1 with cache := { h1.cache with id := some id } })
    | some s =>
      let (hash, h2) := h1.SigningHash c
      let id := (c.blake2b (hash.data ++ s.data)).putUint32 h2.Number
      (id, { h2 with cache := { h2.cache with id := some id } })

/-- The caches of a header hold only what the methods store: the id cache, when filled, holds an
id whose first four bytes were overwritten with the header's number. -/
def Header.idCacheOk (h : Header) : Prop :=
  ∀ id, h.cache.id = some id → ∃ raw : Bytes32, id = raw.putUint32 h.Number

/-- The signing-hash cache, when filled, holds the hash of the signing payload. -/
def Header.hashCacheOk (c : Crypto) (h : Header) : Prop :=
  ∀ x, h.cache.signingHash = some x → x = c.blake2b h.signingPayload

end MeterSdk

namespace MeterSdk

/-- An RLP value: a byte string or a list of values. -/
inductive RLP where
  | str (b : List Byte)
  | list (items : List RLP)

mutual
/-- Canonical RLP encoding of a value (go-ethereum `rlp.Encode`). -/
def RLP.encode : RLP → List Byte
  | .str b => rlpBytes b
  | .list items => rlpHead 192 (RLP.encodeItems items).length ++ RLP.encodeItems items
/-- Concatenated encodings of the elements of a list. -/
def RLP.encodeItems : List RLP → List Byte
  | [] => []
  | x :: xs => x.encode ++ RLP.encodeItems xs
end

/-- Big-endian value of a byte string. -/
def beValue (bs : List Byte) : Nat := bs.foldl (fun acc b => acc * 256 + b.val) 0

/-- The size that follows a long-form header (go-ethereum `readUint` and the check in
`readKind`): `n` big-endian bytes, without a leading zero byte and not below 56. -/
def readSize (n : Nat) (input : List Byte) : Option (Nat × List Byte) :=
  if input.length < n then none
  else if 2 ≤ n ∧ (input.take n).head? = some 0 then none
  else if beValue (input.take n) < 56 then none
  else some (beValue (input.take n), input.drop n)

/-- Read the header of the next value (go-ethereum `Stream.readKind`): whether the value is a
list, its content bytes, and the input that follows the value. A single byte below 128 is its
own content; sizes must be canonical. -/
def readKind : List Byte → Option (Bool × List Byte × List Byte)
  | [] => none
  | b :: rest =>
    if b.val < 128 then some (false, [b], rest)
    else if b.val < 184 then
      if rest.length < b.val - 128 then none
      else if b.val - 128 = 1 ∧ (rest.take 1).all (fun x => x.val < 128) then none
      else some (false, rest.take (b.val - 128), rest.drop (b.val - 128))
    else if b.val < 192 then
      match readSize (b.val - 183) rest with
      | none => none
      | some (size, rest1) =>
        if rest1.length < size then none
        else some (false, rest1.take size, rest1.drop size)
    else if b.val < 248 then
      if rest.length < b.val - 192 then none
      else some (true, rest.take (b.val - 192), rest.drop (b.val - 192))
    else
      match readSize (b.val - 247) rest with
      | none => none
      | some (size, rest1) =>
        if rest1.length < size then none
        else some (true, rest1.take size, rest1.drop size)

mutual
/-- Decode one RLP value from the front of the input (go-ethereum `Stream`), returning the value
and the remaining input; `fuel` bounds the nesting and the number of elements. -/
def RLP.decodeFuel : Nat → List Byte → Option (RLP × List Byte)
  | 0, _ => none
  | f + 1, input =>
    match readKind input with
    | none => none
    | some (false, content, rest) => some (RLP.str content, rest)
    | some (true, content, rest) =>
      match RLP.decodeItemsFuel f content with
      | none => none
      | some items => some (RLP.list items, rest)
/-- Decode the whole payload of a list into its elements. -/
def RLP.decodeItemsFuel : Nat → List Byte → Option (List RLP)
  | 0, _ => none
  | f + 1, input =>
    if input.isEmpty then some []
    else
      match RLP.decodeFuel f input with
      | none => none
      | some (x, rest1) =>
        match RLP.decodeItemsFuel f rest1 with
        | none => none
        | some xs => some (x :: xs)
end

/-- Go `rlp.DecodeBytes` at the level of values: exactly one value and no trailing bytes. -/
def RLP.decode (input : List Byte) : Option RLP :=
  match RLP.decodeFuel (2 * input.length + 2) input with
  | some (t, []) => some t
  | _ => none

/-- Decode an unsigned integer of at most `maxBytes` bytes: a string without leading zero. -/
def uintFromRLP (maxBytes : Nat) : RLP → Option Nat
  | .str b => if b.length ≤ maxBytes ∧ b.head? ≠ some 0 then some (beValue b) else none
  | .list _ => none

/-- Decode a byte slice. -/
def bytesFromRLP : RLP → Option (List Byte)
  | .str b => some b
  | .list _ => none

/-- Decode a `[32]byte` array: the string must have exactly 32 bytes. -/
def bytes32FromRLP : RLP → Option Bytes32
  | .str b => if h : b.length = 32 then some ⟨b, h⟩ else none
  | .list _ => none

/-- Decode a `[20]byte` array. -/
def addressFromRLP : RLP → Option Address
  | .str b => if h : b.length = 20 then some ⟨b, h⟩ else none
  | .list _ => none

/-- Decode a list whose elements are decoded by `f`. -/
def listFromRLP {α : Type} (f : RLP → Option α) : RLP → Option (List α)
  | .str _ => none
  | .list items => items.mapM f

/-- RLP image of `headerBody`: the struct fields in declaration order. -/
def headerBody.toRLP (h : headerBody) : RLP :=
  RLP.list [RLP.str h.ParentID.data, RLP.str (bigEndian h.Timestamp), RLP.str (bigEndian h.GasLimit),
    RLP.str (bigEndian h.LastKBlockHeight), RLP.str (bigEndian h.BlockType),
    RLP.str h.Beneficiary.data, RLP.str h.Proposer.data, RLP.str (bigEndian h.GasUsed),
    RLP.str (bigEndian h.TotalScore), RLP.str h.TxsRoot.data, RLP.str h.StateRoot.data,
    RLP.str h.ReceiptsRoot.data, RLP.str h.Signature]

/-- Decode a `headerBody`: a list of exactly thirteen fields of the declared types. -/
def headerBody.fromRLP : RLP → Option headerBody
  | .list [p, ts, gl, lk, bt, be, pr, gu, tsc, tr, sr, rr, sg] => do
    let ParentID ← bytes32FromRLP p
    let Timestamp ← uintFromRLP 8 ts
    let GasLimit ← uintFromRLP 8 gl
    let LastKBlockHeight ← uintFromRLP 4 lk
    let BlockType ← uintFromRLP 4 bt
    let Beneficiary ← addressFromRLP be
    let Proposer ← addressFromRLP pr
    let GasUsed ← uintFromRLP 8 gu
    let TotalScore ← uintFromRLP 8 tsc
    let TxsRoot ← bytes32FromRLP tr
    let StateRoot ← bytes32FromRLP sr
    let ReceiptsRoot ← bytes32FromRLP rr
    let Signature ← bytesFromRLP sg
    pure { ParentID := ParentID, Timestamp := Timestamp, GasLimit := GasLimit,
           LastKBlockHeight := LastKBlockHeight, BlockType := BlockType,
           Beneficiary := Beneficiary, Proposer := Proposer, GasUsed := GasUsed,
           TotalScore := TotalScore, TxsRoot := TxsRoot, StateRoot := StateRoot,
           ReceiptsRoot := ReceiptsRoot, Signature := Signature }
  | _ => none

/-- RLP image of `Header`: a struct whose only exported field is `Body`. -/
def Header.toRLP (h : Header) : RLP := RLP.list [h.Body.toRLP]

/-- Decode a `Header`; the cache of the new value is empty. -/
def Header.fromRLP : RLP → Option Header
  | .list [body] => do
    let Body ← headerBody.fromRLP body
    pure { Body := Body, cache := headerCache.empty }
  | _ => none

/-- Go `types.NetAddress` as used under `src/`: an IP (its bytes) and a `uint16` port. -/
structure NetAddress where
  IP : List Byte
  Port : Nat
deriving DecidableEq

/-- RLP image of `NetAddress`. -/
def NetAddress.toRLP (a : NetAddress) : RLP := RLP.list [RLP.str a.IP, RLP.str (bigEndian a.Port)]

/-- Decode a `NetAddress`. -/
def NetAddress.fromRLP : RLP → Option NetAddress
  | .list [ip, port] => do
    let IP ← bytesFromRLP ip
    let Port ← uintFromRLP 2 port
    pure ⟨IP, Port⟩
  | _ => none

/-- Go `KBlockData`. -/
structure KBlockData where
  Nonce : Nat
  Data : List (List Byte)
  Proof : List Byte
deriving DecidableEq

/-- RLP image of `KBlockData`. -/
def KBlockData.toRLP (d : KBlockData) : RLP :=
  RLP.list [RLP.str (bigEndian d.Nonce), RLP.list (d.Data.map RLP.str), RLP.str d.Proof]

/-- Decode a `KBlockData`. -/
def KBlockData.fromRLP : RLP → Option KBlockData
  | .list [n, d, p] => do
    let Nonce ← uintFromRLP 8 n
    let Data ← listFromRLP bytesFromRLP d
    let Proof ← bytesFromRLP p
    pure ⟨Nonce, Data, Proof⟩
  | _ => none

/-- Go `CommitteeInfo`; `Name` is kept as the bytes of the string. -/
structure CommitteeInfo where
  Name : List Byte
  CSIndex : Nat
  NetAddr : NetAddress
  CSPubKey : List Byte
  PubKey : List Byte
deriving DecidableEq

/-- RLP image of `CommitteeInfo`. -/
def CommitteeInfo.toRLP (c : CommitteeInfo) : RLP :=
  RLP.list [RLP.str c.Name, RLP.str (bigEndian c.CSIndex), c.NetAddr.toRLP, RLP.str c.CSPubKey,
    RLP.str c.PubKey]

/-- Decode a `CommitteeInfo`. -/
def CommitteeInfo.fromRLP : RLP → Option CommitteeInfo
  | .list [n, i, a, cs, pk] => do
    let Name ← bytesFromRLP n
    let CSIndex ← uintFromRLP 4 i
    let NetAddr ← NetAddress.fromRLP a
    let CSPubKey ← bytesFromRLP cs
    let PubKey ← bytesFromRLP pk
    pure ⟨Name, CSIndex, NetAddr, CSPubKey, PubKey⟩
  | _ => none

/-- Go `CommitteeInfos`. -/
structure CommitteeInfos where
  Epoch : Nat
  CommitteeInfo : List CommitteeInfo
deriving DecidableEq

/-- RLP image of `CommitteeInfos`. -/
def CommitteeInfos.toRLP (c : CommitteeInfos) : RLP :=
  RLP.list [RLP.str (bigEndian c.Epoch), RLP.list (c.CommitteeInfo.map CommitteeInfo.toRLP)]

/-- Decode a `CommitteeInfos`. -/
def CommitteeInfos.fromRLP : RLP → Option CommitteeInfos
  | .list [e, l] => do
    let Epoch ← uintFromRLP 8 e
    let infos ← listFromRLP CommitteeInfo.fromRLP l
    pure ⟨Epoch, infos⟩
  | _ => none

/-- A transaction. The `tx` package is outside `src/`; a transaction is represented by a value
carrying its content, and its codec is a collaborator of the block codec. -/
structure Transaction where
  content : RLP

end MeterSdk

namespace MeterSdk

/-- The zero value of `Header`. -/
def Header.zero : Header :=
  { Body := { ParentID := Bytes32.zero, Timestamp := 0, GasLimit := 0, LastKBlockHeight := 0,
              BlockType := 0, Beneficiary := Address.zero, Proposer := Address.zero,
              GasUsed := 0, TotalScore := 0, TxsRoot := Bytes32.zero, StateRoot := Bytes32.zero,
              ReceiptsRoot := Bytes32.zero, Signature := [] },
    cache := headerCache.empty }

/-- Go `block.QuorumCert`, with the fields the sources under `src/` read and write (its
declaration is outside `src/`). -/
structure QuorumCert where
  QCHeight : Nat
  QCRound : Nat
  EpochID : Nat
  VoterMsgHash : List Byte
  VoterAggSig : List Byte
  VoterSig : List (List Byte)
deriving DecidableEq

/-- Go `Block` (without the size cache). `BlockHeader` is a non-nil pointer, `QC` is a pointer
and may be nil. -/
structure Block where
  BlockHeader : Header
  Txs : List Transaction
  QC : Option QuorumCert
  CommitteeInfos : CommitteeInfos
  KBlockData : KBlockData
  Magic : List Byte

/-- Outcome of a Go call that may panic. -/
inductive Outcome (α : Type) where
  | ok (a : α)
  | panic (msg : String)
deriving DecidableEq

/-- Go `Block.GetCommitteeEpoch`. -/
def Block.GetCommitteeEpoch (b : Block) : Nat := b.CommitteeInfos.Epoch

/-- Go `Block.GetBlockEpoch`; `lastKBlockHeight+1` is `uint32` arithmetic, reading `b.QC.EpochID`
through a nil `QC` panics, and the last branch panics explicitly. -/
def Block.GetBlockEpoch (b : Block) : Outcome Nat :=
  let height := b.BlockHeader.Number
  let lastKBlockHeight := b.BlockHeader.Body.LastKBlockHeight
  if height = 0 then Outcome.ok 0
  else if height > (lastKBlockHeight + 1) % 2 ^ 32 then
    match b.QC with
    | none => Outcome.panic "invalid memory address or nil pointer dereference"
    | some qc => Outcome.ok qc.EpochID
  else if height = (lastKBlockHeight + 1) % 2 ^ 32 then Outcome.ok b.GetCommitteeEpoch
  else Outcome.panic "Block error: lastKBlockHeight great than height"

/-- Go `Compose(header, txs)`: a block with only header and transactions set; every other field
has its zero value, `QC` is nil. -/
def Compose (header : Header) (txs : List Transaction) : Block :=
  { BlockHeader := header, Txs := [] ++ txs, QC := none, CommitteeInfos := ⟨0, []⟩,
    KBlockData := ⟨0, [], []⟩, Magic := [0, 0, 0, 0] }

/-- The collaborators of the block codec that are declared outside `src/`: the RLP value written
for a `*QuorumCert` (nil included) and its decoder, and the RLP value written for a transaction
and its decoder. -/
structure BlockCodecEnv where
  qcToRLP : Option QuorumCert → RLP
  qcFromRLP : RLP → Option (Option QuorumCert)
  txToRLP : Transaction → RLP
  txFromRLP : RLP → Option Transaction

/-- The RLP value written by Go `Block.EncodeRLP` for a non-nil block: the list of header,
transactions, `KBlockData`, `CommitteeInfos`, `QC` and `Magic`. -/
def Block.toRLP (env : BlockCodecEnv) (b : Block) : RLP :=
  RLP.list [b.BlockHeader.toRLP, RLP.list (b.Txs.map env.txToRLP), b.KBlockData.toRLP,
    b.CommitteeInfos.toRLP, env.qcToRLP b.QC, RLP.str b.Magic]

/-- Go `Block.DecodeRLP`: decode the payload struct (header, transactions, `KBlockData`,
`CommitteeInfos`, `QC`, `Magic` as `[4]byte`) and build the block from it. -/
def Block.fromRLP (env : BlockCodecEnv) : RLP → Option Block
  | .list [h, txs, kd, ci, qc, mg] => do
    let Header ← Header.fromRLP h
    let Txs ← listFromRLP env.txFromRLP txs
    let KBlockData ← KBlockData.fromRLP kd
    let CommitteeInfos ← CommitteeInfos.fromRLP ci
    let QC ← env.qcFromRLP qc
    let Magic ← bytesFromRLP mg
    if Magic.length = 4 then
      pure { BlockHeader := Header, Txs := Txs, QC := QC, CommitteeInfos := CommitteeInfos,
             KBlockData := KBlockData, Magic := Magic }
    else none
  | _ => none

/-- The value ranges of the Go field types of a block: `uint64`, `uint32` and `uint16` fields and
the four bytes of `Magic`. -/
def Block.WellTyped (b : Block) : Prop :=
  b.BlockHeader.Body.Timestamp < 2 ^ 64 ∧ b.BlockHeader.Body.GasLimit < 2 ^ 64 ∧
  b.BlockHeader.Body.LastKBlockHeight < 2 ^ 32 ∧ b.BlockHeader.Body.BlockType < 2 ^ 32 ∧
  b.BlockHeader.Body.GasUsed < 2 ^ 64 ∧ b.BlockHeader.Body.TotalScore < 2 ^ 64 ∧
  b.KBlockData.Nonce < 2 ^ 64 ∧ b.CommitteeInfos.Epoch < 2 ^ 64 ∧
  (∀ c ∈ b.CommitteeInfos.CommitteeInfo, c.CSIndex < 2 ^ 32 ∧ c.NetAddr.Port < 2 ^ 16) ∧
  b.Magic.length = 4

/-- Go `BlockEncodeBytes`. -/
def BlockEncodeBytes (env : BlockCodecEnv) (blk : Block) : List Byte := (blk.toRLP env).encode

/-- Go `BlockDecodeFromBytes`; `none` stands for a returned error. -/
def BlockDecodeFromBytes (env : BlockCodecEnv) (bytes : List Byte) : Option Block :=
  match RLP.decode bytes with
  | none => none
  | some t => Block.fromRLP env t

/-- A parent id whose first four bytes hold the number `n`. -/
def parentIdOfNumber (n : Nat) : Bytes32 := Bytes32.zero.putUint32 n

/-- A sample codec for the collaborators: a nil `QC` is the empty list, a non-nil one the list of
its fields; a transaction is written as its content and every value is read as a transaction. -/
def sampleCodec : BlockCodecEnv where
  qcToRLP
    | none => RLP.list []
    | some q => RLP.list [RLP.str (bigEndian q.QCHeight), RLP.str (bigEndian q.QCRound),
        RLP.str (bigEndian q.EpochID), RLP.str q.VoterMsgHash, RLP.str q.VoterAggSig,
        RLP.list (q.VoterSig.map RLP.str)]
  qcFromRLP
    | .list [] => some none
    | .list [h, r, e, m, s, v] => do
      let QCHeight ← uintFromRLP 4 h
      let QCRound ← uintFromRLP 4 r
      let EpochID ← uintFromRLP 8 e
      let VoterMsgHash ← bytesFromRLP m
      let VoterAggSig ← bytesFromRLP s
      let VoterSig ← listFromRLP bytesFromRLP v
      pure (some ⟨QCHeight, QCRound, EpochID, VoterMsgHash, VoterAggSig, VoterSig⟩)
    | _ => none
  txToRLP t := t.content
  txFromRLP t := some ⟨t⟩

/-- A sample block: header with timestamp 300, one transaction, a `KBlockData` with nonce 1111,
one committee member listening on port 4444, a QC of epoch 1, and a magic. -/
def sampleBlock : Block :=
  { BlockHeader := { Header.zero with Body := { Header.zero.Body with
      Timestamp := 300, GasLimit := 14000, GasUsed := 1000, TotalScore := 101,
      Signature := [1, 2, 3] } },
    Txs := [⟨RLP.list [RLP.str [7], RLP.str []]⟩],
    QC := some ⟨1, 1, 1, [1, 1], [1, 2, 3], [[4]]⟩,
    CommitteeInfos := ⟨1, [⟨[84, 101], 0, ⟨[], 4444⟩, [], []⟩]⟩,
    KBlockData := ⟨1111, [[5, 6]], []⟩,
    Magic := [1, 2, 3, 4] }

end MeterSdk

namespace MeterSdk

/-- Go `types.Validator` with the fields `CalcCommitteeByNonce` fills. An ECDSA public key is
kept as its serialization `crypto.FromECDSAPub`, the only way the sources compare keys. -/
structure Validator where
  Name : String
  Address : Address
  PubKey : List Byte
  VotingPower : Int
  NetAddr : NetAddress
  CommitKey : List Byte
deriving DecidableEq

/-- Go `types.Delegate` with the fields `CalcCommitteeByNonce` reads. -/
structure Delegate where
  Name : String
  Address : Address
  PubKey : List Byte
  VotingPower : Int
  NetAddr : NetAddress
deriving DecidableEq

/-- Go `CommitteeMember`. -/
structure CommitteeMember where
  Address : Address
  PubKey : List Byte
  VotingPower : Int
  CommitKey : List Byte
  NetAddr : NetAddress
  CSPubKey : List Byte
  CSIndex : Int
deriving DecidableEq

/-- Go `ConsensusPeer`: the peer's address and the network magic. -/
structure ConsensusPeer where
  netAddr : NetAddress
  magic : List Byte
deriving DecidableEq

/-- Go `consensusMsgInfo`: raw message bytes and the (possibly nil) peer. -/
structure consensusMsgInfo where
  Msg : List Byte
  csPeer : Option ConsensusPeer
deriving DecidableEq

/-- Go `ConsensusCommon`, of which only the BLS public key is read here. -/
structure ConsensusCommon where
  PubKey : List Byte
deriving DecidableEq

/-- Go `ConsensusLeader`, of which only the epoch is written here. -/
structure ConsensusLeader where
  EpochID : Nat
deriving DecidableEq

/-- `maxMsgSize` of `reactor.go`. -/
def maxMsgSize : Nat := 1300000

/-- `CONSENSUS_COMMIT_ROLE_LEADER`. -/
def CONSENSUS_COMMIT_ROLE_LEADER : Nat := 0x01

/-- `CONSENSUS_COMMIT_ROLE_VALIDATOR`. -/
def CONSENSUS_COMMIT_ROLE_VALIDATOR : Nat := 0x04

/-- `CONSENSUS_COMMIT_ROLE_NONE`. -/
def CONSENSUS_COMMIT_ROLE_NONE : Nat := 0x0

/-- The fields of Go `ConsensusReactor` that the modelled methods read or write. Channels are
kept as the list of values sent so far (oldest first); pointers are `Option`. -/
structure ConsensusReactor where
  myPubKey : List Byte := []
  committeeSize : Int := 0
  curDelegates : List Delegate := []
  curCommittee : Option (List Validator) := none
  curActualCommittee : List CommitteeMember := []
  curCommitteeIndex : Int := 0
  csRoleInitialized : Nat := 0
  csCommon : Option ConsensusCommon := none
  csLeader : Option ConsensusLeader := none
  csValidatorSet : Bool := false
  curNonce : Nat := 0
  curEpoch : Nat := 0
  curHeight : Int := 0
  curRound : Int := 0
  kBlockDataSet : Bool := false
  peerMsgQueue : List consensusMsgInfo := []
  internalMsgQueue : List consensusMsgInfo := []
  myAddr : NetAddress := ⟨[], 0⟩
  magic : List Byte := [0, 0, 0, 0]
deriving DecidableEq

/-- Go `ConsensusReactor.UpdateRound`. -/
def ConsensusReactor.UpdateRound (conR : ConsensusReactor) (round : Int) : ConsensusReactor × Bool :=
  ({ conR with curRound := round }, true)

/-- Go `ConsensusReactor.UpdateHeightRound`. -/
def ConsensusReactor.UpdateHeightRound (conR : ConsensusReactor) (height : Int) (round : Int) :
    ConsensusReactor × Bool :=
  let conR1 := if height ≠ 0 then { conR with curHeight := height } else conR
  ({ conR1 with curRound := round }, true)

/-- Bitwise `x &^ m` on a 64-bit `uint` (Go `x &= ^m`). -/
def andNot64 (x m : Nat) : Nat := Nat.land x (Nat.xor (2 ^ 64 - 1) m)

/-- Go `ConsensusReactor.exitConsensusLeader`. -/
def ConsensusReactor.exitConsensusLeader (conR : ConsensusReactor) (epochID : Nat) :
    ConsensusReactor :=
  if conR.curEpoch ≠ epochID then conR
  else { conR with csLeader := none,
                   csRoleInitialized := andNot64 conR.csRoleInitialized CONSENSUS_COMMIT_ROLE_LEADER }

/-- Go `ConsensusReactor.exitConsensusValidator`. -/
def ConsensusReactor.exitConsensusValidator (conR : ConsensusReactor) : ConsensusReactor :=
  { conR with csValidatorSet := false,
              csRoleInitialized := andNot64 conR.csRoleInitialized CONSENSUS_COMMIT_ROLE_VALIDATOR }

/-- Go `ConsensusReactor.exitCurCommittee`. -/
def ConsensusReactor.exitCurCommittee (conR : ConsensusReactor) : ConsensusReactor :=
  let c1 := conR.exitConsensusLeader conR.curEpoch
  let c2 := c1.exitConsensusValidator
  let c3 := match c2.csCommon with
    | some _ => { c2 with csCommon := none }
    | none => c2
  let c4 := match c3.curCommittee with
    | some _ => { c3 with curCommittee := some [] }
    | none => c3
  { c4 with curActualCommittee := [], curCommitteeIndex := 0, kBlockDataSet := false,
            curNonce := 0, curRound := 0 }

end MeterSdk

namespace MeterSdk

/-- The proposal types compared in `ValidateProposal`; the constants are declared outside
`src/`, every other value is `other`. -/
inductive BlockKind where
  | KBlockType
  | StopCommitteeType
  | other (n : Nat)
deriving DecidableEq

/-- Errors returned by `ValidateProposal`. -/
inductive PMError where
  | errParentMissing
  | errDecodeParentFailed
  | decodeFailed (msg : String)
  | processFailed (msg : String)
deriving DecidableEq

/-- Go `ProposedBlockInfo`: the decoded block of type `β` and the execution result of type `σ`. -/
structure ProposedBlockInfo (β σ : Type) where
  BlockType : BlockKind
  ProposedBlock : β
  Stage : σ

/-- Go `pmBlock`. Nodes live in a heap and are referred to by address; `Parent` is the address of
the parent node or nil, `ProposedBlock` is nil or a byte slice. -/
structure pmBlock (β σ : Type) where
  Height : Nat
  Round : Nat
  Parent : Option Nat
  ProposedBlock : Option (List Byte)
  ProposedBlockType : BlockKind
  ProposedBlockInfo : Option (ProposedBlockInfo β σ)
  SuccessProcessed : Bool

/-- The part of Go `Pacemaker` read here: the node heap, the locked block pointer and the
proposal map from height to node address. -/
structure Pacemaker (β σ : Type) where
  heap : Nat → Option (pmBlock β σ)
  blockLocked : Option Nat
  proposalMap : Nat → Option Nat

/-- The loop of `IsExtendedFromBLocked` with `n` iterations left: compare the pointer, then
follow `Parent` (a nil or dangling `tmp` panics on the field read). -/
def isExtendedLoop {β σ : Type} (p : Pacemaker β σ) : Nat → Option Nat → Outcome Bool
  | 0, _ => Outcome.ok false
  | n + 1, tmp =>
    if tmp = p.blockLocked then Outcome.ok true
    else
      match tmp with
      | none => Outcome.panic "invalid memory address or nil pointer dereference"
      | some a =>
        match p.heap a with
        | none => Outcome.panic "invalid memory address or nil pointer dereference"
        | some node => isExtendedLoop p n node.Parent

/-- Go `Pacemaker.IsExtendedFromBLocked`: the loop runs while `i < 10`. -/
def Pacemaker.IsExtendedFromBLocked {β σ : Type} (p : Pacemaker β σ) (b : Option Nat) :
    Outcome Bool :=
  isExtendedLoop p 10 b

/-- The node reached from `b` by following `k` parent links, if all of them exist. -/
def ancestorAt {β σ : Type} (p : Pacemaker β σ) : Nat → Option Nat → Option Nat
  | 0, b => b
  | k + 1, b =>
    match b with
    | none => none
    | some a =>
      match p.heap a with
      | none => none
      | some node => ancestorAt p k node.Parent

/-- The library and collaborator calls of `ValidateProposal`: block decoding
(`block.BlockDecodeFromBytes`) and execution (`csReactor.ProcessProposedBlock` on the parent
block's header, the block and the current time). -/
structure ValidateEnv (β σ : Type) where
  decode : List Byte → Except String β
  process : β → β → Nat → Except String σ
  now : Nat

/-- Read `p.proposalMap[h].ProposedBlockType`; a missing entry is a nil pointer. -/
def Pacemaker.typeAt {β σ : Type} (p : Pacemaker β σ) (h : Nat) : Option BlockKind :=
  match p.proposalMap h with
  | none => none
  | some a =>
    match p.heap a with
    | none => none
    | some node => some node.ProposedBlockType

/-- The stop-committee branch of `ValidateProposal`: every outcome only logs (the `return`
statements are commented out in the source); reading a missing map entry panics. The heights
`b.Height-1` and `b.Height-2` are `uint64` arithmetic. Returns `true` when no panic occurs. -/
def Pacemaker.stopCommitteeCheck {β σ : Type} (p : Pacemaker β σ) (b : pmBlock β σ) : Bool :=
  if b.ProposedBlockType = BlockKind.StopCommitteeType then
    match p.typeAt ((b.Height + 2 ^ 64 - 1) % 2 ^ 64) with
    | none => false
    | some parentType =>
      if parentType = BlockKind.KBlockType then true
      else if parentType = BlockKind.StopCommitteeType then
        match p.typeAt ((b.Height + 2 ^ 64 - 2) % 2 ^ 64) with
        | none => false
        | some _ => true
      else true
  else true

/-- The part of `ValidateProposal` after the stop-committee branch. Returns the error (nil is
`none`) and the node as left by the call. -/
def Pacemaker.validateRest {β σ : Type} (p : Pacemaker β σ) (env : ValidateEnv β σ)
    (b : pmBlock β σ) (blk : β) : Option PMError × pmBlock β σ :=
  match b.ProposedBlockInfo with
  | some _ => (none, { b with SuccessProcessed := true })
  | none =>
    match b.Parent with
    | none => (some PMError.errParentMissing, b)
    | some pa =>
      match p.heap pa with
      | none => (some PMError.errParentMissing, b)
      | some parentPMBlock =>
        match parentPMBlock.ProposedBlock with
        | none => (some PMError.errParentMissing, b)
        | some parentBytes =>
          match env.decode parentBytes with
          | Except.error _ => (some PMError.errDecodeParentFailed, b)
          | Except.ok parentBlock =>
            match env.process parentBlock blk env.now with
            | Except.error e => (some (PMError.processFailed e), { b with SuccessProcessed := false })
            | Except.ok stage =>
              (none, { b with ProposedBlockInfo := some ⟨b.ProposedBlockType, blk, stage⟩,
                              SuccessProcessed := true })

/-- Go `Pacemaker.ValidateProposal`. A nil `b.ProposedBlock` is decoded as the empty slice. -/
def Pacemaker.ValidateProposal {β σ : Type} (p : Pacemaker β σ) (env : ValidateEnv β σ)
    (b : pmBlock β σ) : Outcome (Option PMError × pmBlock β σ) :=
  match env.decode (b.ProposedBlock.getD []) with
  | Except.error e => Outcome.ok (some (PMError.decodeFailed e), b)
  | Except.ok blk =>
    if p.stopCommitteeCheck b then Outcome.ok (p.validateRest env b blk)
    else Outcome.panic "invalid memory address or nil pointer dereference"

/-- A chain of nodes `0 ← 1 ← 2 ← …`: node `n + 1` has parent `n`, node 0 has no parent. -/
def chainHeap (a : Nat) : Option (pmBlock Unit Unit) :=
  some { Height := a, Round := 0, Parent := if a = 0 then none else some (a - 1),
         ProposedBlock := some [], ProposedBlockType := BlockKind.other 2,
         ProposedBlockInfo := none, SuccessProcessed := false }

/-- A stop-committee proposal at height 5 that this node
created itself. -/
def stopProposal : pmBlock Unit Unit :=
  { Height := 5, Round := 0, Parent := some 4, ProposedBlock := some [],
    ProposedBlockType := BlockKind.StopCommitteeType,
    ProposedBlockInfo := some ⟨BlockKind.StopCommitteeType, (), ()⟩, SuccessProcessed := false }

/-- A proposal received from a peer, with no parent node and an empty block payload. -/
def orphanProposal : pmBlock Unit Unit :=
  { Height := 5, Round := 0, Parent := none, ProposedBlock := some [],
    ProposedBlockType := BlockKind.other 2, ProposedBlockInfo := none, SuccessProcessed := false }

end MeterSdk

namespace MeterSdk

/-- Go `pmQuorumCert` with the fields the codec reads and writes; `QCNode` is a node address or
nil. The type is declared outside `src/`. -/
structure pmQuorumCert where
  QCHeight : Nat
  QCRound : Nat
  QCNode : Option Nat
  VoterSig : List (List Byte)
  VoterMsgHash : List Byte
  VoterAggSig : List Byte
deriving DecidableEq

/-- The serialization of `block.QuorumCert`, declared outside `src/`: `QuorumCert.ToBytes` and
`block.QCDecodeFromBytes`. -/
structure QCCodec where
  ToBytes : QuorumCert → List Byte
  QCDecodeFromBytes : List Byte → Except String QuorumCert

/-- Go `Pacemaker.AddressBlock`: the node stored in the proposal map at `height`, provided it
has that height and the given round; nil otherwise. -/
def Pacemaker.AddressBlock {β σ : Type} (p : Pacemaker β σ) (height round : Nat) : Option Nat :=
  match p.proposalMap height with
  | none => none
  | some a =>
    match p.heap a with
    | none => none
    | some node => if node.Height = height ∧ node.Round = round then some a else none

/-- Go `Pacemaker.EncodeQCToBytes`. -/
def Pacemaker.EncodeQCToBytes {β σ : Type} (_p : Pacemaker β σ) (codec : QCCodec)
    (qc : pmQuorumCert) : List Byte :=
  let blockQC : QuorumCert :=
    { QCHeight := qc.QCHeight, QCRound := qc.QCRound, EpochID := 0, VoterSig := qc.VoterSig,
      VoterMsgHash := qc.VoterMsgHash, VoterAggSig := qc.VoterAggSig }
  codec.ToBytes blockQC

/-- Go `Pacemaker.DecodeQCFromBytes`. -/
def Pacemaker.DecodeQCFromBytes {β σ : Type} (p : Pacemaker β σ) (codec : QCCodec)
    (bytes : List Byte) : Except String pmQuorumCert :=
  match codec.QCDecodeFromBytes bytes with
  | Except.error err => Except.error err
  | Except.ok blockQC =>
    match p.AddressBlock blockQC.QCHeight blockQC.QCRound with
    | none => Except.error "can not address qcNode"
    | some qcNode =>
      Except.ok { QCHeight := blockQC.QCHeight, QCRound := blockQC.QCRound,
                  VoterSig := blockQC.VoterSig, VoterMsgHash := blockQC.VoterMsgHash,
                  VoterAggSig := blockQC.VoterAggSig, QCNode := some qcNode }

/-- The value ranges of the Go field types of `block.QuorumCert`: `QCHeight`, `QCRound` and
`EpochID` are `uint64`. -/
def QuorumCert.WellTyped (q : QuorumCert) : Prop :=
  q.QCHeight < 2 ^ 64 ∧ q.QCRound < 2 ^ 64 ∧ q.EpochID < 2 ^ 64

/-- A number as that many bytes 1 followed by a byte 0. -/
def tagNat : Nat → List Byte
  | 0 => [0]
  | n + 1 => 1 :: tagNat n

/-- A byte string with a byte 1 in front of every byte and a closing byte 0. -/
def tagBytes : List Byte → List Byte
  | [] => [0]
  | b :: l => 1 :: b :: tagBytes l

/-- A list of byte strings with a byte 1 in front of every element and a closing byte 0. -/
def tagList : List (List Byte) → List Byte
  | [] => [0]
  | x :: xs => 1 :: (tagBytes x ++ tagList xs)

/-- Read a number written by `tagNat`; the result is the number and the remaining input. -/
def untagNat : List Byte → Option (Nat × List Byte)
  | [] => none
  | t :: rest =>
    if t = 0 then some (0, rest)
    else
      match untagNat rest with
      | none => none
      | some (n, r) => some (n + 1, r)

/-- Read a byte string written by `tagBytes`. -/
def untagBytes : List Byte → Option (List Byte × List Byte)
  | [] => none
  | [t] => if t = 0 then some ([], []) else none
  | t :: b :: rest =>
    if t = 0 then some ([], b :: rest)
    else
      match untagBytes rest with
      | none => none
      | some (l, r) => some (b :: l, r)

/-- Read a list of byte strings written by `tagList`; `fuel` bounds the number of elements. -/
def untagList : Nat → List Byte → Option (List (List Byte) × List Byte)
  | 0, _ => none
  | _ + 1, [] => none
  | f + 1, t :: rest =>
    if t = 0 then some ([], rest)
    else
      match untagBytes rest with
      | none => none
      | some (x, r) =>
        match untagList f r with
        | none => none
        | some (xs, r1) => some (x :: xs, r1)

/-- A sample `QCCodec`: the six fields of the certificate written one after the other with
`tagNat`, `tagBytes` and `tagList`; decoding fails on malformed or trailing input. -/
def sampleQCCodec : QCCodec where
  ToBytes q :=
    tagNat q.QCHeight ++ (tagNat q.QCRound ++ (tagNat q.EpochID ++ (tagBytes q.VoterMsgHash ++
      (tagBytes q.VoterAggSig ++ tagList q.VoterSig))))
  QCDecodeFromBytes bytes :=
    match untagNat bytes with
    | none => Except.error "malformed certificate"
    | some (QCHeight, r1) =>
      match untagNat r1 with
      | none => Except.error "malformed certificate"
      | some (QCRound, r2) =>
        match untagNat r2 with
        | none => Except.error "malformed certificate"
        | some (EpochID, r3) =>
          match untagBytes r3 with
          | none => Except.error "malformed certificate"
          | some (VoterMsgHash, r4) =>
            match untagBytes r4 with
            | none => Except.error "malformed certificate"
            | some (VoterAggSig, r5) =>
              match untagList (r5.length + 1) r5 with
              | some (VoterSig, []) =>
                Except.ok ⟨QCHeight, QCRound, EpochID, VoterMsgHash, VoterAggSig, VoterSig⟩
              | _ => Except.error "malformed certificate"

/-- A pacemaker over the chain `0 ← 1 ← 2 ← …` whose proposal map holds node `h` at every height
`h < 8`; every node has round 0. -/
def chainPacemaker : Pacemaker Unit Unit :=
  ⟨chainHeap, none, fun h => if h < 8 then some h else none⟩

end MeterSdk

namespace MeterSdk

/-- A decoded JSON object with string values (Go `map[string]string`), as an association list. -/
abbrev Params := List (String × String)

/-- Go `v, ok := params[key]`. -/
def Params.get (m : Params) (key : String) : Option String :=
  match m with
  | [] => none
  | (k, v) :: rest => if k = key then some v else Params.get rest key

/-- Go `params[key]`: the empty string for a missing key. -/
def Params.index (m : Params) (key : String) : String := (m.get key).getD ""

/-- The lower-case hex digit of a nibble. -/
def hexDigit (n : Nat) : Char := "0123456789abcdef".data.getD n '0'

/-- Go `hex.EncodeToString`. -/
def hexEncodeChars : List Byte → List Char
  | [] => []
  | b :: rest => hexDigit (b.val / 16) :: hexDigit (b.val % 16) :: hexEncodeChars rest

/-- Go `hex.EncodeToString` as a string. -/
def hexEncode (b : List Byte) : String := String.mk (hexEncodeChars b)

/-- Go `fromHexChar`. -/
def fromHexChar (c : Char) : Option Nat :=
  if 48 ≤ c.toNat ∧ c.toNat ≤ 57 then some (c.toNat - 48)
  else if 97 ≤ c.toNat ∧ c.toNat ≤ 102 then some (c.toNat - 97 + 10)
  else if 65 ≤ c.toNat ∧ c.toNat ≤ 70 then some (c.toNat - 65 + 10)
  else none

/-- Go `hex.DecodeString` with the error dropped: the bytes decoded before the first invalid
character or the dangling last character. -/
def hexDecodeChars : List Char → List Byte
  | a :: b :: rest =>
    match fromHexChar a, fromHexChar b with
    | some x, some y => Fin.ofNat (x * 16 + y) :: hexDecodeChars rest
    | _, _ => []
  | _ => []

/-- Go `hex.DecodeString` on a string, error dropped. -/
def hexDecode (s : String) : List Byte := hexDecodeChars s.data

/-- The digit loop of `strconv.ParseUint(s, 10, 16)`: a non-digit gives 0 (syntax error), a value
above 65535 gives 65535 (range error). -/
def parseUintLoop : List Char → Nat → Nat
  | [], n => n
  | c :: cs, n =>
    if 48 ≤ c.toNat ∧ c.toNat ≤ 57 then
      if n * 10 + (c.toNat - 48) > 65535 then 65535 else parseUintLoop cs (n * 10 + (c.toNat - 48))
    else 0

/-- The value returned by Go `strconv.ParseUint(s, 10, 16)` when the error is ignored. -/
def parseUint16 (s : String) : Nat := parseUintLoop s.data 0

/-- Go `string(r)` for an integer `r`: the UTF-8 text of the code point. -/
def runeString (r : Nat) : String := String.singleton (Char.ofNat r)

/-- The `net` package calls used by the handlers: `net.IP.String` and `net.ParseIP`. -/
structure NetLib where
  ipString : List Byte → String
  parseIP : String → List Byte

/-- A stand-in for the `net` package in examples: IPs rendered as hex text. -/
def hexNetLib : NetLib := ⟨hexEncode, hexDecode⟩

/-- One HTTP POST issued by the reactor: the destination IP text, the path and the JSON
object. -/
structure HttpPost where
  host : String
  path : String
  payload : Params
deriving DecidableEq

/-- Go `ConsensusReactor.sendConsensusMsg` after marshalling: `rawMsg` is the serialized message,
`postOk` tells whether the HTTP POST succeeds. Returns the reactor, the POSTs issued and the
boolean result. -/
def ConsensusReactor.sendConsensusMsg (lib : NetLib) (conR : ConsensusReactor)
    (rawMsg : List Byte) (csPeer : Option ConsensusPeer) (postOk : Bool) :
    ConsensusReactor × List HttpPost × Bool :=
  if rawMsg.length > maxMsgSize then (conR, [], false)
  else
    match csPeer with
    | none => ({ conR with internalMsgQueue := conR.internalMsgQueue ++ [⟨rawMsg, none⟩] }, [], true)
    | some peer =>
      let magicHex := hexEncode conR.magic
      let payload : Params :=
        [("message", hexEncode rawMsg),
         ("peer_ip", lib.ipString conR.myAddr.IP),
         ("peer_port", runeString conR.myAddr.Port),
         ("magic", magicHex)]
      let post : HttpPost := ⟨lib.ipString peer.netAddr.IP, ":8670/consensus", payload⟩
      if postOk then (conR, [post], true) else (conR, [post], false)

/-- Go `newConsensusPeer(ip, port, magic)`. -/
def newConsensusPeer (ip : List Byte) (port : Nat) (magic : List Byte) : ConsensusPeer :=
  ⟨⟨ip, port⟩, magic⟩

/-- Go `ConsensusReactor.receivePeerMsg`: `body` is the result of decoding the request body into
`map[string]string` (nil on failure). Returns the reactor and the HTTP status written, if any. -/
def ConsensusReactor.receivePeerMsg (lib : NetLib) (conR : ConsensusReactor)
    (body : Option Params) : ConsensusReactor × Option Nat :=
  match body with
  | none => (conR, some 400)
  | some params =>
    match params.get "magic" with
    | none => (conR, none)
    | some _ =>
      if params.index "magic" ≠ hexEncode conR.magic then (conR, none)
      else
        let peerIP := lib.parseIP (params.index "peer_ip")
        let peerPort := parseUint16 (params.index "port")
        let peerPortUint16 := peerPort % 2 ^ 16
        let p := newConsensusPeer peerIP peerPortUint16 conR.magic
        let msgByteSlice := hexDecode (params.index "message")
        let mi : consensusMsgInfo := ⟨msgByteSlice, some p⟩
        ({ conR with peerMsgQueue := conR.peerMsgQueue ++ [mi] }, some 200)

/-- Go `Pacemaker.receivePacemakerMsg`: `ch` is `p.pacemakerMsgCh`, `decodeMsg` the message
decoder (declared outside `src/`). Returns the channel and the HTTP status written. -/
def receivePacemakerMsg {μ : Type} (decodeMsg : List Byte → Option μ) (ch : List μ)
    (body : Option Params) : Outcome (List μ × Nat) :=
  match body with
  | none => Outcome.ok (ch, 400)
  | some params =>
    let msgByteSlice := hexDecode (params.index "message")
    match decodeMsg msgByteSlice with
    | none => Outcome.panic "message decode error"
    | some msg => Outcome.ok (ch ++ [msg], 200)

/-- Go `ConsensusReactor.handleMsg`: a message that does not decode is logged and dropped;
`dispatch` stands for the rest of the handler. -/
def ConsensusReactor.handleMsg {μ : Type} (decodeMsg : List Byte → Option μ)
    (dispatch : ConsensusReactor → μ → Option ConsensusPeer → ConsensusReactor)
    (conR : ConsensusReactor) (mi : consensusMsgInfo) : ConsensusReactor :=
  match decodeMsg mi.Msg with
  | none => conR
  | some msg => dispatch conR msg mi.csPeer

/-- The message kinds distinguished by the type switch of `SendConsensusMessage`. -/
inductive PMMsgKind where
  | PMProposalMessage
  | PMVoteForProposalMessage
  | PMNewViewMessage
  | other
deriving DecidableEq

/-- Go `ConsensusReactor.getRoundProposer`: `round % size` is Go's truncated remainder, and a
negative index panics. -/
def ConsensusReactor.getRoundProposer (conR : ConsensusReactor) (round : Int) :
    Outcome CommitteeMember :=
  let size := conR.curActualCommittee.length
  if size = 0 then Outcome.ok ⟨Address.zero, [], 0, [], ⟨[], 0⟩, [], 0⟩
  else
    let i := Int.tmod round size
    if i < 0 then Outcome.panic "index out of range"
    else
      match conR.curActualCommittee.get? i.toNat with
      | some m => Outcome.ok m
      | none => Outcome.panic "index out of range"

/-- Go `ConsensusReactor.GetMyPeers`. -/
def ConsensusReactor.GetMyPeers (lib : NetLib) (conR : ConsensusReactor) : List ConsensusPeer :=
  (conR.curActualCommittee.filter
    (fun member => lib.ipString member.NetAddr.IP ≠ lib.ipString conR.myAddr.IP)).map
    (fun member => newConsensusPeer member.NetAddr.IP member.NetAddr.Port conR.magic)

/-- One `sendData` call of a pacemaker message: target peer and raw bytes. -/
structure PeerSend where
  peer : ConsensusPeer
  rawMsg : List Byte
deriving DecidableEq

/-- The delivery part of `Pacemaker.SendConsensusMessage` (after the size check): the `sendData`
calls made, first the copy to this node, then one per peer. Indexing the committee or the
proposer list out of range panics. `round` is the `uint64` round, converted with `int(round)`. -/
def pacemakerSends (lib : NetLib) (conR : ConsensusReactor) (round : Nat)
    (kind : PMMsgKind) (rawMsg : List Byte) (copyMyself : Bool) : Outcome (List PeerSend) :=
  if conR.curCommittee.isNone ∨ conR.curCommitteeIndex < 0 then
    Outcome.panic "invalid memory address or index out of range"
  else
    match (conR.curCommittee.getD []).get? conR.curCommitteeIndex.toNat with
    | none => Outcome.panic "index out of range"
    | some me =>
      let myNetAddr := me.NetAddr
      let intRound : Int := if round < 2 ^ 63 then (round : Int) else (round : Int) - 2 ^ 64
      let myself : Option ConsensusPeer :=
        if kind = PMMsgKind.PMNewViewMessage then none
        else some (newConsensusPeer myNetAddr.IP myNetAddr.Port conR.magic)
      let peersOut : Outcome (List ConsensusPeer) :=
        match kind with
        | PMMsgKind.PMProposalMessage => Outcome.ok (conR.GetMyPeers lib)
        | PMMsgKind.PMVoteForProposalMessage | PMMsgKind.PMNewViewMessage =>
          match conR.getRoundProposer intRound with
          | Outcome.ok proposer => Outcome.ok [newConsensusPeer proposer.NetAddr.IP 8080 conR.magic]
          | Outcome.panic m => Outcome.panic m
        | PMMsgKind.other => Outcome.ok []
      match peersOut with
      | Outcome.panic m => Outcome.panic m
      | Outcome.ok peers =>
        let own : List PeerSend :=
          match myself with
          | some m => if copyMyself then [⟨m, rawMsg⟩] else []
          | none => []
        Outcome.ok (own ++ peers.map (fun peer => ⟨peer, rawMsg⟩))

/-- Go `Pacemaker.SendConsensusMessage` after marshalling: false for an oversize message, else
the deliveries are made and the result is true. -/
def SendConsensusMessage (lib : NetLib) (conR : ConsensusReactor) (round : Nat)
    (kind : PMMsgKind) (rawMsg : List Byte) (copyMyself : Bool) : Outcome (List PeerSend × Bool) :=
  if rawMsg.length > maxMsgSize then Outcome.ok ([], false)
  else
    match pacemakerSends lib conR round kind rawMsg copyMyself with
    | Outcome.panic m => Outcome.panic m
    | Outcome.ok sends => Outcome.ok (sends, true)

end MeterSdk

namespace MeterSdk

/-- A node at 10.0.0.1:8670 on the network with magic `76 01 00 00`. -/
def senderReactor : ConsensusReactor :=
  { myAddr := ⟨[10, 0, 0, 1], 8670⟩, magic := [0x76, 0x01, 0x00, 0x00] }

/-- A node at 10.0.0.2:8670 on the same network. -/
def receiverReactor : ConsensusReactor :=
  { myAddr := ⟨[10, 0, 0, 2], 8670⟩, magic := [0x76, 0x01, 0x00, 0x00] }

/-- A message decoder that accepts every payload except the empty one. -/
def nonEmptyDecoder (b : List Byte) : Option (List Byte) := if b = [] then none else some b

end MeterSdk

namespace MeterSdk

/-- Go `data.Swap(i, j)` on a slice. -/
def swapAt {α : Type} (l : List α) (i j : Nat) : List α :=
  match l.get? i, l.get? j with
  | some x, some y => (l.set i y).set j x
  | _, _ => l

/-- Go `data.Less(i, j)`: the user comparator on the current elements `i` and `j`. -/
def lessAt {α : Type} (less : α → α → Bool) (l : List α) (i j : Nat) : Bool :=
  match l.get? i, l.get? j with
  | some x, some y => less x y
  | _, _ => false

/-- Inner loop of Go `insertionSort`: `for j := i; j > a && Less(j, j-1); j-- { Swap(j, j-1) }`. -/
def insertLoop {α : Type} (less : α → α → Bool) (a : Nat) : Nat → List α → List α
  | 0, l => l
  | j + 1, l =>
    if a < j + 1 ∧ lessAt less l (j + 1) j then insertLoop less a j (swapAt l (j + 1) j) else l

/-- Outer loop of Go `insertionSort`: `for i := a + 1; i < b; i++`, with `fuel` iterations left. -/
def insertionSortLoop {α : Type} (less : α → α → Bool) (a b : Nat) : Nat → Nat → List α → List α
  | 0, _, l => l
  | fuel + 1, i, l =>
    if i < b then insertionSortLoop less a b fuel (i + 1) (insertLoop less a i l) else l

/-- Go `insertionSort(data, a, b)`. -/
def insertionSort {α : Type} (less : α → α → Bool) (l : List α) (a b : Nat) : List α :=
  insertionSortLoop less a b (b - a) (a + 1) l

/-- Loop of Go `swapRange`: `Swap(a+i, b+i)` for `i` upwards, `rem` iterations left. -/
def swapRangeLoop {α : Type} (a b : Nat) : Nat → Nat → List α → List α
  | 0, _, l => l
  | rem + 1, i, l => swapRangeLoop a b rem (i + 1) (swapAt l (a + i) (b + i))

/-- Go `swapRange(data, a, b, n)`. -/
def swapRange {α : Type} (l : List α) (a b n : Nat) : List α := swapRangeLoop a b n 0 l

/-- Loop of Go `rotate` on the block sizes `i`, `j` around `m`, including the final
`swapRange(m-i, m, i)`; `fuel` bounds the iterations. -/
def rotateLoop {α : Type} (m : Nat) : Nat → Nat → Nat → List α → List α
  | 0, _, _, l => l
  | fuel + 1, i, j, l =>
    if i ≠ j then
      if i > j then rotateLoop m fuel (i - j) j (swapRange l (m - i) m j)
      else rotateLoop m fuel i (j - i) (swapRange l (m - i) (m + j - i) i)
    else swapRange l (m - i) m i

/-- Go `rotate(data, a, m, b)`: exchange the adjacent blocks `[a, m)` and `[m, b)`. -/
def rotate {α : Type} (l : List α) (a m b : Nat) : List α :=
  rotateLoop m ((m - a) + (b - m) + 1) (m - a) (b - m) l

/-- The binary searches of Go `symMerge`: `for i < j { h := (i+j)/2; if pred(h) { i = h+1 }
else { j = h } }`, returning the final `i`. -/
def searchLoop (pred : Nat → Bool) : Nat → Nat → Nat → Nat
  | 0, i, _ => i
  | fuel + 1, i, j =>
    if i < j then
      if pred ((i + j) / 2) then searchLoop pred fuel ((i + j) / 2 + 1) j
      else searchLoop pred fuel i ((i + j) / 2)
    else i

/-- `for k := a; k < e; k++ { Swap(k, k+1) }` with `rem` iterations left. -/
def shiftUpLoop {α : Type} (e : Nat) : Nat → Nat → List α → List α
  | 0, _, l => l
  | rem + 1, k, l => if k < e then shiftUpLoop e rem (k + 1) (swapAt l k (k + 1)) else l

/-- `for k := m; k > i; k-- { Swap(k, k-1) }`. -/
def shiftDownLoop {α : Type} (i : Nat) : Nat → List α → List α
  | 0, l => l
  | k + 1, l => if i < k + 1 then shiftDownLoop i k (swapAt l (k + 1) k) else l

/-- Go `symMerge(data, a, m, b)`: merge the sorted runs `[a, m)` and `[m, b)` in place; `fuel`
bounds the recursion depth. -/
def symMerge {α : Type} (less : α → α → Bool) : Nat → List α → Nat → Nat → Nat → List α
  | 0, l, _, _, _ => l
  | fuel + 1, l, a, m, b =>
    if m - a = 1 then
      let i := searchLoop (fun h => lessAt less l h a) (b - m) m b
      shiftUpLoop (i - 1) (i - 1 - a) a l
    else if b - m = 1 then
      let i := searchLoop (fun h => !lessAt less l m h) (m - a) a m
      shiftDownLoop i m l
    else
      let mid := (a + b) / 2
      let n := mid + m
      let start0 := if m > mid then n - b else a
      let r0 := if m > mid then mid else m
      let p := n - 1
      let start := searchLoop (fun c => !lessAt less l (p - c) c) (r0 - start0) start0 r0
      let e := n - start
      let l1 := if start < m ∧ m < e then rotate l start m e else l
      let l2 := if a < start ∧ start < mid then symMerge less fuel l1 a start mid else l1
      if mid < e ∧ e < b then symMerge less fuel l2 mid e b else l2

/-- First loop of Go `stable`: insertion-sort consecutive blocks `[a, b)` of `blockSize`
elements while `b <= n`; returns the slice and the final `a`. -/
def stableBlocksLoop {α : Type} (less : α → α → Bool) (blockSize n : Nat) :
    Nat → Nat → Nat → List α → List α × Nat
  | 0, a, _, l => (l, a)
  | fuel + 1, a, b, l =>
    if b ≤ n then stableBlocksLoop less blockSize n fuel b (b + blockSize) (insertionSort less l a b)
    else (l, a)

/-- Inner loop of the merge phase of Go `stable`: merge consecutive pairs of blocks while
`b <= n`; returns the slice and the final `a`. -/
def stableMergeLoop {α : Type} (less : α → α → Bool) (blockSize n : Nat) :
    Nat → Nat → Nat → List α → List α × Nat
  | 0, a, _, l => (l, a)
  | fuel + 1, a, b, l =>
    if b ≤ n then
      stableMergeLoop less blockSize n fuel b (b + 2 * blockSize)
        (symMerge less (b - a + 1) l a (a + blockSize) b)
    else (l, a)

/-- Outer loop of the merge phase of Go `stable`: `for blockSize < n { …; blockSize *= 2 }`. -/
def stablePassLoop {α : Type} (less : α → α → Bool) (n : Nat) : Nat → Nat → List α → List α
  | 0, _, l => l
  | fuel + 1, blockSize, l =>
    if blockSize < n then
      let r := stableMergeLoop less blockSize n n 0 (2 * blockSize) l
      let l1 := if r.2 + blockSize < n then symMerge less (n - r.2 + 1) r.1 r.2 (r.2 + blockSize) n
                else r.1
      stablePassLoop less n fuel (blockSize * 2) l1
    else l

/-- Go `stable(data, n)` with `blockSize := 20`. -/
def stable {α : Type} (less : α → α → Bool) (l : List α) : List α :=
  let n := l.length
  let r := stableBlocksLoop less 20 n n 0 20 l
  let l1 := insertionSort less r.1 r.2 n
  stablePassLoop less n n 20 l1

/-- Go `sort.SliceStable(slice, less)`. -/
def SliceStable {α : Type} (less : α → α → Bool) (l : List α) : List α := stable less l

end MeterSdk

namespace MeterSdk

/-- The elements at positions `[a, b)` of `l` are in non-decreasing order for `le`. -/
def SortedOn {α : Type} (le : α → α → Prop) (l : List α) (a b : Nat) : Prop :=
  ∀ i j x y, a ≤ i → i < j → j < b → l[i]? = some x → l[j]? = some y → le x y

/-- Every element at `[a, m)` is `le` every element at `[m, b)`. -/
def BelowOn {α : Type} (le : α → α → Prop) (l : List α) (a m b : Nat) : Prop :=
  ∀ i j x y, a ≤ i → i < m → m ≤ j → j < b → l[i]? = some x → l[j]? = some y → le x y

/-- The slice `l'` differs from `l` only inside `[a, b)`, and every element found there in `l'`
sits somewhere in `[a, b)` of `l`. -/
def Within {α : Type} (l l' : List α) (a b : Nat) : Prop :=
  l'.length = l.length ∧ (∀ k, k < a ∨ b ≤ k → l'[k]? = l[k]?) ∧
  (∀ k, a ≤ k → k < b → ∃ k', a ≤ k' ∧ k' < b ∧ l'[k]? = l[k']?)

/-- The comparator `less` decides a total preorder `le`: a true answer means `le x y`, a false
answer means `le y x`. Both `<` and `<=` on a linear order are such comparators. -/
structure Comparator {α : Type} (less : α → α → Bool) (le : α → α → Prop) : Prop where
  trans : ∀ x y z, le x y → le y z → le x z
  of_true : ∀ x y, less x y = true → le x y
  of_false : ∀ x y, less x y = false → le y x

/-- What the recursive calls of `symMerge` are assumed to do, for a given fuel. -/
def SymMergeOk {α : Type} (less : α → α → Bool) (le : α → α → Prop) (f : Nat) : Prop :=
  ∀ (l : List α) (a m b : Nat), a < m → m < b → b ≤ l.length → b - a ≤ f →
    SortedOn le l a m → SortedOn le l m b →
    SortedOn le (symMerge less f l a m b) a b ∧ Within l (symMerge less f l a m b) a b ∧
    (symMerge less f l a m b).Perm l

end MeterSdk

namespace MeterSdk

/-- Every block `[s, s + bs)` starting at a multiple `s` of `bs`, cut off at `n`, is sorted. -/
def BlocksSorted {α : Type} (le : α → α → Prop) (l : List α) (bs n : Nat) : Prop :=
  ∀ s, bs ∣ s → SortedOn le l s (min (s + bs) n)

end MeterSdk

namespace MeterSdk

/-- Loop of Go `binary.PutUvarint`: `for x >= 0x80 { buf[i] = byte(x) | 0x80; x >>= 7; i++ }`
followed by `buf[i] = byte(x)`. -/
def putUvarintLoop : Nat → Nat → List Byte
  | 0, x => [Fin.ofNat x]
  | fuel + 1, x =>
    if 128 ≤ x then Fin.ofNat (x % 128 + 128) :: putUvarintLoop fuel (x / 128)
    else [Fin.ofNat x]

/-- The bytes written by Go `binary.PutUvarint(buf, x)`: the unsigned LEB128 encoding of `x`. -/
def putUvarint (x : Nat) : List Byte := putUvarintLoop x x

/-- `binary.MaxVarintLen64`. -/
def MaxVarintLen64 : Nat := 10

/-- The buffer of `CalcCommitteeByNonce`: `make([]byte, binary.MaxVarintLen64)` after
`binary.PutUvarint(buf, nonce)`; the bytes behind the encoding stay zero. -/
def nonceBuf (nonce : Nat) : List Byte :=
  putUvarint nonce ++ List.replicate (MaxVarintLen64 - (putUvarint nonce).length) 0

/-- Go `bytes.Compare(a, b) <= 0`: bytewise lexicographic order, a proper prefix first. -/
def bytesLE : List Byte → List Byte → Bool
  | [], _ => true
  | _ :: _, [] => false
  | x :: xs, y :: ys => if x.val < y.val then true else if y.val < x.val then false else bytesLE xs ys

/-- The bytes hashed into a delegate's commit key: `append(crypto.FromECDSAPub(&d.PubKey), buf...)`
with the whole ten-byte buffer. -/
def commitKeyInput (pubKey : List Byte) (nonce : Nat) : List Byte := pubKey ++ nonceBuf nonce

/-- The validators built by the first loop of `CalcCommitteeByNonce`, in delegate order. -/
def committeeVals (keccak256 : List Byte → List Byte) (delegates : List Delegate) (nonce : Nat) :
    List Validator :=
  delegates.map fun d =>
    { Name := d.Name, Address := d.Address, PubKey := d.PubKey, VotingPower := d.VotingPower,
      NetAddr := d.NetAddr, CommitKey := keccak256 (commitKeyInput d.PubKey nonce) }

/-- The comparator passed to `sort.SliceStable` in `CalcCommitteeByNonce`. -/
def commitKeyLE (a b : Validator) : Bool := bytesLE a.CommitKey b.CommitKey

/-- The `for i, val := range vals` search for this node's public key. -/
def findPubKey (myPubKey : List Byte) : List Validator → Nat → Option Nat
  | [], _ => none
  | v :: rest, i => if v.PubKey = myPubKey then some i else findPubKey myPubKey rest (i + 1)

/-- Result of `CalcCommitteeByNonce`: committee, role, index and the in-committee flag. -/
structure CommitteeResult where
  committee : List Validator
  role : Nat
  index : Nat
  inCommittee : Bool
deriving DecidableEq

/-- Go `ConsensusReactor.CalcCommitteeByNonce`. `keccak256` is `crypto.Keccak256`. The slice
expression `vals[:committeeSize]` faults for a negative size or one beyond the delegates held
(the model does not follow slices into spare capacity), and `vals[0]` faults without
delegates. -/
def ConsensusReactor.CalcCommitteeByNonce (keccak256 : List Byte → List Byte)
    (conR : ConsensusReactor) (nonce : Nat) : Outcome CommitteeResult :=
  let vals := SliceStable commitKeyLE (committeeVals keccak256 conR.curDelegates nonce)
  if conR.committeeSize < 0 ∨ (vals.length : Int) < conR.committeeSize then
    Outcome.panic "slice bounds out of range"
  else
    let Committee := vals.take conR.committeeSize.toNat
    match vals with
    | [] => Outcome.panic "index out of range"
    | v0 :: _ =>
      if v0.PubKey = conR.myPubKey then Outcome.ok ⟨Committee, CONSENSUS_COMMIT_ROLE_LEADER, 0, true⟩
      else
        match findPubKey conR.myPubKey vals 0 with
        | some i => Outcome.ok ⟨Committee, CONSENSUS_COMMIT_ROLE_VALIDATOR, i, true⟩
        | none => Outcome.ok ⟨Committee, CONSENSUS_COMMIT_ROLE_NONE, 0, false⟩

/-- A delegate with the given one-byte public key and otherwise zero fields. -/
def delegateOfKey (k : Byte) : Delegate :=
  { Name := "", Address := Address.zero, PubKey := [k], VotingPower := 0, NetAddr := ⟨[], 0⟩ }

/-- A stand-in hash for examples: the first byte of the input. -/
def firstByteHash (b : List Byte) : List Byte := b.take 1

end MeterSdk

namespace MeterSdk

/-- The comparator passed to `sort.SliceStable` in `UpdateActualCommittee`:
`bytes.Compare(a.CommitKey, b.CommitKey) <= 0`. -/
def memberKeyLE (a b : CommitteeMember) : Bool := bytesLE a.CommitKey b.CommitKey

/-- The `for i, index := range indexes` loop of `UpdateActualCommittee`; `pubKeys` is the part
of the slice from position `i` on, `acc` the actual committee built so far. An index that passes
the sanity check is looked up in `Validators`, which faults outside `0 ≤ index < len`. -/
def actualMembersLoop (validators : List Validator) (committeeSize : Int) :
    List Int → List (List Byte) → List CommitteeMember → Outcome (List CommitteeMember)
  | [], _, acc => Outcome.ok acc
  | index :: rest, pubKeys, acc =>
    if index = -1 ∨ index > committeeSize then
      actualMembersLoop validators committeeSize rest pubKeys.tail acc
    else if index < 0 then Outcome.panic "index out of range"
    else
      match validators.get? index.toNat with
      | none => Outcome.panic "index out of range"
      | some v =>
        match pubKeys with
        | [] => Outcome.panic "index out of range"
        | pk :: pks =>
          actualMembersLoop validators committeeSize rest pks
            (acc ++ [{ Address := v.Address, PubKey := v.PubKey, VotingPower := v.VotingPower,
                       CommitKey := v.CommitKey, NetAddr := v.NetAddr, CSPubKey := pk,
                       CSIndex := index }])

/-- Go `ConsensusReactor.UpdateActualCommittee` (the bit array argument is not read). The result
is the reactor after the call and the returned flag, or the fault of a nil `curCommittee`, a nil
`csCommon` or an index outside `Validators`. -/
def ConsensusReactor.UpdateActualCommittee (conR : ConsensusReactor) (indexes : List Int)
    (pubKeys : List (List Byte)) : Outcome (ConsensusReactor × Bool) :=
  if indexes.length ≠ pubKeys.length ∨ (indexes.length : Int) > conR.committeeSize then
    Outcome.ok (conR, false)
  else
    match conR.curCommittee with
    | none => Outcome.panic "invalid memory address or nil pointer dereference"
    | some validators =>
      if conR.curCommitteeIndex < 0 then Outcome.panic "index out of range"
      else
        match validators.get? conR.curCommitteeIndex.toNat with
        | none => Outcome.panic "index out of range"
        | some l =>
          match conR.csCommon with
          | none => Outcome.panic "invalid memory address or nil pointer dereference"
          | some common =>
            let cm : CommitteeMember :=
              { Address := l.Address, PubKey := l.PubKey, VotingPower := l.VotingPower,
                CommitKey := l.CommitKey, NetAddr := l.NetAddr, CSPubKey := common.PubKey,
                CSIndex := conR.curCommitteeIndex }
            match actualMembersLoop validators conR.committeeSize indexes pubKeys
                (conR.curActualCommittee ++ [cm]) with
            | Outcome.panic msg => Outcome.panic msg
            | Outcome.ok members =>
              if members.length = 0 then
                Outcome.ok ({ conR with curActualCommittee := members }, false)
              else
                let sorted := SliceStable memberKeyLE members
                let conR1 := { conR with curActualCommittee := sorted }
                match sorted with
                | [] => Outcome.panic "index out of range"
                | first :: _ =>
                  if first.PubKey = conR.myPubKey then Outcome.ok (conR1, true)
                  else Outcome.ok (conR1, false)

/-- Go `ConsensusReactor.getCurrentProposer`. -/
def ConsensusReactor.getCurrentProposer (conR : ConsensusReactor) : Outcome CommitteeMember :=
  let size := conR.curActualCommittee.length
  if size = 0 then Outcome.ok ⟨Address.zero, [], 0, [], ⟨[], 0⟩, [], 0⟩
  else
    let i := Int.tmod conR.curRound conR.curActualCommittee.length
    if i < 0 then Outcome.panic "index out of range"
    else
      match conR.curActualCommittee.get? i.toNat with
      | some m => Outcome.ok m
      | none => Outcome.panic "index out of range"

/-- The constructors called by `enterConsensusLeader`, declared outside `src/`:
`NewConsensusCommon(conR)` and `NewCommitteeLeader(conR)`. -/
structure LeaderEnv where
  NewConsensusCommon : ConsensusReactor → ConsensusCommon
  NewCommitteeLeader : ConsensusReactor → ConsensusLeader

/-- Go `ConsensusReactor.enterConsensusLeader`. An existing `csCommon` is released
(`ConsensusCommonDeinit`) before it is replaced. -/
def ConsensusReactor.enterConsensusLeader (env : LeaderEnv) (conR : ConsensusReactor)
    (epochID : Nat) : ConsensusReactor :=
  if epochID ≤ conR.curEpoch then conR
  else
    let c1 := { conR with csCommon := some (env.NewConsensusCommon conR) }
    let c2 := { c1 with csLeader := some (env.NewCommitteeLeader c1) }
    let c3 := { c2 with csRoleInitialized := Nat.lor c2.csRoleInitialized CONSENSUS_COMMIT_ROLE_LEADER }
    let c4 := { c3 with curEpoch := epochID }
    { c4 with csLeader := c4.csLeader.map fun l => { l with EpochID := epochID } }

/-- A validator with the given public key and commit key and otherwise zero fields. -/
def validatorOfKeys (pubKey commitKey : List Byte) : Validator :=
  { Name := "", Address := Address.zero, PubKey := pubKey, VotingPower := 0, NetAddr := ⟨[], 0⟩,
    CommitKey := commitKey }

/-- A committee member with the given public key and otherwise zero fields. -/
def memberOfKey (pubKey : List Byte) : CommitteeMember :=
  ⟨Address.zero, pubKey, 0, [], ⟨[], 0⟩, [], 0⟩

/-- A leader reactor whose committee holds two validators; this node is the one at position 0
and has the smaller commit key. -/
def leaderReactor : ConsensusReactor :=
  { myPubKey := [7], committeeSize := 2, curCommitteeIndex := 0,
    curCommittee := some [validatorOfKeys [7] [1], validatorOfKeys [8] [2]],
    csCommon := some ⟨[9]⟩ }

/-- A leader reactor whose committee holds exactly `committeeSize = 1` validators. -/
def singleReactor : ConsensusReactor :=
  { myPubKey := [7], committeeSize := 1, curCommitteeIndex := 0,
    curCommittee := some [validatorOfKeys [7] [1]], csCommon := some ⟨[9]⟩ }

/-- Stand-ins for the constructors of `LeaderEnv`. -/
def sampleLeaderEnv : LeaderEnv := ⟨fun _ => ⟨[]⟩, fun _ => ⟨0⟩⟩

end MeterSdk

namespace MeterSdk

/-- Go `powObject` as far as `latestHeightMarker` reads it: `Height()` is a `uint32`. The type is
declared outside `src/`; `tag` stands for the rest of the object. -/
structure powObject where
  height : Nat
  tag : Nat
deriving DecidableEq

/-- Go `powObject.Height`. -/
def powObject.Height (o : powObject) : Nat := o.height

/-- Go `latestHeightMarker`. -/
structure latestHeightMarker where
  height : Nat
  powObjs : List powObject
deriving DecidableEq

/-- Go `newLatestHeightMarker`. -/
def newLatestHeightMarker : latestHeightMarker := ⟨0, []⟩

/-- Go `latestHeightMarker.update`. -/
def latestHeightMarker.update (mkr : latestHeightMarker) (powObj : powObject) :
    latestHeightMarker :=
  let newHeight := powObj.Height
  if newHeight > mkr.height then { height := newHeight, powObjs := [powObj] }
  else if newHeight = mkr.height then { mkr with powObjs := mkr.powObjs ++ [powObj] }
  else mkr

/-- A sequence of `update` calls, oldest first. -/
def latestHeightMarker.updates (mkr : latestHeightMarker) (objs : List powObject) :
    latestHeightMarker :=
  objs.foldl latestHeightMarker.update mkr

/-- The maximum of `Height()` over a list of objects, 0 for the empty list. -/
def maxHeight (objs : List powObject) : Nat := objs.foldl (fun m o => max m o.Height) 0

end MeterSdk

namespace MeterSdk

/-- The memory of `*big.Int` values: the integer held at each address. A `*big.Int` is an
address; `big.NewInt` and `new(big.Int)` allocate the next free address. -/
abbrev BigHeap := List Int

/-- The value of the `big.Int` at an address. -/
def BigHeap.read (h : BigHeap) (a : Nat) : Int := h.getD a 0

/-- Store a value in the `big.Int` at an address. -/
def BigHeap.write (h : BigHeap) (a : Nat) (v : Int) : BigHeap := h.set a v

/-- Go `big.NewInt(v)`: a fresh `big.Int` holding `v`. -/
def BigHeap.NewInt (h : BigHeap) (v : Int) : BigHeap × Nat := (h ++ [v], h.length)

/-- Go `z.Add(x, y)`: sets `z` to `x + y` (and returns `z`). -/
def BigHeap.Add (h : BigHeap) (z x y : Nat) : BigHeap := h.write z (h.read x + h.read y)

/-- Go `z.Sub(x, y)`: sets `z` to `x - y`. -/
def BigHeap.Sub (h : BigHeap) (z x y : Nat) : BigHeap := h.write z (h.read x - h.read y)

/-- Go `z.Mul(x, y)`: sets `z` to `x * y`. -/
def BigHeap.Mul (h : BigHeap) (z x y : Nat) : BigHeap := h.write z (h.read x * h.read y)

/-- Go `z.Div(x, y)`: sets `z` to the Euclidean quotient of `x` by `y`; a zero `y` panics. -/
def BigHeap.Div (h : BigHeap) (z x y : Nat) : Outcome BigHeap :=
  if h.read y = 0 then Outcome.panic "division by zero"
  else Outcome.ok (h.write z (Int.ediv (h.read x) (h.read y)))

/-- Go `x.Cmp(y)`. -/
def BigHeap.Cmp (h : BigHeap) (x y : Nat) : Int :=
  if h.read x < h.read y then -1 else if h.read x = h.read y then 0 else 1

end MeterSdk

namespace MeterSdk

/-- Go `staking.Bucket` with the fields read here (the type is declared outside `src/`);
`TotalVotes` is a `*big.Int`. -/
structure Bucket where
  Owner : Address
  Candidate : Address
  TotalVotes : Nat
deriving DecidableEq

/-- Go `staking.Candidate` with the fields read here; `Buckets` are bucket ids
(`meter.Bytes32`), `TotalVotes` is a `*big.Int`. -/
structure Candidate where
  Addr : Address
  Buckets : List Bytes32
  TotalVotes : Nat
deriving DecidableEq

/-- Go `staking.BucketList`, of which only `Get` is called: the bucket with an id, or nil. -/
structure BucketList where
  Get : Bytes32 → Option Bucket

/-- The loop of `GetCandidateSelfBuckets`; reading `b.Owner` of a nil bucket panics. -/
def selfBucketsLoop (c : Candidate) (bl : BucketList) :
    List Bytes32 → List Bucket → Outcome (List Bucket)
  | [], self => Outcome.ok self
  | id :: rest, self =>
    match bl.Get id with
    | none => Outcome.panic "invalid memory address or nil pointer dereference"
    | some b =>
      if b.Owner = c.Addr ∧ b.Candidate = c.Addr then selfBucketsLoop c bl rest (self ++ [b])
      else selfBucketsLoop c bl rest self

/-- Go `GetCandidateSelfBuckets`: the buckets and whether the error "not found" is returned. -/
def GetCandidateSelfBuckets (c : Candidate) (bl : BucketList) : Outcome (List Bucket × Bool) :=
  match selfBucketsLoop c bl c.Buckets [] with
  | Outcome.panic msg => Outcome.panic msg
  | Outcome.ok self => if self.length = 0 then Outcome.ok (self, true) else Outcome.ok (self, false)

/-- The loop `for _, b := range bkts { self = self.Add(self, b.TotalVotes) }`. -/
def sumVotesLoop (self : Nat) : List Bucket → BigHeap → BigHeap
  | [], h => h
  | b :: rest, h => sumVotesLoop self rest (h.Add self self b.TotalVotes)

/-- The statements of `CheckCandEnoughSelfVotes` after the summation loop:
`total := new(big.Int).Add(c.TotalVotes, newVotes)`,
`total = total.Div(total, big.NewInt(ratio))` and the comparison `total.Cmp(self) > 0`. -/
def ratioCheck (ratio : Int) (h : BigHeap) (self totalVotes newVotes : Nat) :
    Outcome (BigHeap × Bool) :=
  let (h3, total) := h.NewInt 0
  let h4 := h3.Add total totalVotes newVotes
  let (h5, r) := h4.NewInt ratio
  match h5.Div total total r with
  | Outcome.panic msg => Outcome.panic msg
  | Outcome.ok h6 =>
    if h6.Cmp total self > 0 then Outcome.ok (h6, false) else Outcome.ok (h6, true)

/-- Go `CheckCandEnoughSelfVotes`; `ratio` is the constant
`MAX_CANDIDATE_SELF_TOTAK_VOTE_RATIO`, which is declared outside `src/`. The result is the
`big.Int` memory after the call and the returned flag. -/
def CheckCandEnoughSelfVotes (ratio : Int) (h : BigHeap) (newVotes : Nat) (c : Candidate)
    (bl : BucketList) : Outcome (BigHeap × Bool) :=
  match GetCandidateSelfBuckets c bl with
  | Outcome.panic msg => Outcome.panic msg
  | Outcome.ok (bkts, err) =>
    if err then Outcome.ok (h, false)
    else
      let (h1, self) := h.NewInt 0
      let h2 := sumVotesLoop self bkts h1
      ratioCheck ratio h2 self c.TotalVotes newVotes

/-- The self-owned buckets of a candidate among the buckets its ids resolve to. -/
def selfBuckets (c : Candidate) (bl : BucketList) : List Bucket :=
  (c.Buckets.filterMap bl.Get).filter fun b => b.Owner = c.Addr ∧ b.Candidate = c.Addr

/-- The sum of the `TotalVotes` of a list of buckets. -/
def sumVotes (h : BigHeap) (bkts : List Bucket) : Int :=
  (bkts.map fun b => h.read b.TotalVotes).sum

/-- An address made of twenty equal bytes. -/
def addressOfByte (x : Byte) : Address := ⟨List.replicate 20 x, by simp⟩

/-- A sample candidate with one bucket id whose `TotalVotes` is the `big.Int` at address 0. -/
def sampleCandidate : Candidate := ⟨addressOfByte 1, [Bytes32.zero], 0⟩

/-- A sample bucket list in which every id resolves to a bucket owned by the sample candidate
whose `TotalVotes` is the `big.Int` at address 2. -/
def sampleBucketList : BucketList := ⟨fun _ => some ⟨addressOfByte 1, addressOfByte 1, 2⟩⟩

end MeterSdk

namespace MeterSdk

/-- Go `auction.AuctionTx` with the fields read here (declared outside `src/`); `Amount` is a
`*big.Int`. -/
structure AuctionTx where
  Addr : Address
  Amount : Nat
deriving DecidableEq

/-- Go `auction.AuctionCB` with the fields read here (declared outside `src/`); `RlsdMTRG`,
`RsvdPrice` and `RcvdMTR` are `*big.Int`. -/
structure AuctionCB where
  RlsdMTRG : Nat
  RsvdPrice : Nat
  RcvdMTR : Nat
  AuctionTxs : List AuctionTx
deriving DecidableEq

/-- The part of the state database written by `ClearAuction`: the balances minted so far, oldest
first (`stateDB.MintBalance`, declared outside `src/`). -/
abbrev MintLog := List (Address × Int)

/-- Go `Auction.SendMTRGToBidder`: nothing for a zero amount, else a mint. -/
def SendMTRGToBidder (h : BigHeap) (addr : Address) (amount : Nat) (log : MintLog) : MintLog :=
  if h.read amount = 0 then log else log ++ [(addr, h.read amount)]

/-- `AuctionAccountAddr`: the bytes of "auction-account-address" cut to the last 20. -/
def AuctionAccountAddr : Address :=
  ⟨[116, 105, 111, 110, 45, 97, 99, 99, 111, 117, 110, 116, 45, 97, 100, 100, 114, 101, 115,
    115], by decide⟩

/-- The loop of `ClearAuction` over the bids:
`mtrg := tx.Amount.Div(tx.Amount, actualPrice)`, the transfer to the bidder and
`total = total.Add(total, mtrg)`. The receiver of `Div` is the bid's own `Amount`. -/
def clearLoop (actualPrice total : Nat) :
    List AuctionTx → BigHeap → MintLog → Outcome (BigHeap × MintLog)
  | [], h, log => Outcome.ok (h, log)
  | tx :: rest, h, log =>
    match h.Div tx.Amount tx.Amount actualPrice with
    | Outcome.panic msg => Outcome.panic msg
    | Outcome.ok h1 =>
      let mtrg := tx.Amount
      let log1 := SendMTRGToBidder h1 tx.Addr mtrg log
      clearLoop actualPrice total rest (h1.Add total total mtrg) log1

/-- Result of `ClearAuction`: the `big.Int` memory and the mints after the call, and the two
returned pointers (the returned error is always nil). -/
structure ClearResult where
  heap : BigHeap
  actualPrice : Nat
  leftOver : Nat
  mints : MintLog
deriving DecidableEq

/-- Go `Auction.ClearAuction`. -/
def ClearAuction (h : BigHeap) (cb : AuctionCB) : Outcome ClearResult :=
  let (h1, actualPrice0) := h.NewInt 0
  match h1.Div actualPrice0 cb.RcvdMTR cb.RlsdMTRG with
  | Outcome.panic msg => Outcome.panic msg
  | Outcome.ok h2 =>
    let (h3, e18) := h2.NewInt 1000000000000000000
    let h4 := h3.Mul actualPrice0 actualPrice0 e18
    let actualPrice := if h4.Cmp actualPrice0 cb.RsvdPrice < 0 then cb.RsvdPrice else actualPrice0
    let (h5, total) := h4.NewInt 0
    match clearLoop actualPrice total cb.AuctionTxs h5 [] with
    | Outcome.panic msg => Outcome.panic msg
    | Outcome.ok (h6, log) =>
      let (h7, leftOver) := h6.NewInt 0
      let h8 := h7.Sub leftOver cb.RlsdMTRG total
      let log1 := SendMTRGToBidder h8 AuctionAccountAddr leftOver log
      Outcome.ok ⟨h8, actualPrice, leftOver, log1⟩

/-- A sample auction: the `big.Int` memory holds `RlsdMTRG = 4`, `RsvdPrice = 10^18`,
`RcvdMTR = 8` and one bid of `6 * 10^18` at addresses 0 to 3. -/
def sampleAuctionHeap : BigHeap := [4, 1000000000000000000, 8, 6000000000000000000]

/-- The control block of the sample auction. -/
def sampleAuctionCB : AuctionCB := ⟨0, 1, 2, [⟨addressOfByte 1, 3⟩]⟩

end MeterSdk

namespace MeterSdk

theorem log2Fuel_spec (fuel : Nat) : ∀ n : Nat, n ≤ fuel → 0 < n →
    2 ^ log2Fuel fuel n ≤ n ∧ n < 2 ^ (log2Fuel fuel n + 1) := by
  induction fuel with
  | zero => intro n h hn; omega
  | succ f ih =>
    intro n h hn
    unfold log2Fuel
    by_cases h2 : n < 2
    · simp only [h2, if_true]
      constructor <;> simp <;> omega
    · simp only [h2, if_false]
      have hpos : 0 < n / 2 := Nat.div_pos (by omega) (by norm_num)
      have hle : n / 2 ≤ f := by omega
      obtain ⟨h1, h3⟩ := ih (n / 2) hle hpos
      constructor
      · rw [pow_succ]; omega
      · rw [pow_succ]; omega

theorem floorLog2_spec (n : Nat) (hn : 0 < n) :
    2 ^ floorLog2 n ≤ n ∧ n < 2 ^ (floorLog2 n + 1) :=
  log2Fuel_spec n n le_rfl hn

theorem roundHalfEven_mul (q d : Nat) (hd : 0 < d) : roundHalfEven (q * d) d = q := by
  unfold roundHalfEven
  simp [Nat.mul_div_cancel _ hd, hd]

theorem roundHalfEven_ge (n d : Nat) : n / d ≤ roundHalfEven n d := by
  unfold roundHalfEven
  simp only
  split_ifs <;> omega

theorem roundHalfEven_bounds (n d : Nat) (hd : 0 < d) :
    2 * n ≤ 2 * (d * roundHalfEven n d) + d ∧ 2 * (d * roundHalfEven n d) ≤ 2 * n + d := by
  have hdm := Nat.div_add_mod n d
  have hlt := Nat.mod_lt n hd
  unfold roundHalfEven
  simp only
  generalize n / d = q at *
  generalize n % d = r at *
  split_ifs <;> (try simp only [Nat.mul_add, Nat.mul_one]) <;> generalize d * q = p at * <;> omega

theorem pow2Num_pos (e : Int) : 0 < pow2Num e := by
  unfold pow2Num; split_ifs <;> positivity

theorem pow2Den_pos (e : Int) : 0 < pow2Den e := by
  unfold pow2Den; split_ifs <;> positivity

theorem pow2_val (e : Int) : ((pow2Num e : ℚ) / (pow2Den e : ℚ)) = (2 : ℚ) ^ e := by
  unfold pow2Num pow2Den
  by_cases h : 0 ≤ e
  · have h2 : ¬ e < 0 := by omega
    simp only [h, h2, if_true, if_false]
    obtain ⟨k, rfl⟩ := Int.eq_ofNat_of_zero_le h
    simp
  · have h2 : e < 0 := by omega
    simp only [h, h2, if_true, if_false]
    obtain ⟨k, hk⟩ := Int.eq_ofNat_of_zero_le (show 0 ≤ -e by omega)
    have : e = -(k : Int) := by omega
    subst this
    simp

end MeterSdk

namespace MeterSdk

theorem pow2_test_iff (n d : Nat) (e : Int) (hd : 0 < d) :
    d * pow2Num e ≤ n * pow2Den e ↔ (2 : ℚ) ^ e ≤ (n : ℚ) / d := by
  have hd' : (0 : ℚ) < d := by exact_mod_cast hd
  have hp : (0 : ℚ) < pow2Den e := by exact_mod_cast pow2Den_pos e
  rw [← pow2_val, div_le_div_iff₀ hp hd']
  constructor
  · intro h
    have : ((d * pow2Num e : Nat) : ℚ) ≤ ((n * pow2Den e : Nat) : ℚ) := by exact_mod_cast h
    push_cast at this
    linarith
  · intro h
    have : ((pow2Num e * d : Nat) : ℚ) ≤ ((n * pow2Den e : Nat) : ℚ) := by
      push_cast; linarith
    have h2 : pow2Num e * d ≤ n * pow2Den e := by exact_mod_cast this
    linarith

theorem binade_spec (n d : Nat) (hn : 0 < n) (hd : 0 < d) :
    (2 : ℚ) ^ binade n d ≤ (n : ℚ) / d ∧ (n : ℚ) / d < (2 : ℚ) ^ (binade n d + 1) := by
  have hd' : (0 : ℚ) < d := by exact_mod_cast hd
  have hn' : (0 : ℚ) < n := by exact_mod_cast hn
  obtain ⟨ha1, ha2⟩ := floorLog2_spec n hn
  obtain ⟨hb1, hb2⟩ := floorLog2_spec d hd
  have ha1' : (2 : ℚ) ^ (floorLog2 n : Int) ≤ n := by
    rw [zpow_natCast]; exact_mod_cast ha1
  have ha2' : (n : ℚ) < (2 : ℚ) ^ ((floorLog2 n : Int) + 1) := by
    rw [show ((floorLog2 n : Int) + 1) = ((floorLog2 n + 1 : Nat) : Int) by push_cast; rfl, zpow_natCast]
    exact_mod_cast ha2
  have hb1' : (2 : ℚ) ^ (floorLog2 d : Int) ≤ d := by
    rw [zpow_natCast]; exact_mod_cast hb1
  have hb2' : (d : ℚ) < (2 : ℚ) ^ ((floorLog2 d : Int) + 1) := by
    rw [show ((floorLog2 d : Int) + 1) = ((floorLog2 d + 1 : Nat) : Int) by push_cast; rfl, zpow_natCast]
    exact_mod_cast hb2
  have h2 : (0 : ℚ) < 2 := by norm_num
  -- upper bound n / d < 2 ^ (a - b + 1)
  have hup : (n : ℚ) / d < (2 : ℚ) ^ ((floorLog2 n : Int) - (floorLog2 d : Int) + 1) := by
    rw [div_lt_iff hd']
    have : (2 : ℚ) ^ ((floorLog2 n : Int) - (floorLog2 d : Int) + 1) * (2 : ℚ) ^ (floorLog2 d : Int)
        = (2 : ℚ) ^ ((floorLog2 n : Int) + 1) := by
      rw [← zpow_add₀ (by norm_num : (2 : ℚ) ≠ 0)]; congr 1; ring
    calc (n : ℚ) < (2 : ℚ) ^ ((floorLog2 n : Int) + 1) := ha2'
      _ = (2 : ℚ) ^ ((floorLog2 n : Int) - (floorLog2 d : Int) + 1) * (2 : ℚ) ^ (floorLog2 d : Int) := this.symm
      _ ≤ (2 : ℚ) ^ ((floorLog2 n : Int) - (floorLog2 d : Int) + 1) * d :=
          mul_le_mul_of_nonneg_left hb1' (le_of_lt (zpow_pos h2 _))
  -- lower bound 2 ^ (a - b - 1) ≤ n / d
  have hlo : (2 : ℚ) ^ ((floorLog2 n : Int) - (floorLog2 d : Int) - 1) ≤ (n : ℚ) / d := by
    rw [le_div_iff hd']
    have : (2 : ℚ) ^ ((floorLog2 n : Int) - (floorLog2 d : Int) - 1) * (2 : ℚ) ^ ((floorLog2 d : Int) + 1)
        = (2 : ℚ) ^ (floorLog2 n : Int) := by
      rw [← zpow_add₀ (by norm_num : (2 : ℚ) ≠ 0)]; congr 1; ring
    calc (2 : ℚ) ^ ((floorLog2 n : Int) - (floorLog2 d : Int) - 1) * d
        ≤ (2 : ℚ) ^ ((floorLog2 n : Int) - (floorLog2 d : Int) - 1) * (2 : ℚ) ^ ((floorLog2 d : Int) + 1) :=
          mul_le_mul_of_nonneg_left (le_of_lt hb2') (le_of_lt (zpow_pos h2 _))
      _ = (2 : ℚ) ^ (floorLog2 n : Int) := this
      _ ≤ n := ha1'
  unfold binade
  simp only
  by_cases ht : d * pow2Num ((floorLog2 n : Int) - (floorLog2 d : Int))
      ≤ n * pow2Den ((floorLog2 n : Int) - (floorLog2 d : Int))
  · simp only [ht, if_true]
    exact ⟨(pow2_test_iff n d _ hd).1 ht, hup⟩
  · simp only [ht, if_false]
    refine ⟨hlo, ?_⟩
    have := mt (pow2_test_iff n d _ hd).2 ht
    rw [sub_add_cancel]
    exact lt_of_not_le this

theorem binade_le_of_lt (n d : Nat) (hn : 0 < n) (hd : 0 < d) (k : Nat)
    (h : (n : ℚ) / d < (2 : ℚ) ^ k) : binade n d ≤ (k : Int) - 1 := by
  obtain ⟨h1, _⟩ := binade_spec n d hn hd
  have hlt : (2 : ℚ) ^ binade n d < (2 : ℚ) ^ (k : Int) := by
    rw [zpow_natCast]; exact lt_of_le_of_lt h1 h
  have := (zpow_lt_zpow_iff_right₀ (by norm_num : (1 : ℚ) < 2)).1 hlt
  omega

end MeterSdk

namespace MeterSdk

theorem F64.round_of_binade_le (n d k : Nat) (hd : 0 < d) (hk : 0 < k) (hn : n = k * d)
    (he : binade n d ≤ 52) : (F64.round n d).isNat k := by
  have hn0 : n ≠ 0 := by subst hn; positivity
  unfold F64.round F64.isNat
  simp only [hn0, if_false]
  have hs : (0 : Int) ≤ 52 - binade n d := by omega
  have hs' : ¬ (52 - binade n d < 0) := by omega
  simp only [pow2Num, pow2Den, hs, hs', if_true, if_false, Nat.mul_one]
  refine ⟨by positivity, ?_⟩
  subst hn
  rw [show k * d * 2 ^ (52 - binade (k * d) d).toNat = (k * 2 ^ (52 - binade (k * d) d).toNat) * d by ring]
  rw [roundHalfEven_mul _ _ hd]

theorem F64.round_exact (n d k : Nat) (hd : 0 < d) (hk : 0 < k) (hn : n = k * d)
    (hlt : k < 2 ^ 53) : (F64.round n d).isNat k := by
  apply F64.round_of_binade_le n d k hd hk hn
  have hn0 : 0 < n := by subst hn; positivity
  have hd' : (0 : ℚ) < d := by exact_mod_cast hd
  have : (n : ℚ) / d < (2 : ℚ) ^ 53 := by
    subst hn
    push_cast
    rw [mul_div_assoc, div_self (ne_of_gt hd'), mul_one]
    exact_mod_cast hlt
  have := binade_le_of_lt n d hn0 hd 53 this
  omega

theorem F64.round_exact_even (n d j : Nat) (hd : 0 < d) (hj : 0 < j) (hn : n = 2 * j * d)
    (hlt : j < 2 ^ 53) : (F64.round n d).isNat (2 * j) := by
  have hn0 : 0 < n := by subst hn; positivity
  have hd' : (0 : ℚ) < d := by exact_mod_cast hd
  have hb : (n : ℚ) / d < (2 : ℚ) ^ 54 := by
    subst hn
    push_cast
    rw [mul_div_assoc, div_self (ne_of_gt hd'), mul_one]
    have : (j : ℚ) < 2 ^ 53 := by exact_mod_cast hlt
    linarith
  have h53 := binade_le_of_lt n d hn0 hd 54 hb
  by_cases he : binade n d ≤ 52
  · exact F64.round_of_binade_le n d (2 * j) hd (by positivity) hn he
  · have he' : binade n d = 53 := by omega
    have hn0' : n ≠ 0 := by omega
    unfold F64.round F64.isNat
    simp only [hn0', if_false, he']
    have e1 : pow2Num (52 - 53) = 1 := by decide
    have e2 : pow2Den (52 - 53) = 2 := by decide
    rw [e1, e2]
    refine ⟨by norm_num, ?_⟩
    subst hn
    rw [show 2 * j * d * 1 = j * (d * 2) by ring, roundHalfEven_mul _ _ (by positivity)]
    ring

theorem F64.ofNat_isNat (k : Nat) (hk : 0 < k) (hlt : k < 2 ^ 53) : (F64.ofNat k).isNat k :=
  F64.round_exact k 1 k (by norm_num) hk (by ring) hlt

theorem F64.mul_two_isNat (x y : F64) (k : Nat) (hx : x.isNat k) (hy : y.isNat 2) (hk : 0 < k)
    (hlt : k < 2 ^ 53) : (F64.mul x y).isNat (2 * k) := by
  obtain ⟨hd, hnum⟩ := hx
  obtain ⟨hd2, hnum2⟩ := hy
  unfold F64.mul
  apply F64.round_exact_even _ _ k (by positivity) hk _ hlt
  rw [hnum, hnum2]; ring

/-- Integer ceiling of `a / 3` after the float division: exact while `a / 3 < 2 ^ 52`. -/
theorem F64.ceil_div_three (x y : F64) (a : Nat) (hx : x.isNat a) (hy : y.isNat 3) (ha : 0 < a)
    (hlt : a < 3 * 2 ^ 52) : F64.ceil (F64.div x y) = ⟨(a + 2) / 3, 1⟩ := by
  obtain ⟨hd, hnum⟩ := hx
  obtain ⟨hd3, hnum3⟩ := hy
  unfold F64.div
  -- the exact quotient is n' / d' with 3 * n' = a * d'
  set n' := x.num * y.den with hn'
  set d' := x.den * y.num with hd'
  have hd'pos : 0 < d' := by rw [hd', hnum3]; positivity
  have hn'pos : 0 < n' := by rw [hn', hnum]; positivity
  have hrel : 3 * n' = a * d' := by rw [hn', hd', hnum, hnum3]; ring
  have hdq : (0 : ℚ) < d' := by exact_mod_cast hd'pos
  have hval : (n' : ℚ) / d' = (a : ℚ) / 3 := by
    rw [div_eq_div_iff (ne_of_gt hdq) (by norm_num)]
    have : ((3 * n' : Nat) : ℚ) = ((a * d' : Nat) : ℚ) := by rw [hrel]
    push_cast at this; linarith
  have hb : (n' : ℚ) / d' < (2 : ℚ) ^ 52 := by
    rw [hval, div_lt_iff (by norm_num)]
    have : (a : ℚ) < 3 * 2 ^ 52 := by exact_mod_cast hlt
    linarith
  have he := binade_le_of_lt n' d' hn'pos hd'pos 52 hb
  have hn0 : n' ≠ 0 := by omega
  unfold F64.round F64.ceil
  simp only [hn0, if_false]
  have hs : (0 : Int) ≤ 52 - binade n' d' := by omega
  have hs' : ¬ (52 - binade n' d' < 0) := by omega
  simp only [pow2Num, pow2Den, hs, hs', if_true, if_false, Nat.mul_one]
  obtain ⟨t, ht⟩ : ∃ t : Nat, (52 - binade n' d').toNat = t + 1 :=
    ⟨(52 - binade n' d').toNat - 1, by omega⟩
  rw [ht]
  have hS2 : 2 ≤ 2 ^ (t + 1) := by
    rw [pow_succ]
    have : 0 < 2 ^ t := by positivity
    omega
  generalize 2 ^ (t + 1) = S at hS2
  obtain ⟨hlo, hhi⟩ := roundHalfEven_bounds (n' * S) d' hd'pos
  generalize hm : roundHalfEven (n' * S) d' = m at hlo hhi
  congr 1
  -- decompose a = 3 q + r
  have hqr := Nat.div_add_mod a 3
  have hr := Nat.mod_lt a (show 0 < 3 by norm_num)
  have hSpos : 0 < S := by omega
  have hX : 3 * (n' * S) = 3 * ((a / 3) * (d' * S)) + (a % 3) * (d' * S) := by
    calc 3 * (n' * S) = (3 * n') * S := by ring
      _ = (a * d') * S := by rw [hrel]
      _ = ((3 * (a / 3) + a % 3) * d') * S := by rw [hqr]
      _ = _ := by ring
  have hP : 2 * d' ≤ d' * S := by
    have := Nat.mul_le_mul_left d' hS2
    linarith
  by_cases hr0 : a % 3 = 0
  · -- exact quotient
    have hn'q : n' = (a / 3) * d' := by
      have : 3 * n' = 3 * ((a / 3) * d') := by
        rw [hrel]
        calc a * d' = (3 * (a / 3) + a % 3) * d' := by rw [hqr]
          _ = _ := by rw [hr0]; ring
      omega
    have hmq : m = (a / 3) * S := by
      rw [← hm, hn'q, show a / 3 * d' * S = (a / 3 * S) * d' by ring, roundHalfEven_mul _ _ hd'pos]
    rw [hmq]
    have e1 : (a + 2) / 3 = a / 3 := by omega
    rw [e1]
    apply Nat.div_eq_of_lt_le
    · omega
    · rw [Nat.succ_mul]; omega
  · have e1 : (a + 2) / 3 = a / 3 + 1 := by omega
    rw [e1]
    have hr1 : 1 ≤ a % 3 := by omega
    have hr2 : a % 3 ≤ 2 := by omega
    have hrP1 : d' * S ≤ (a % 3) * (d' * S) := by
      have := Nat.mul_le_mul_right (d' * S) hr1
      linarith
    have hrP2 : (a % 3) * (d' * S) ≤ 2 * (d' * S) := Nat.mul_le_mul_right (d' * S) hr2
    have hlow : (a / 3) * S < m := by
      by_contra hcon
      have hcon' : m ≤ (a / 3) * S := by omega
      have hY : d' * m ≤ (a / 3) * (d' * S) := by
        have := Nat.mul_le_mul_left d' hcon'
        calc d' * m ≤ d' * ((a / 3) * S) := this
          _ = _ := by ring
      generalize n' * S = X at *
      generalize d' * m = Y at *
      generalize (a / 3) * (d' * S) = Q at *
      generalize (a % 3) * (d' * S) = R at *
      generalize d' * S = P at *
      omega
    have hupp : m ≤ (a / 3 + 1) * S := by
      by_contra hcon
      have hcon' : (a / 3 + 1) * S + 1 ≤ m := by omega
      have hY : (a / 3) * (d' * S) + d' * S + d' ≤ d' * m := by
        have := Nat.mul_le_mul_left d' hcon'
        calc (a / 3) * (d' * S) + d' * S + d' = d' * ((a / 3 + 1) * S + 1) := by ring
          _ ≤ d' * m := this
      generalize n' * S = X at *
      generalize d' * m = Y at *
      generalize (a / 3) * (d' * S) = Q at *
      generalize (a % 3) * (d' * S) = R at *
      generalize d' * S = P at *
      omega
    apply Nat.div_eq_of_lt_le
    · have : (a / 3 + 1) * S = (a / 3) * S + S := by ring
      omega
    · have : (a / 3 + 1 + 1) * S = (a / 3 + 1) * S + S := by ring
      omega

/-- Comparing `float64(v)` with an integer-valued float below `2 ^ 53` is the integer comparison. -/
theorem F64.ge_ofNat (v c : Nat) (hc : c ≤ 2 ^ 53) :
    F64.ge (F64.ofNat v) ⟨c, 1⟩ = decide (c ≤ v) := by
  unfold F64.ge
  simp only [Nat.mul_one]
  rcases Nat.eq_zero_or_pos v with hv0 | hvpos
  · subst hv0
    have : F64.ofNat 0 = ⟨0, 1⟩ := by decide
    rw [this]
    simp
  by_cases hv : v < 2 ^ 53
  · obtain ⟨hd, hnum⟩ := F64.ofNat_isNat v hvpos hv
    rw [hnum]
    congr 1
    apply propext
    constructor
    · intro h; exact Nat.le_of_mul_le_mul_right h hd
    · intro h; exact Nat.mul_le_mul_right _ h
  · have hv' : 2 ^ 53 ≤ v := by omega
    have hcv : c ≤ v := by omega
    simp only [hcv, decide_True, decide_eq_true_eq]
    -- the rounded value is at least 2 ^ 53
    have hvq : (2 : ℚ) ^ (53 : Int) ≤ (v : ℚ) / (1 : Nat) := by
      simp only [Nat.cast_one, div_one]
      rw [show ((53 : Int)) = ((53 : Nat) : Int) by rfl, zpow_natCast]
      exact_mod_cast hv'
    obtain ⟨_, hup⟩ := binade_spec v 1 hvpos (by norm_num)
    have hlt := lt_of_le_of_lt hvq hup
    have hbin := (zpow_lt_zpow_iff_right₀ (by norm_num : (1 : ℚ) < 2)).1 hlt
    have h53 : 53 ≤ binade v 1 := by omega
    obtain ⟨hlo, _⟩ := binade_spec v 1 hvpos (by norm_num)
    unfold F64.ofNat F64.round
    have hv0 : v ≠ 0 := by omega
    simp only [hv0, if_false]
    have hs : ¬ ((0 : Int) ≤ 52 - binade v 1) := by omega
    have hs' : (52 - binade v 1 < 0) := by omega
    simp only [pow2Num, pow2Den, hs, hs', if_true, if_false, Nat.mul_one, Nat.one_mul]
    obtain ⟨t, ht⟩ : ∃ t : Nat, (-(52 - binade v 1)).toNat = t + 1 :=
      ⟨(-(52 - binade v 1)).toNat - 1, by omega⟩
    have hbt : binade v 1 = (t : Int) + 53 := by omega
    rw [ht]
    have hge := roundHalfEven_ge v (2 ^ (t + 1))
    -- 2 ^ (t + 53) ≤ v
    have hvt : 2 ^ (t + 53) ≤ v := by
      rw [hbt] at hlo
      simp only [Nat.cast_one, div_one] at hlo
      rw [show ((t : Int) + 53) = ((t + 53 : Nat) : Int) by push_cast; rfl, zpow_natCast] at hlo
      exact_mod_cast hlo
    have hdiv : 2 ^ 52 ≤ v / 2 ^ (t + 1) := by
      rw [Nat.le_div_iff_mul_le (by positivity)]
      calc 2 ^ 52 * 2 ^ (t + 1) = 2 ^ (t + 53) := by rw [← pow_add]; congr 1; omega
        _ ≤ v := hvt
    have h1 : 2 ^ 52 * 2 ^ (t + 1) ≤ roundHalfEven v (2 ^ (t + 1)) * 2 ^ (t + 1) :=
      Nat.mul_le_mul_right _ (le_trans hdiv hge)
    have h2 : 2 ^ 53 ≤ 2 ^ 52 * 2 ^ (t + 1) := by
      rw [← pow_add]
      exact Nat.pow_le_pow_right (by norm_num) (by omega)
    omega

end MeterSdk

namespace MeterSdk

theorem ite_bool_self (b : Bool) : (if b = true then true else false) = b := by
  cases b <;> rfl

theorem twoThirds_eq (n : Nat) (hn : 0 < n) (hb : n ≤ 6755399441055745) :
    F64.ceil (F64.div (F64.mul (F64.ofNat n) (F64.ofNat 2)) (F64.ofNat 3)) = ⟨(2 * n + 2) / 3, 1⟩ := by
  by_cases h1 : n = 6755399441055744
  · subst h1; decide
  by_cases h2 : n = 6755399441055745
  · subst h2; decide
  have hlt : n < 3 * 2 ^ 51 := by norm_num; omega
  have hn53 : n < 2 ^ 53 := by norm_num at hlt ⊢; omega
  have hx := F64.ofNat_isNat n hn hn53
  have h2' := F64.ofNat_isNat 2 (by norm_num) (by norm_num)
  have h3' := F64.ofNat_isNat 3 (by norm_num) (by norm_num)
  have hm := F64.mul_two_isNat _ _ n hx h2' hn hn53
  exact F64.ceil_div_three _ _ (2 * n) hm h3' (by omega) (by norm_num at hlt ⊢; omega)

theorem MajorityTwoThird_eq (v N : Int) (hN : 1 ≤ N) (hNb : N ≤ 6755399441055745) (hv : 0 ≤ v) :
    MajorityTwoThird v N = decide (2 * N ≤ 3 * v) := by
  obtain ⟨n, rfl⟩ := Int.eq_ofNat_of_zero_le (show 0 ≤ N by omega)
  obtain ⟨w, rfl⟩ := Int.eq_ofNat_of_zero_le hv
  have hn : 0 < n := by omega
  have hb : n ≤ 6755399441055745 := by omega
  unfold MajorityTwoThird
  have hg : ¬ ((w : Int) < 0 ∨ (n : Int) < 1) := by omega
  simp only [hg, if_false, Int.toNat_ofNat]
  rw [ite_bool_self, twoThirds_eq n hn hb, F64.ge_ofNat w _ (by norm_num; omega)]
  by_cases h : (2 * n + 2) / 3 ≤ w
  · have h' : 2 * (n : Int) ≤ 3 * (w : Int) := by omega
    simp [h, h']
  · have h' : ¬ 2 * (n : Int) ≤ 3 * (w : Int) := by omega
    simp [h, h']

theorem LeaderMajorityTwoThird_two (v : Int) : LeaderMajorityTwoThird v 2 = decide (1 ≤ v) := by
  unfold LeaderMajorityTwoThird
  by_cases hv : v < 0
  · have h' : ¬ 1 ≤ v := by omega
    simp [hv, h']
  · obtain ⟨w, rfl⟩ := Int.eq_ofNat_of_zero_le (show 0 ≤ v by omega)
    have hg : ¬ ((w : Int) < 0 ∨ (2 : Int) < 1) := by omega
    simp only [hg, if_false, if_true, Int.toNat_ofNat]
    have h1 : F64.ofNat 1 = ⟨4503599627370496, 4503599627370496⟩ := by decide
    have hge : F64.ge (F64.ofNat w) (F64.ofNat 1) = F64.ge (F64.ofNat w) ⟨1, 1⟩ := by
      rw [h1]
      unfold F64.ge
      simp only [Nat.mul_one, Nat.one_mul]
      congr 1
      apply propext
      constructor
      · intro h
        rw [Nat.mul_comm] at h
        exact Nat.le_of_mul_le_mul_right h (by norm_num)
      · intro h
        rw [Nat.mul_comm]
        exact Nat.mul_le_mul_right _ h
    rw [ite_bool_self, hge, F64.ge_ofNat w 1 (by norm_num)]
    by_cases h : 1 ≤ w
    · have h' : (1 : Int) ≤ (w : Int) := by omega
      simp [h, h']
    · have h' : ¬ (1 : Int) ≤ (w : Int) := by omega
      simp [h, h']

/-- C1 (as amended): for a committee size `1 ≤ N ≤ 3 * 2 ^ 51 + 1` and a voter count `v ≥ 0`,
`MajorityTwoThird v N` is true exactly when `v ≥ ceil(2N / 3)`; for `v < 0` or `N < 1` it is
false. -/
theorem MajorityTwoThird_iff_ceil (v N : Int) :
    ((v < 0 ∨ N < 1) → MajorityTwoThird v N = false) ∧
    (1 ≤ N → N ≤ 6755399441055745 → 0 ≤ v →
      (MajorityTwoThird v N = true ↔ ⌈(2 * (N : ℚ)) / 3⌉ ≤ v)) := by
  constructor
  · intro h
    unfold MajorityTwoThird
    simp [h]
  · intro hN hNb hv
    rw [MajorityTwoThird_eq v N hN hNb hv, Int.ceil_le, decide_eq_true_eq,
      div_le_iff (by norm_num : (0 : ℚ) < 3)]
    constructor
    · intro h
      have : ((2 * N : Int) : ℚ) ≤ ((3 * v : Int) : ℚ) := by exact_mod_cast h
      push_cast at this; linarith
    · intro h
      have : ((2 * N : Int) : ℚ) ≤ ((3 * v : Int) : ℚ) := by push_cast; linarith
      exact_mod_cast this

/-- Witness for C1: committee size 4, where the quorum is 3. -/
theorem MajorityTwoThird_iff_ceil_witness :
    ((1 : Int) ≤ 4 ∧ (4 : Int) ≤ 6755399441055745 ∧ (0 : Int) ≤ 3) ∧
    (MajorityTwoThird 3 4 = true ↔ ⌈(2 * ((4 : Int) : ℚ)) / 3⌉ ≤ (3 : Int)) :=
  ⟨⟨by decide, by decide, by decide⟩,
    (MajorityTwoThird_iff_ceil 3 4).2 (by decide) (by decide) (by decide)⟩

/-- C1 as stated fails for a 64-bit committee size: at `N = 3 * 2 ^ 51 + 2` the float quotient
`2N / 3` rounds down to `2 ^ 52 + 1`, so `2 ^ 52 + 1` voters pass although
`ceil(2N / 3) = 2 ^ 52 + 2`. -/
theorem MajorityTwoThird_large_counterexample :
    MajorityTwoThird 4503599627370497 6755399441055746 = true ∧
    ¬ (⌈(2 * ((6755399441055746 : Int) : ℚ)) / 3⌉ ≤ (4503599627370497 : Int)) := by
  refine ⟨by decide, ?_⟩
  rw [Int.ceil_le]
  norm_num

/-- C2: `LeaderMajorityTwoThird` agrees with `MajorityTwoThird` for every committee size other
than 2; for size 2 it is true exactly when `v ≥ 1`, so one vote passes on the leader side and
fails on the peer side. -/
theorem LeaderMajorityTwoThird_spec (v N : Int) :
    (N ≠ 2 → LeaderMajorityTwoThird v N = MajorityTwoThird v N) ∧
    (LeaderMajorityTwoThird v 2 = true ↔ 1 ≤ v) ∧
    LeaderMajorityTwoThird 1 2 = true ∧ MajorityTwoThird 1 2 = false := by
  refine ⟨?_, ?_, by decide, by decide⟩
  · intro hN
    unfold LeaderMajorityTwoThird MajorityTwoThird
    simp only [hN, if_false]
  · rw [LeaderMajorityTwoThird_two, decide_eq_true_eq]

/-- Witness for C2 at committee size 3. -/
theorem LeaderMajorityTwoThird_spec_witness :
    (3 : Int) ≠ 2 ∧ LeaderMajorityTwoThird 2 3 = MajorityTwoThird 2 3 :=
  ⟨by decide, (LeaderMajorityTwoThird_spec 2 3).1 (by decide)⟩

end MeterSdk

namespace MeterSdk

theorem uint32BE_putUint32BE (v : Nat) (rest : List Byte) :
    uint32BE (putUint32BE v ++ rest) = v % 2 ^ 32 := by
  simp only [putUint32BE, List.cons_append, List.nil_append, uint32BE, Fin.ofNat, Fin.val_mk]
  omega

theorem Number_putUint32 (id : Bytes32) (v : Nat) : Number (id.putUint32 v) = v % 2 ^ 32 := by
  unfold Number Bytes32.putUint32
  exact uint32BE_putUint32BE v _

theorem Header.Number_lt (h : Header) : h.Number < 2 ^ 32 := by
  unfold Header.Number
  exact Nat.mod_lt _ (by norm_num)

theorem Header.SigningHash_Number (c : Crypto) (h : Header) :
    (h.SigningHash c).2.Number = h.Number ∧ (h.SigningHash c).2.Body = h.Body := by
  unfold Header.SigningHash
  cases h.cache.signingHash <;> simp [Header.Number]

theorem Header.Signer_Body (c : Crypto) (h : Header) : (h.Signer c).2.Body = h.Body := by
  unfold Header.Signer
  split_ifs
  · rfl
  · cases h.cache.signer with
    | some s => rfl
    | none =>
      simp only
      have hb := (Header.SigningHash_Number c h).2
      cases hrec : c.recover (h.SigningHash c).1.data (h.SigningHash c).2.Body.Signature <;>
        simp [hb]

/-- The id returned by `ID()` starts with the header's number, for a fresh or well-formed cache and
also when signer recovery fails. -/
theorem Header.ID_Number (c : Crypto) (h : Header) (hc : h.idCacheOk) :
    MeterSdk.Number (h.ID c).1 = h.Number := by
  unfold Header.ID
  cases hid : h.cache.id with
  | some id =>
    obtain ⟨raw, hraw⟩ := hc id hid
    simp only [hraw, Number_putUint32]
    exact Nat.mod_eq_of_lt h.Number_lt
  | none =>
    simp only
    have hb := Header.Signer_Body c h
    cases hs : (h.Signer c).1 with
    | none =>
      simp only [Number_putUint32]
      rw [Nat.mod_eq_of_lt (Header.Number_lt _)]
      simp [Header.Number, hb]
    | some s =>
      simp only [Number_putUint32]
      rw [Nat.mod_eq_of_lt (Header.Number_lt _)]
      rw [(Header.SigningHash_Number c _).1]
      simp [Header.Number, hb]

end MeterSdk

namespace MeterSdk

theorem Header.ID_eq_put (c : Crypto) (h : Header) (hc : h.idCacheOk) :
    ∃ raw : Bytes32, (h.ID c).1 = raw.putUint32 h.Number := by
  unfold Header.ID
  cases hid : h.cache.id with
  | some id => exact hc id hid
  | none =>
    simp only
    have hb := Header.Signer_Body c h
    cases hs : (h.Signer c).1 with
    | none =>
      refine ⟨Bytes32.zero, ?_⟩
      simp [Header.Number, hb]
    | some s =>
      refine ⟨c.blake2b (((h.Signer c).2.SigningHash c).1.data ++ s.data), ?_⟩
      simp only
      congr 1
      rw [(Header.SigningHash_Number c _).1]
      simp [Header.Number, hb]

/-- C9: the first four bytes of a header's `ID()` are its `Number()` in big-endian (also when
signer recovery fails), so a header whose `ParentID` is `p.ID()` has number
`p.Number() + 1` modulo `2 ^ 32`. -/
theorem Header.Number_of_parent (c : Crypto) (p child : Header) (hp : p.idCacheOk)
    (hpar : child.Body.ParentID = (p.ID c).1) :
    (p.ID c).1.data.take 4 = putUint32BE p.Number ∧
    child.Number = (p.Number + 1) % 2 ^ 32 := by
  obtain ⟨raw, hraw⟩ := Header.ID_eq_put c p hp
  constructor
  · rw [hraw]
    simp [Bytes32.putUint32, putUint32BE]
  · unfold Header.Number at *
    rw [hpar, hraw, Number_putUint32]
    rw [Nat.mod_eq_of_lt (Nat.mod_lt _ (by norm_num))]

/-- Witness for C9: the zero header as parent with a failing signer recovery, and a child whose
parent id is that header's id. -/
theorem Header.Number_of_parent_witness :
    (Header.zero.idCacheOk ∧
      ({ Header.zero with Body := { Header.zero.Body with
          ParentID := (Header.zero.ID ⟨fun _ => Bytes32.zero, fun _ _ => none⟩).1 } } : Header).Body.ParentID
        = (Header.zero.ID ⟨fun _ => Bytes32.zero, fun _ _ => none⟩).1) ∧
    ((Header.zero.ID ⟨fun _ => Bytes32.zero, fun _ _ => none⟩).1.data.take 4
        = putUint32BE Header.zero.Number ∧
      ({ Header.zero with Body := { Header.zero.Body with
          ParentID := (Header.zero.ID ⟨fun _ => Bytes32.zero, fun _ _ => none⟩).1 } } : Header).Number
        = (Header.zero.Number + 1) % 2 ^ 32) :=
  ⟨⟨fun _ h => by simp [Header.zero, headerCache.empty] at h, rfl⟩,
    Header.Number_of_parent ⟨fun _ => Bytes32.zero, fun _ _ => none⟩ Header.zero _
      (fun _ h => by simp [Header.zero, headerCache.empty] at h) rfl⟩

/-- C10 (defect): two headers that differ only in `Proposer` feed the same bytes to the hash in
`SigningHash`, and so have the same signing hash under every hash function. -/
theorem Header.signingPayload_omits_Proposer (c : Crypto) :
    ({ Header.zero with Body := { Header.zero.Body with
        Proposer := ⟨List.replicate 20 1, by simp⟩ } } : Header) ≠ Header.zero ∧
    ({ Header.zero with Body := { Header.zero.Body with
        Proposer := ⟨List.replicate 20 1, by simp⟩ } } : Header).signingPayload
      = Header.zero.signingPayload ∧
    (({ Header.zero with Body := { Header.zero.Body with
        Proposer := ⟨List.replicate 20 1, by simp⟩ } } : Header).SigningHash c).1
      = (Header.zero.SigningHash c).1 :=
  ⟨by decide, rfl, rfl⟩

/-- C11: `withSignature` gives a header with the same signing hash, the same body fields other
than `Signature`, the given signature, and leaves the receiver unchanged. -/
theorem Header.withSignature_spec (c : Crypto) (h : Header) (sig : List Byte)
    (hc : h.hashCacheOk c) :
    (((h.withSignature sig).2).SigningHash c).1 = (h.SigningHash c).1 ∧
    { (h.withSignature sig).2.Body with Signature := h.Body.Signature } = h.Body ∧
    (h.withSignature sig).2.Signature = sig ∧
    (h.withSignature sig).1 = h := by
  refine ⟨?_, rfl, by simp [Header.withSignature, Header.Signature], rfl⟩
  unfold Header.SigningHash
  cases hs : h.cache.signingHash with
  | some x =>
    simp only [Header.withSignature, headerCache.empty]
    rw [hc x hs]
    rfl
  | none => rfl

/-- Witness for C11 on the zero header with a three-byte signature. -/
theorem Header.withSignature_spec_witness :
    Header.zero.hashCacheOk ⟨fun _ => Bytes32.zero, fun _ _ => none⟩ ∧
    ((((Header.zero.withSignature [1, 2, 3]).2).SigningHash ⟨fun _ => Bytes32.zero, fun _ _ => none⟩).1
        = (Header.zero.SigningHash ⟨fun _ => Bytes32.zero, fun _ _ => none⟩).1 ∧
      { (Header.zero.withSignature [1, 2, 3]).2.Body with Signature := Header.zero.Body.Signature }
        = Header.zero.Body ∧
      (Header.zero.withSignature [1, 2, 3]).2.Signature = [1, 2, 3] ∧
      (Header.zero.withSignature [1, 2, 3]).1 = Header.zero) :=
  ⟨fun _ h => by simp [Header.zero, headerCache.empty] at h,
    Header.withSignature_spec ⟨fun _ => Bytes32.zero, fun _ _ => none⟩ Header.zero [1, 2, 3]
      (fun _ h => by simp [Header.zero, headerCache.empty] at h)⟩

end MeterSdk

namespace MeterSdk

/-- C19 (as amended): for a block with a non-nil QC, height `h` and last-keyframe height `k`, with
`k + 1` taken in `uint32` arithmetic, `GetBlockEpoch` returns 0 when `h = 0`, the committee-info
epoch when `h = k + 1 ≠ 0`, the QC's `EpochID` when `h > k + 1`, and panics exactly when
`0 < h < k + 1`. -/
theorem Block.GetBlockEpoch_spec (b : Block) (qc : QuorumCert) (hqc : b.QC = some qc) :
    (b.BlockHeader.Number = 0 → b.GetBlockEpoch = Outcome.ok 0) ∧
    (b.BlockHeader.Number ≠ 0 →
      b.BlockHeader.Number = (b.BlockHeader.Body.LastKBlockHeight + 1) % 2 ^ 32 →
      b.GetBlockEpoch = Outcome.ok b.CommitteeInfos.Epoch) ∧
    (b.BlockHeader.Number > (b.BlockHeader.Body.LastKBlockHeight + 1) % 2 ^ 32 →
      b.GetBlockEpoch = Outcome.ok qc.EpochID) ∧
    ((∃ msg, b.GetBlockEpoch = Outcome.panic msg) ↔
      (0 < b.BlockHeader.Number ∧
        b.BlockHeader.Number < (b.BlockHeader.Body.LastKBlockHeight + 1) % 2 ^ 32)) := by
  unfold Block.GetBlockEpoch Block.GetCommitteeEpoch
  simp only [hqc]
  generalize b.BlockHeader.Number = H
  generalize (b.BlockHeader.Body.LastKBlockHeight + 1) % 2 ^ 32 = K
  refine ⟨?_, ?_, ?_, ?_⟩
  · intro h0
    rw [if_pos h0]
  · intro h0 h1
    rw [if_neg h0, if_neg (by omega), if_pos h1]
  · intro h1
    rw [if_neg (by omega), if_pos h1]
  · constructor
    · rintro ⟨msg, hmsg⟩
      split_ifs at hmsg with h0 h1 h2
      constructor <;> omega
    · rintro ⟨h0, h1⟩
      refine ⟨"Block error: lastKBlockHeight great than height", ?_⟩
      rw [if_neg (by omega), if_neg (by omega), if_neg (by omega)]

/-- Witness for C19: a block at height 2 after a keyframe at height 0, carrying a QC of epoch 7. -/
theorem Block.GetBlockEpoch_spec_witness :
    ({ Compose { Header.zero with Body := { Header.zero.Body with ParentID := parentIdOfNumber 1 } } []
        with QC := some ⟨1, 0, 7, [], [], []⟩ } : Block).QC = some ⟨1, 0, 7, [], [], []⟩ ∧
    ({ Compose { Header.zero with Body := { Header.zero.Body with ParentID := parentIdOfNumber 1 } } []
        with QC := some ⟨1, 0, 7, [], [], []⟩ } : Block).GetBlockEpoch = Outcome.ok 7 :=
  ⟨rfl, (Block.GetBlockEpoch_spec _ ⟨1, 0, 7, [], [], []⟩ rfl).2.2.1 (by decide)⟩

/-- C19 as stated fails: a block built by `Compose` (nil QC) at height 2 with last-keyframe height
0 panics on the nil `QC`, although `0 < h < k + 1` does not hold. -/
theorem Block.GetBlockEpoch_nil_QC_counterexample :
    (Compose { Header.zero with Body := { Header.zero.Body with
        ParentID := parentIdOfNumber 1 } } []).BlockHeader.Number = 2 ∧
    (Compose { Header.zero with Body := { Header.zero.Body with
        ParentID := parentIdOfNumber 1 } } []).BlockHeader.Body.LastKBlockHeight = 0 ∧
    (Compose { Header.zero with Body := { Header.zero.Body with
        ParentID := parentIdOfNumber 1 } } []).GetBlockEpoch
      = Outcome.panic "invalid memory address or nil pointer dereference" ∧
    ¬ (0 < 2 ∧ 2 < 0 + 1) := by
  refine ⟨by decide, rfl, by decide, by decide⟩

end MeterSdk

namespace MeterSdk

/-- C13 (as amended): the round writers assign without comparing. `UpdateRound` and
`UpdateHeightRound` leave `curRound` equal to their argument and `exitCurCommittee` leaves it 0,
so the round after the call is at least the round before exactly when the argument (resp. 0) is. -/
theorem ConsensusReactor.curRound_after (conR : ConsensusReactor) (height round : Int) :
    (conR.UpdateRound round).1.curRound = round ∧
    (conR.UpdateHeightRound height round).1.curRound = round ∧
    conR.exitCurCommittee.curRound = 0 ∧
    (conR.curRound ≤ (conR.UpdateRound round).1.curRound ↔ conR.curRound ≤ round) ∧
    (conR.curRound ≤ (conR.UpdateHeightRound height round).1.curRound ↔ conR.curRound ≤ round) ∧
    (conR.curRound ≤ conR.exitCurCommittee.curRound ↔ conR.curRound ≤ 0) := by
  have h1 : (conR.UpdateRound round).1.curRound = round := rfl
  have h2 : (conR.UpdateHeightRound height round).1.curRound = round := rfl
  have h3 : conR.exitCurCommittee.curRound = 0 := rfl
  refine ⟨h1, h2, h3, ?_, ?_, ?_⟩
  · rw [h1]
  · rw [h2]
  · rw [h3]

/-- C13 as stated fails: from round 5, `UpdateRound 3`, `UpdateHeightRound 0 3` and
`exitCurCommittee` all leave a smaller round. -/
theorem ConsensusReactor.curRound_decreases :
    (({ curRound := 5 } : ConsensusReactor).UpdateRound 3).1.curRound < 5 ∧
    (({ curRound := 5 } : ConsensusReactor).UpdateHeightRound 0 3).1.curRound < 5 ∧
    ({ curRound := 5 } : ConsensusReactor).exitCurCommittee.curRound < 5 := by
  decide

end MeterSdk

namespace MeterSdk

/-- C12 (defect): in a chain where `b_locked` is the ancestor exactly 10 parent links above `b`,
`IsExtendedFromBLocked` answers false: the loop compares `b` and its first 9 ancestors only. -/
theorem Pacemaker.IsExtendedFromBLocked_ten_links :
    ancestorAt (⟨chainHeap, some 0, fun _ => none⟩ : Pacemaker Unit Unit) 10 (some 10) = some 0 ∧
    (⟨chainHeap, some 0, fun _ => none⟩ : Pacemaker Unit Unit).IsExtendedFromBLocked (some 10)
      = Outcome.ok false ∧
    (⟨chainHeap, some 1, fun _ => none⟩ : Pacemaker Unit Unit).IsExtendedFromBLocked (some 10)
      = Outcome.ok true := by
  refine ⟨by rfl, by rfl, by rfl⟩

end MeterSdk

namespace MeterSdk

/-- C17 (as amended): for a stop-committee proposal whose own block decodes and whose map entries
at `Height-1` (and at `Height-2` when the entry at `Height-1` is itself a stop-committee
proposal) exist, `ValidateProposal` gives exactly the result of the remaining checks: the types
of the parent and grandparent proposals never produce an error. -/
theorem Pacemaker.ValidateProposal_stop {β σ : Type} (p : Pacemaker β σ) (env : ValidateEnv β σ)
    (b : pmBlock β σ) (blk : β) (parentType : BlockKind)
    (hstop : b.ProposedBlockType = BlockKind.StopCommitteeType)
    (hdec : env.decode (b.ProposedBlock.getD []) = Except.ok blk)
    (hparent : p.typeAt ((b.Height + 2 ^ 64 - 1) % 2 ^ 64) = some parentType)
    (hgrand : parentType = BlockKind.StopCommitteeType →
      ∃ g, p.typeAt ((b.Height + 2 ^ 64 - 2) % 2 ^ 64) = some g) :
    p.ValidateProposal env b = Outcome.ok (p.validateRest env b blk) := by
  have hcheck : p.stopCommitteeCheck b = true := by
    unfold Pacemaker.stopCommitteeCheck
    rw [if_pos hstop, hparent]
    simp only
    by_cases hk : parentType = BlockKind.KBlockType
    · rw [if_pos hk]
    · rw [if_neg hk]
      by_cases hs : parentType = BlockKind.StopCommitteeType
      · obtain ⟨g, hg⟩ := hgrand hs
        rw [if_pos hs, hg]
      · rw [if_neg hs]
  unfold Pacemaker.ValidateProposal
  rw [hdec]
  simp only [hcheck, if_true]

/-- Witness for C17: the proposal at height 4 is an ordinary block, not a k-block. -/
theorem Pacemaker.ValidateProposal_stop_witness :
    (stopProposal.ProposedBlockType = BlockKind.StopCommitteeType ∧
      (⟨fun _ => Except.ok (), fun _ _ _ => Except.ok (), 0⟩ : ValidateEnv Unit Unit).decode
        (stopProposal.ProposedBlock.getD []) = Except.ok () ∧
      (⟨chainHeap, none, fun h => some h⟩ : Pacemaker Unit Unit).typeAt ((stopProposal.Height + 2 ^ 64 - 1) % 2 ^ 64)
        = some (BlockKind.other 2)) ∧
    (⟨chainHeap, none, fun h => some h⟩ : Pacemaker Unit Unit).ValidateProposal
        ⟨fun _ => Except.ok (), fun _ _ _ => Except.ok (), 0⟩ stopProposal
      = Outcome.ok ((⟨chainHeap, none, fun h => some h⟩ : Pacemaker Unit Unit).validateRest
          ⟨fun _ => Except.ok (), fun _ _ _ => Except.ok (), 0⟩ stopProposal ()) :=
  ⟨⟨rfl, rfl, by rfl⟩,
    Pacemaker.ValidateProposal_stop _ _ stopProposal () (BlockKind.other 2) rfl rfl (by rfl)
      (fun h => by simp at h)⟩

/-- C17 as stated fails: a stop-committee proposal whose predecessor at height 4 is an ordinary
block (neither k-block nor stop-committee) is validated without error. -/
theorem Pacemaker.ValidateProposal_stop_counterexample :
    (⟨chainHeap, none, fun h => some h⟩ : Pacemaker Unit Unit).typeAt 4 = some (BlockKind.other 2) ∧
    (match (⟨chainHeap, none, fun h => some h⟩ : Pacemaker Unit Unit).ValidateProposal
        ⟨fun _ => Except.ok (), fun _ _ _ => Except.ok (), 0⟩ stopProposal with
      | Outcome.ok (err, _) => err
      | Outcome.panic _ => some PMError.errParentMissing) = none := by
  refine ⟨by rfl, by rfl⟩

/-- C18 (as amended): for a proposal not created by this node whose own block decodes and whose
stop-committee branch does not fault: a missing parent node or missing parent bytes give
`errParentMissing` with the node untouched; a failing execution gives that error with
`SuccessProcessed = false` and `ProposedBlockInfo` still unset; and whenever the result is nil,
`SuccessProcessed` is true and `ProposedBlockInfo` is set. -/
theorem Pacemaker.ValidateProposal_foreign {β σ : Type} (p : Pacemaker β σ)
    (env : ValidateEnv β σ) (b : pmBlock β σ) (blk : β)
    (hinfo : b.ProposedBlockInfo.isSome = false)
    (hdec : env.decode (b.ProposedBlock.getD []) = Except.ok blk)
    (hcheck : p.stopCommitteeCheck b = true) :
    ((b.Parent = none ∨ (∃ pa, b.Parent = some pa ∧ p.heap pa = none) ∨
        (∃ pa node, b.Parent = some pa ∧ p.heap pa = some node ∧ node.ProposedBlock = none)) →
      ∃ b', p.ValidateProposal env b = Outcome.ok (some PMError.errParentMissing, b') ∧
        b'.ProposedBlockInfo.isSome = false) ∧
    (∀ pa node bytes parentBlock e, b.Parent = some pa → p.heap pa = some node →
      node.ProposedBlock = some bytes → env.decode bytes = Except.ok parentBlock →
      env.process parentBlock blk env.now = Except.error e →
      ∃ b', p.ValidateProposal env b = Outcome.ok (some (PMError.processFailed e), b') ∧
        b'.SuccessProcessed = false ∧ b'.ProposedBlockInfo.isSome = false) ∧
    (∀ b', p.ValidateProposal env b = Outcome.ok (none, b') →
      b'.SuccessProcessed = true ∧ b'.ProposedBlockInfo.isSome = true) := by
  have hnone : b.ProposedBlockInfo = none := by
    cases h : b.ProposedBlockInfo with
    | none => rfl
    | some x => rw [h] at hinfo; simp at hinfo
  have hv : p.ValidateProposal env b = Outcome.ok (p.validateRest env b blk) := by
    unfold Pacemaker.ValidateProposal
    rw [hdec]
    simp only [hcheck, if_true]
  rw [hv]
  unfold Pacemaker.validateRest
  rw [hnone]
  refine ⟨?_, ?_, ?_⟩
  · rintro (h | ⟨pa, h1, h2⟩ | ⟨pa, node, h1, h2, h3⟩)
    · exact ⟨b, by simp [h], by simp [hnone]⟩
    · exact ⟨b, by simp [h1, h2], by simp [hnone]⟩
    · exact ⟨b, by simp [h1, h2, h3], by simp [hnone]⟩
  · intro pa node bytes parentBlock e h1 h2 h3 h4 h5
    exact ⟨{ b with SuccessProcessed := false }, by simp [h1, h2, h3, h4, h5, hnone], rfl, by simp [hnone]⟩
  · intro b' hb'
    simp only at hb'
    cases h1 : b.Parent with
    | none => simp [h1] at hb'
    | some pa =>
      cases h2 : p.heap pa with
      | none => simp [h1, h2] at hb'
      | some node =>
        cases h3 : node.ProposedBlock with
        | none => simp [h1, h2, h3] at hb'
        | some bytes =>
          cases h4 : env.decode bytes with
          | error e => simp [h1, h2, h3, h4] at hb'
          | ok parentBlock =>
            cases h5 : env.process parentBlock blk env.now with
            | error e => simp [h1, h2, h3, h4, h5] at hb'
            | ok stage =>
              simp [h1, h2, h3, h4, h5] at hb'
              subst hb'
              exact ⟨rfl, rfl⟩

/-- Witness for C18: with a decoder that accepts the payload, the orphan proposal is answered
with `errParentMissing`. -/
theorem Pacemaker.ValidateProposal_foreign_witness :
    (orphanProposal.ProposedBlockInfo.isSome = false ∧
      (⟨fun _ => Except.ok (), fun _ _ _ => Except.ok (), 0⟩ : ValidateEnv Unit Unit).decode
        (orphanProposal.ProposedBlock.getD []) = Except.ok () ∧
      (⟨chainHeap, none, fun h => some h⟩ : Pacemaker Unit Unit).stopCommitteeCheck orphanProposal = true ∧
      orphanProposal.Parent = none) ∧
    (∃ b', (⟨chainHeap, none, fun h => some h⟩ : Pacemaker Unit Unit).ValidateProposal
        ⟨fun _ => Except.ok (), fun _ _ _ => Except.ok (), 0⟩ orphanProposal
          = Outcome.ok (some PMError.errParentMissing, b') ∧
        b'.ProposedBlockInfo.isSome = false) :=
  ⟨⟨rfl, rfl, rfl, rfl⟩,
    (Pacemaker.ValidateProposal_foreign _ _ orphanProposal () rfl rfl rfl).1 (Or.inl rfl)⟩

/-- C18 as stated fails: when the proposal's own payload does not decode, a missing parent is
not reported as `errParentMissing`; the decoding error is returned first. -/
theorem Pacemaker.ValidateProposal_foreign_counterexample :
    orphanProposal.Parent = none ∧ orphanProposal.ProposedBlockInfo.isSome = false ∧
    (match (⟨chainHeap, none, fun h => some h⟩ : Pacemaker Unit Unit).ValidateProposal
        ⟨fun bytes => if bytes = [] then Except.error "EOF" else Except.ok (),
          fun _ _ _ => Except.ok (), 0⟩ orphanProposal with
      | Outcome.ok (err, _) => err
      | Outcome.panic _ => none) = some (PMError.decodeFailed "EOF") := by
  refine ⟨rfl, rfl, by rfl⟩

end MeterSdk

namespace MeterSdk

/-- C14 (defect): a request without any `magic` field is dropped by `receivePeerMsg` but its
message is enqueued by `receivePacemakerMsg`, which never looks at the magic. -/
theorem receivePacemakerMsg_ignores_magic :
    (receiverReactor.receivePeerMsg hexNetLib (some [("message", "0102"), ("peer_ip", "0a000001")])).1.peerMsgQueue
      = [] ∧
    receivePacemakerMsg nonEmptyDecoder [] (some [("message", "0102"), ("peer_ip", "0a000001")])
      = Outcome.ok ([[1, 2]], 200) ∧
    receivePacemakerMsg nonEmptyDecoder []
        (some [("message", "0102"), ("peer_ip", "0a000001"), ("magic", "ffffffff")])
      = Outcome.ok ([[1, 2]], 200) := by
  refine ⟨by rfl, by rfl, by rfl⟩

/-- C15 (as amended): when `decodeMsg` fails on the payload, `handleMsg` returns the reactor
unchanged, and `receivePacemakerMsg` enqueues nothing but aborts with
`panic("message decode error")`. -/
theorem decode_failure_handling {μ : Type} (decodeMsg : List Byte → Option μ)
    (dispatch : ConsensusReactor → μ → Option ConsensusPeer → ConsensusReactor)
    (conR : ConsensusReactor) (mi : consensusMsgInfo) (ch : List μ) (params : Params)
    (h1 : decodeMsg mi.Msg = none) (h2 : decodeMsg (hexDecode (params.index "message")) = none) :
    conR.handleMsg decodeMsg dispatch mi = conR ∧
    receivePacemakerMsg decodeMsg ch (some params) = Outcome.panic "message decode error" := by
  constructor
  · unfold ConsensusReactor.handleMsg
    rw [h1]
  · unfold receivePacemakerMsg
    simp only [h2]

/-- Witness for C15: the empty payload with a decoder that rejects it. -/
theorem decode_failure_handling_witness :
    (nonEmptyDecoder (⟨[], none⟩ : consensusMsgInfo).Msg = none ∧
      nonEmptyDecoder (hexDecode (Params.index [("message", "")] "message")) = none) ∧
    (receiverReactor.handleMsg nonEmptyDecoder (fun c _ _ => { c with curRound := 9 }) ⟨[], none⟩
        = receiverReactor ∧
      receivePacemakerMsg nonEmptyDecoder [] (some [("message", "")])
        = Outcome.panic "message decode error") :=
  ⟨⟨by rfl, by rfl⟩,
    decode_failure_handling nonEmptyDecoder (fun c _ _ => { c with curRound := 9 })
      receiverReactor ⟨[], none⟩ [] [("message", "")] (by rfl) (by rfl)⟩

/-- C15 as stated fails: on an undecodable payload `receivePacemakerMsg` does not return, it
panics. -/
theorem receivePacemakerMsg_panics :
    nonEmptyDecoder (hexDecode (Params.index [("message", "zz")] "message")) = none ∧
    receivePacemakerMsg nonEmptyDecoder [] (some [("message", "zz")])
      = Outcome.panic "message decode error" := by
  refine ⟨by rfl, by rfl⟩

/-- C16: a message longer than `maxMsgSize = 1300000` bytes makes `sendConsensusMsg` and
`SendConsensusMessage` return false with nothing enqueued and nothing sent; a message of at most
that length is never answered with false by `SendConsensusMessage`, and by `sendConsensusMsg`
only when the HTTP POST itself fails. -/
theorem oversize_dropped (lib : NetLib) (conR : ConsensusReactor) (rawMsg : List Byte)
    (csPeer : Option ConsensusPeer) (postOk : Bool) (round : Nat) (kind : PMMsgKind)
    (copyMyself : Bool) :
    maxMsgSize = 1300000 ∧
    (rawMsg.length > maxMsgSize →
      conR.sendConsensusMsg lib rawMsg csPeer postOk = (conR, [], false) ∧
      SendConsensusMessage lib conR round kind rawMsg copyMyself = Outcome.ok ([], false)) ∧
    (rawMsg.length ≤ maxMsgSize →
      ((conR.sendConsensusMsg lib rawMsg csPeer postOk).2.2 = false → csPeer.isSome ∧ postOk = false) ∧
      (∀ sends, SendConsensusMessage lib conR round kind rawMsg copyMyself ≠ Outcome.ok (sends, false))) := by
  refine ⟨rfl, ?_, ?_⟩
  · intro h
    constructor
    · unfold ConsensusReactor.sendConsensusMsg
      rw [if_pos h]
    · unfold SendConsensusMessage
      rw [if_pos h]
  · intro h
    have h' : ¬ rawMsg.length > maxMsgSize := by omega
    constructor
    · unfold ConsensusReactor.sendConsensusMsg
      rw [if_neg h']
      cases csPeer with
      | none => simp
      | some peer => cases postOk <;> simp
    · intro sends
      unfold SendConsensusMessage
      rw [if_neg h']
      cases pacemakerSends lib conR round kind rawMsg copyMyself <;> simp

/-- Witness for C16: a three-byte message sent to the internal queue. -/
theorem oversize_dropped_witness :
    ([1, 2, 3] : List Byte).length ≤ maxMsgSize ∧
    ((senderReactor.sendConsensusMsg hexNetLib [1, 2, 3] none true).2.2 = false →
      (none : Option ConsensusPeer).isSome ∧ true = false) :=
  ⟨by decide,
    ((oversize_dropped hexNetLib senderReactor [1, 2, 3] none true 0 PMMsgKind.other false).2.2
      (by decide)).1⟩

/-- C20 (defect): the frame built by `sendConsensusMsg` at a sender listening on port 8670 is
accepted by `receivePeerMsg`, with the message bytes and the sender IP intact, but the enqueued
peer has port 0: the sender writes the key `peer_port`, the receiver reads the key `port`. -/
theorem wire_frame_loses_port :
    (senderReactor.sendConsensusMsg hexNetLib [1, 2, 3] (some ⟨receiverReactor.myAddr, [0x76, 0x01, 0x00, 0x00]⟩) true).2.1
      = [⟨"0a000002", ":8670/consensus",
          [("message", "010203"), ("peer_ip", "0a000001"), ("peer_port", runeString 8670),
           ("magic", "76010000")]⟩] ∧
    (receiverReactor.receivePeerMsg hexNetLib
        (some [("message", "010203"), ("peer_ip", "0a000001"), ("peer_port", runeString 8670),
           ("magic", "76010000")])).1.peerMsgQueue
      = [⟨[1, 2, 3], some ⟨⟨[10, 0, 0, 1], 0⟩, [0x76, 0x01, 0x00, 0x00]⟩⟩] ∧
    senderReactor.myAddr.Port = 8670 := by
  refine ⟨by rfl, by rfl, by rfl⟩

end MeterSdk

namespace MeterSdk

theorem swapAt_length {α : Type} (l : List α) (i j : Nat) : (swapAt l i j).length = l.length := by
  unfold swapAt
  split <;> simp

theorem swapAt_getElem? {α : Type} (l : List α) (i j k : Nat) (hi : i < l.length)
    (hj : j < l.length) :
    (swapAt l i j)[k]? = if k = j then l[i]? else if k = i then l[j]? else l[k]? := by
  unfold swapAt
  simp only [List.get?_eq_getElem?, List.getElem?_eq_getElem hi, List.getElem?_eq_getElem hj]
  simp only [List.getElem?_set, List.length_set]
  by_cases h1 : k = j
  · subst h1; simp [hj]
  · by_cases h2 : k = i
    · subst h2
      have : ¬ j = k := fun h => h1 h.symm
      simp [this, hi, h1]
    · have h3 : ¬ j = k := fun h => h1 h.symm
      have h4 : ¬ i = k := fun h => h2 h.symm
      simp [h1, h2, h3, h4]

theorem swapAt_perm {α : Type} (l : List α) (i j : Nat) : (swapAt l i j).Perm l := by
  classical
  unfold swapAt
  simp only [List.get?_eq_getElem?]
  cases hi : l[i]? with
  | none => simp
  | some x =>
    cases hj : l[j]? with
    | none => simp
    | some y =>
      simp only
      obtain ⟨hil, hix⟩ := List.getElem?_eq_some.1 hi
      obtain ⟨hjl, hjy⟩ := List.getElem?_eq_some.1 hj
      rw [List.perm_iff_count]
      intro a
      have hjl' : j < (l.set i y).length := by simpa using hjl
      rw [List.count_set _ _ _ _ hjl', List.count_set _ _ _ _ hil]
      have hget : (l.set i y)[j] = y := by
        rw [List.getElem_set]
        split_ifs with h
        · rfl
        · exact hjy
      rw [hget, hix]
      have hx : 0 < List.count x l := List.count_pos_iff.2 (hix ▸ List.getElem_mem hil)
      by_cases hxa : x = a
      · subst hxa
        by_cases hya : y = x
        · simp [hya]; omega
        · simp [hya]; omega
      · by_cases hya : y = a
        · simp [hxa, hya]
        · simp [hxa, hya]

theorem within_refl {α : Type} (l : List α) (a b : Nat) : Within l l a b :=
  ⟨rfl, fun _ _ => rfl, fun k h1 h2 => ⟨k, h1, h2, rfl⟩⟩

theorem Within.trans {α : Type} {l1 l2 l3 : List α} {a b : Nat} (h12 : Within l1 l2 a b)
    (h23 : Within l2 l3 a b) : Within l1 l3 a b := by
  obtain ⟨e12, o12, i12⟩ := h12
  obtain ⟨e23, o23, i23⟩ := h23
  refine ⟨e23.trans e12, fun k hk => (o23 k hk).trans (o12 k hk), ?_⟩
  intro k h1 h2
  obtain ⟨k', h1', h2', hk'⟩ := i23 k h1 h2
  obtain ⟨k'', h1'', h2'', hk''⟩ := i12 k' h1' h2'
  exact ⟨k'', h1'', h2'', hk'.trans hk''⟩

theorem within_mono {α : Type} {l1 l2 : List α} {a b a' b' : Nat} (h : Within l1 l2 a' b')
    (ha : a ≤ a') (hb : b' ≤ b) : Within l1 l2 a b := by
  obtain ⟨e, o, i⟩ := h
  refine ⟨e, fun k hk => o k (by omega), ?_⟩
  intro k h1 h2
  by_cases hk : a' ≤ k ∧ k < b'
  · obtain ⟨k', h1', h2', hk'⟩ := i k hk.1 hk.2
    exact ⟨k', by omega, by omega, hk'⟩
  · exact ⟨k, h1, h2, o k (by omega)⟩

theorem swapAt_within {α : Type} (l : List α) (i j a b : Nat) (hi : a ≤ i ∧ i < b)
    (hj : a ≤ j ∧ j < b) : Within l (swapAt l i j) a b := by
  by_cases hil : i < l.length
  · by_cases hjl : j < l.length
    · refine ⟨swapAt_length l i j, ?_, ?_⟩
      · intro k hk
        rw [swapAt_getElem? l i j k hil hjl]
        have h1 : ¬ k = j := by omega
        have h2 : ¬ k = i := by omega
        simp [h1, h2]
      · intro k h1 h2
        rw [swapAt_getElem? l i j k hil hjl]
        by_cases hkj : k = j
        · exact ⟨i, hi.1, hi.2, by rw [if_pos hkj]⟩
        · by_cases hki : k = i
          · exact ⟨j, hj.1, hj.2, by rw [if_neg hkj, if_pos hki]⟩
          · exact ⟨k, h1, h2, by rw [if_neg hkj, if_neg hki]⟩
    · have : swapAt l i j = l := by
        unfold swapAt
        simp only [List.get?_eq_getElem?]
        rw [List.getElem?_eq_none (by omega : l.length ≤ j)]
        cases l[i]? <;> rfl
      rw [this]; exact within_refl l a b
  · have : swapAt l i j = l := by
      unfold swapAt
      simp only [List.get?_eq_getElem?]
      rw [List.getElem?_eq_none (by omega : l.length ≤ i)]
    rw [this]; exact within_refl l a b

theorem Within.sortedOn_outside {α : Type} {le : α → α → Prop} {l l' : List α} {a b c d : Nat}
    (h : Within l l' a b) (hs : SortedOn le l c d) (hd : d ≤ a ∨ b ≤ c) : SortedOn le l' c d := by
  intro i j x y h1 h2 h3 hx hy
  rw [h.2.1 i (by omega)] at hx
  rw [h.2.1 j (by omega)] at hy
  exact hs i j x y h1 h2 h3 hx hy

end MeterSdk

namespace MeterSdk

theorem sortedOn_glue {α : Type} {le : α → α → Prop} {l : List α} {a m b : Nat}
    (hs1 : SortedOn le l a m) (hs2 : SortedOn le l m b) (hb : BelowOn le l a m b) :
    SortedOn le l a b := by
  intro p q x y h1 h2 h3 hx hy
  by_cases hq : q < m
  · exact hs1 p q x y h1 h2 hq hx hy
  · by_cases hp : p < m
    · exact hb p q x y h1 hp (by omega) h3 hx hy
    · exact hs2 p q x y (by omega) h2 h3 hx hy

theorem sortedOn_mono {α : Type} {le : α → α → Prop} {l : List α} {a b a' b' : Nat}
    (hs : SortedOn le l a b) (ha : a ≤ a') (hb : b' ≤ b) : SortedOn le l a' b' :=
  fun p q x y h1 h2 h3 hx hy => hs p q x y (by omega) h2 (by omega) hx hy

theorem lessAt_eq {α : Type} (less : α → α → Bool) (l : List α) (i j : Nat) (x y : α)
    (hx : l[i]? = some x) (hy : l[j]? = some y) : lessAt less l i j = less x y := by
  unfold lessAt
  simp only [List.get?_eq_getElem?, hx, hy]

theorem insertLoop_perm {α : Type} (less : α → α → Bool) (a : Nat) :
    ∀ (j : Nat) (l : List α), (insertLoop less a j l).Perm l := by
  intro j
  induction j with
  | zero => intro l; exact List.Perm.refl _
  | succ j ih =>
    intro l
    unfold insertLoop
    split_ifs
    · exact (ih _).trans (swapAt_perm l (j + 1) j)
    · exact List.Perm.refl _

theorem insertLoop_within {α : Type} (less : α → α → Bool) (a : Nat) :
    ∀ (j : Nat) (l : List α), Within l (insertLoop less a j l) a (j + 1) := by
  intro j
  induction j with
  | zero => intro l; exact within_refl _ _ _
  | succ j ih =>
    intro l
    unfold insertLoop
    split_ifs with h
    · have h1 := swapAt_within l (j + 1) j a (j + 2) ⟨by omega, by omega⟩ ⟨by omega, by omega⟩
      exact h1.trans (within_mono (ih (swapAt l (j + 1) j)) (le_refl a) (by omega))
    · exact within_refl _ _ _

/-- The inner loop of insertion sort: with `[a, c)` and `[c, i]` sorted and everything before `c`
below everything after `c`, the loop started at `c` leaves `[a, i]` sorted. -/
theorem insertLoop_sorted {α : Type} {less : α → α → Bool} {le : α → α → Prop}
    (hc : Comparator less le) (a i : Nat) :
    ∀ (c : Nat) (l : List α), a ≤ c → c ≤ i → i < l.length →
      SortedOn le l a c → SortedOn le l c (i + 1) →
      (∀ p q x y, a ≤ p → p < c → c < q → q ≤ i → l[p]? = some x → l[q]? = some y → le x y) →
      SortedOn le (insertLoop less a c l) a (i + 1) := by
  intro c
  induction c with
  | zero =>
    intro l ha _ _ _ hs2 _
    have : a = 0 := by omega
    subst this
    exact hs2
  | succ j ih =>
    intro l ha hi hlen hs1 hs2 hcross
    obtain ⟨x1, hx1⟩ : ∃ x1, l[j + 1]? = some x1 :=
      ⟨_, List.getElem?_eq_getElem (by omega : j + 1 < l.length)⟩
    obtain ⟨y1, hy1⟩ : ∃ y1, l[j]? = some y1 :=
      ⟨_, List.getElem?_eq_getElem (by omega : j < l.length)⟩
    unfold insertLoop
    rw [lessAt_eq less l (j + 1) j x1 y1 hx1 hy1]
    by_cases hcond : a < j + 1 ∧ less x1 y1 = true
    · rw [if_pos hcond]
      have hle : le x1 y1 := hc.of_true _ _ hcond.2
      have hl1 : ∀ k, (swapAt l (j + 1) j)[k]? =
          if k = j then l[j + 1]? else if k = j + 1 then l[j]? else l[k]? :=
        fun k => swapAt_getElem? l (j + 1) j k (by omega) (by omega)
      apply ih (swapAt l (j + 1) j) (by omega) (by omega) (by rw [swapAt_length]; exact hlen)
      · intro p q x y h1 h2 h3 hx hy
        rw [hl1, if_neg (by omega), if_neg (by omega)] at hx hy
        exact hs1 p q x y h1 h2 (by omega) hx hy
      · intro p q x y h1 h2 h3 hx hy
        rw [hl1] at hx hy
        by_cases hp : p = j
        · rw [if_pos hp] at hx
          rw [hx1] at hx
          cases hx
          rw [if_neg (by omega)] at hy
          by_cases hq : q = j + 1
          · rw [if_pos hq, hy1] at hy
            cases hy
            exact hle
          · rw [if_neg hq] at hy
            exact hs2 (j + 1) q x1 y (le_refl _) (by omega) h3 hx1 hy
        · rw [if_neg hp] at hx
          rw [if_neg (by omega)] at hy
          by_cases hp2 : p = j + 1
          · rw [if_pos hp2, hy1] at hx
            cases hx
            rw [if_neg (by omega)] at hy
            exact hcross j q y1 y (by omega) (by omega) (by omega) (by omega) hy1 hy
          · rw [if_neg hp2] at hx
            rw [if_neg (by omega)] at hy
            exact hs2 p q x y (by omega) h2 h3 hx hy
      · intro p q x y h1 h2 h3 h4 hx hy
        rw [hl1, if_neg (by omega), if_neg (by omega)] at hx
        rw [hl1, if_neg (by omega)] at hy
        by_cases hq : q = j + 1
        · rw [if_pos hq, hy1] at hy
          cases hy
          exact hs1 p j x y1 h1 h2 (by omega) hx hy1
        · rw [if_neg hq] at hy
          exact hcross p q x y h1 (by omega) (by omega) h4 hx hy
    · rw [if_neg hcond]
      by_cases ha' : a < j + 1
      · have hf : less x1 y1 = false := by
          cases h : less x1 y1
          · rfl
          · exact absurd ⟨ha', h⟩ hcond
        have hle : le y1 x1 := hc.of_false _ _ hf
        apply sortedOn_glue hs1 hs2
        intro p q x y h1 h2 h3 h4 hx hy
        have hpy : le x x1 := by
          by_cases hpj : p = j
          · subst hpj
            rw [hy1] at hx
            cases hx
            exact hle
          · exact hc.trans _ _ _ (hs1 p j x y1 h1 (by omega) (by omega) hx hy1) hle
        by_cases hq : q = j + 1
        · subst hq
          rw [hx1] at hy
          cases hy
          exact hpy
        · exact hcross p q x y h1 h2 (by omega) (by omega) hx hy
      · have : a = j + 1 := by omega
        subst this
        exact hs2

theorem insertionSortLoop_perm {α : Type} (less : α → α → Bool) (a b : Nat) :
    ∀ (fuel i : Nat) (l : List α), (insertionSortLoop less a b fuel i l).Perm l := by
  intro fuel
  induction fuel with
  | zero => intro i l; exact List.Perm.refl _
  | succ f ih =>
    intro i l
    unfold insertionSortLoop
    split_ifs
    · exact (ih _ _).trans (insertLoop_perm less a i l)
    · exact List.Perm.refl _

theorem insertionSortLoop_within {α : Type} (less : α → α → Bool) (a b : Nat) :
    ∀ (fuel i : Nat) (l : List α), Within l (insertionSortLoop less a b fuel i l) a b := by
  intro fuel
  induction fuel with
  | zero => intro i l; exact within_refl _ _ _
  | succ f ih =>
    intro i l
    unfold insertionSortLoop
    split_ifs with h
    · exact (within_mono (insertLoop_within less a i l) (le_refl a) (by omega)).trans (ih _ _)
    · exact within_refl _ _ _

theorem insertionSortLoop_sorted {α : Type} {less : α → α → Bool} {le : α → α → Prop}
    (hc : Comparator less le) (a b : Nat) :
    ∀ (fuel i : Nat) (l : List α), b ≤ i + fuel → a < i → i ≤ b → b ≤ l.length →
      SortedOn le l a i → SortedOn le (insertionSortLoop less a b fuel i l) a b := by
  intro fuel
  induction fuel with
  | zero =>
    intro i l hf _ hib _ hs
    have : i = b := by omega
    subst this
    exact hs
  | succ f ih =>
    intro i l hf hai hib hlen hs
    unfold insertionSortLoop
    by_cases h : i < b
    · rw [if_pos h]
      have hw := insertLoop_within less a i l
      apply ih (i + 1) _ (by omega) (by omega) (by omega) (by rw [hw.1]; exact hlen)
      apply insertLoop_sorted hc a i i l (by omega) (le_refl _) (by omega) hs
      · intro p q x y h1 h2 h3
        omega
      · intro p q x y h1 h2 h3 h4
        omega
    · rw [if_neg h]
      have : i = b := by omega
      subst this
      exact hs

theorem insertionSort_spec {α : Type} {less : α → α → Bool} {le : α → α → Prop}
    (hc : Comparator less le) (l : List α) (a b : Nat) (hab : a ≤ b) (hb : b ≤ l.length) :
    SortedOn le (insertionSort less l a b) a b ∧ Within l (insertionSort less l a b) a b ∧
    (insertionSort less l a b).Perm l := by
  refine ⟨?_, insertionSortLoop_within less a b _ _ l, insertionSortLoop_perm less a b _ _ l⟩
  unfold insertionSort
  by_cases h : a = b
  · subst h
    intro p q x y h1 h2 h3
    omega
  · apply insertionSortLoop_sorted hc a b (b - a) (a + 1) l (by omega) (by omega) (by omega) hb
    intro p q x y h1 h2 h3
    omega

end MeterSdk

namespace MeterSdk

theorem searchLoop_spec (pred : Nat → Bool) :
    ∀ (fuel i j : Nat), i ≤ j → j - i ≤ fuel →
      i ≤ searchLoop pred fuel i j ∧ searchLoop pred fuel i j ≤ j ∧
      (searchLoop pred fuel i j ≠ i → pred (searchLoop pred fuel i j - 1) = true) ∧
      (searchLoop pred fuel i j ≠ j → pred (searchLoop pred fuel i j) = false) := by
  intro fuel
  induction fuel with
  | zero =>
    intro i j hij hf
    have : i = j := by omega
    subst this
    simp [searchLoop]
  | succ f ih =>
    intro i j hij hf
    unfold searchLoop
    by_cases hlt : i < j
    · rw [if_pos hlt]
      have hh1 : i ≤ (i + j) / 2 := by omega
      have hh2 : (i + j) / 2 < j := by omega
      by_cases hp : pred ((i + j) / 2) = true
      · rw [if_pos hp]
        obtain ⟨h1, h2, h3, h4⟩ := ih ((i + j) / 2 + 1) j (by omega) (by omega)
        refine ⟨by omega, h2, ?_, h4⟩
        intro _
        by_cases hr : searchLoop pred f ((i + j) / 2 + 1) j = (i + j) / 2 + 1
        · rw [hr]; simpa using hp
        · exact h3 hr
      · rw [if_neg hp]
        obtain ⟨h1, h2, h3, h4⟩ := ih i ((i + j) / 2) (by omega) (by omega)
        refine ⟨h1, by omega, h3, ?_⟩
        intro _
        by_cases hr : searchLoop pred f i ((i + j) / 2) = (i + j) / 2
        · rw [hr]; simpa using hp
        · exact h4 hr
    · rw [if_neg hlt]
      have : i = j := by omega
      subst this
      simp

theorem shiftUpLoop_perm {α : Type} (e : Nat) :
    ∀ (rem k : Nat) (l : List α), (shiftUpLoop e rem k l).Perm l := by
  intro rem
  induction rem with
  | zero => intro k l; exact List.Perm.refl _
  | succ r ih =>
    intro k l
    unfold shiftUpLoop
    split_ifs
    · exact (ih _ _).trans (swapAt_perm l k (k + 1))
    · exact List.Perm.refl _

theorem shiftUpLoop_spec {α : Type} (e : Nat) :
    ∀ (rem k : Nat) (l : List α), k ≤ e → e < l.length → e - k ≤ rem →
      (shiftUpLoop e rem k l).length = l.length ∧
      ∀ t, (shiftUpLoop e rem k l)[t]? =
        if k ≤ t ∧ t < e then l[t + 1]? else if t = e then l[k]? else l[t]? := by
  intro rem
  induction rem with
  | zero =>
    intro k l hk he hr
    have : k = e := by omega
    subst this
    refine ⟨rfl, fun t => ?_⟩
    simp only [shiftUpLoop]
    by_cases ht : t = k
    · subst ht; simp
    · rw [if_neg (by omega), if_neg ht]
  | succ r ih =>
    intro k l hk he hr
    unfold shiftUpLoop
    by_cases hlt : k < e
    · rw [if_pos hlt]
      have hl1 : ∀ s, (swapAt l k (k + 1))[s]? =
          if s = k + 1 then l[k]? else if s = k then l[k + 1]? else l[s]? :=
        fun s => swapAt_getElem? l k (k + 1) s (by omega) (by omega)
      obtain ⟨hlen, hget⟩ := ih (k + 1) (swapAt l k (k + 1)) (by omega)
        (by rw [swapAt_length]; exact he) (by omega)
      refine ⟨hlen.trans (swapAt_length _ _ _), fun t => ?_⟩
      rw [hget t]
      by_cases h1 : k + 1 ≤ t ∧ t < e
      · rw [if_pos h1, if_pos (by omega), hl1, if_neg (by omega), if_neg (by omega)]
      · rw [if_neg h1]
        by_cases h2 : t = e
        · rw [if_pos h2, if_neg (by omega), if_pos h2, hl1, if_pos rfl]
        · rw [if_neg h2, hl1, if_neg (by omega)]
          by_cases h3 : t = k
          · rw [if_pos h3, if_pos (by omega), h3]
          · rw [if_neg h3, if_neg (by omega), if_neg h2]
    · rw [if_neg hlt]
      have : k = e := by omega
      subst this
      refine ⟨rfl, fun t => ?_⟩
      by_cases ht : t = k
      · subst ht; simp
      · rw [if_neg (by omega), if_neg ht]

theorem shiftDownLoop_perm {α : Type} (i : Nat) :
    ∀ (k : Nat) (l : List α), (shiftDownLoop i k l).Perm l := by
  intro k
  induction k with
  | zero => intro l; exact List.Perm.refl _
  | succ k ih =>
    intro l
    unfold shiftDownLoop
    split_ifs
    · exact (ih _).trans (swapAt_perm l (k + 1) k)
    · exact List.Perm.refl _

theorem shiftDownLoop_spec {α : Type} (i : Nat) :
    ∀ (k : Nat) (l : List α), i ≤ k → k < l.length →
      (shiftDownLoop i k l).length = l.length ∧
      ∀ t, (shiftDownLoop i k l)[t]? =
        if t = i then l[k]? else if i < t ∧ t ≤ k then l[t - 1]? else l[t]? := by
  intro k
  induction k with
  | zero =>
    intro l hi _
    have : i = 0 := by omega
    subst this
    refine ⟨rfl, fun t => ?_⟩
    simp only [shiftDownLoop]
    by_cases ht : t = 0
    · subst ht; simp
    · rw [if_neg ht, if_neg (by omega)]
  | succ k ih =>
    intro l hi hk
    unfold shiftDownLoop
    by_cases hlt : i < k + 1
    · rw [if_pos hlt]
      have hl1 : ∀ s, (swapAt l (k + 1) k)[s]? =
          if s = k then l[k + 1]? else if s = k + 1 then l[k]? else l[s]? :=
        fun s => swapAt_getElem? l (k + 1) k s (by omega) (by omega)
      obtain ⟨hlen, hget⟩ := ih (swapAt l (k + 1) k) (by omega)
        (by rw [swapAt_length]; omega)
      refine ⟨hlen.trans (swapAt_length _ _ _), fun t => ?_⟩
      rw [hget t]
      by_cases h1 : t = i
      · rw [if_pos h1, if_pos h1, hl1, if_pos rfl]
      · rw [if_neg h1, if_neg h1]
        by_cases h2 : i < t ∧ t ≤ k
        · rw [if_pos h2, if_pos (by omega), hl1, if_neg (by omega), if_neg (by omega)]
        · rw [if_neg h2, hl1, if_neg (by omega)]
          by_cases h3 : t = k + 1
          · rw [if_pos h3, if_pos (by omega), h3]
            simp
          · rw [if_neg h3, if_neg (by omega)]
    · rw [if_neg hlt]
      have : i = k + 1 := by omega
      subst this
      refine ⟨rfl, fun t => ?_⟩
      by_cases ht : t = k + 1
      · subst ht; simp
      · rw [if_neg ht, if_neg (by omega)]

end MeterSdk

namespace MeterSdk

theorem swapRangeLoop_perm {α : Type} (a b : Nat) :
    ∀ (rem i : Nat) (l : List α), (swapRangeLoop a b rem i l).Perm l := by
  intro rem
  induction rem with
  | zero => intro i l; exact List.Perm.refl _
  | succ r ih =>
    intro i l
    unfold swapRangeLoop
    exact (ih _ _).trans (swapAt_perm l (a + i) (b + i))

theorem swapRangeLoop_spec {α : Type} (a b : Nat) :
    ∀ (rem i : Nat) (l : List α), a + (i + rem) ≤ b → b + (i + rem) ≤ l.length →
      (swapRangeLoop a b rem i l).length = l.length ∧
      ∀ t, (swapRangeLoop a b rem i l)[t]? =
        if a + i ≤ t ∧ t < a + i + rem then l[b + (t - a)]?
        else if b + i ≤ t ∧ t < b + i + rem then l[a + (t - b)]? else l[t]? := by
  intro rem
  induction rem with
  | zero =>
    intro i l _ _
    refine ⟨rfl, fun t => ?_⟩
    simp only [swapRangeLoop]
    rw [if_neg (by omega), if_neg (by omega)]
  | succ r ih =>
    intro i l h1 h2
    unfold swapRangeLoop
    have hl1 : ∀ s, (swapAt l (a + i) (b + i))[s]? =
        if s = b + i then l[a + i]? else if s = a + i then l[b + i]? else l[s]? :=
      fun s => swapAt_getElem? l (a + i) (b + i) s (by omega) (by omega)
    obtain ⟨hlen, hget⟩ := ih (i + 1) (swapAt l (a + i) (b + i)) (by omega)
      (by rw [swapAt_length]; omega)
    refine ⟨hlen.trans (swapAt_length _ _ _), fun t => ?_⟩
    rw [hget t]
    simp only [hl1]
    split_ifs <;> first | rfl | (congr 1; omega)

theorem swapRange_spec {α : Type} (l : List α) (a b n : Nat) (h1 : a + n ≤ b)
    (h2 : b + n ≤ l.length) :
    (swapRange l a b n).length = l.length ∧
    ∀ t, (swapRange l a b n)[t]? =
      if a ≤ t ∧ t < a + n then l[b + (t - a)]?
      else if b ≤ t ∧ t < b + n then l[a + (t - b)]? else l[t]? := by
  obtain ⟨hlen, hget⟩ := swapRangeLoop_spec a b n 0 l (by omega) (by omega)
  refine ⟨hlen, fun t => ?_⟩
  have := hget t
  simpa using this

theorem rotateLoop_perm {α : Type} (m : Nat) :
    ∀ (fuel i j : Nat) (l : List α), (rotateLoop m fuel i j l).Perm l := by
  intro fuel
  induction fuel with
  | zero => intro i j l; exact List.Perm.refl _
  | succ f ih =>
    intro i j l
    unfold rotateLoop
    split_ifs
    · exact (ih _ _ _).trans (swapRangeLoop_perm _ _ _ _ l)
    · exact (ih _ _ _).trans (swapRangeLoop_perm _ _ _ _ l)
    · exact swapRangeLoop_perm _ _ _ _ l

theorem rotateLoop_spec {α : Type} (m : Nat) :
    ∀ (fuel i j : Nat) (l : List α), 0 < i → 0 < j → i ≤ m → m + j ≤ l.length → i + j ≤ fuel →
      (rotateLoop m fuel i j l).length = l.length ∧
      ∀ t, (rotateLoop m fuel i j l)[t]? =
        if m - i ≤ t ∧ t < m - i + j then l[t + i]?
        else if m - i + j ≤ t ∧ t < m + j then l[t - j]? else l[t]? := by
  intro fuel
  induction fuel with
  | zero => intro i j l hi hj _ _ hf; omega
  | succ f ih =>
    intro i j l hi hj him hlen hf
    unfold rotateLoop
    by_cases hne : i ≠ j
    · rw [if_pos hne]
      by_cases hgt : i > j
      · rw [if_pos hgt]
        obtain ⟨hlen1, hget1⟩ := swapRange_spec l (m - i) m j (by omega) (by omega)
        obtain ⟨hlen2, hget2⟩ := ih (i - j) j (swapRange l (m - i) m j) (by omega) hj (by omega)
          (by rw [hlen1]; exact hlen) (by omega)
        refine ⟨hlen2.trans hlen1, fun t => ?_⟩
        rw [hget2 t]
        simp only [hget1]
        split_ifs <;> first | rfl | (congr 1; omega)
      · rw [if_neg hgt]
        obtain ⟨hlen1, hget1⟩ := swapRange_spec l (m - i) (m + j - i) i (by omega) (by omega)
        obtain ⟨hlen2, hget2⟩ := ih i (j - i) (swapRange l (m - i) (m + j - i) i) hi (by omega) him
          (by rw [hlen1]; omega) (by omega)
        refine ⟨hlen2.trans hlen1, fun t => ?_⟩
        rw [hget2 t]
        simp only [hget1]
        split_ifs <;> first | rfl | (congr 1; omega)
    · rw [if_neg hne]
      have hij : i = j := by omega
      subst hij
      obtain ⟨hlen1, hget1⟩ := swapRange_spec l (m - i) m i (by omega) (by omega)
      refine ⟨hlen1, fun t => ?_⟩
      rw [hget1 t]
      split_ifs <;> first | rfl | (congr 1; omega)

/-- Go `rotate(data, a, m, b)` exchanges the blocks `[a, m)` and `[m, b)` keeping the order
inside each. -/
theorem rotate_spec {α : Type} (l : List α) (a m b : Nat) (h1 : a < m) (h2 : m < b)
    (h3 : b ≤ l.length) :
    (rotate l a m b).length = l.length ∧ (rotate l a m b).Perm l ∧
    ∀ t, (rotate l a m b)[t]? =
      if a ≤ t ∧ t < a + (b - m) then l[t + (m - a)]?
      else if a + (b - m) ≤ t ∧ t < b then l[t - (b - m)]? else l[t]? := by
  obtain ⟨hlen, hget⟩ := rotateLoop_spec m ((m - a) + (b - m) + 1) (m - a) (b - m) l (by omega)
    (by omega) (by omega) (by omega) (by omega)
  refine ⟨hlen, rotateLoop_perm _ _ _ _ l, fun t => ?_⟩
  unfold rotate
  rw [hget t]
  split_ifs <;> first | rfl | (congr 1; omega)

end MeterSdk

namespace MeterSdk

theorem getElem?_some_of_lt {α : Type} (l : List α) (t : Nat) (h : t < l.length) :
    ∃ x, l[t]? = some x := ⟨_, List.getElem?_eq_getElem h⟩

/-- A slice given pointwise by a re-indexing of `l` inside `[a, b)` stays within `[a, b)`. -/
theorem within_of_reindex {α : Type} (l l' : List α) (a b : Nat) (f : Nat → Nat)
    (hlen : l'.length = l.length) (hget : ∀ t, l'[t]? = l[f t]?)
    (hout : ∀ t, t < a ∨ b ≤ t → f t = t) (hin : ∀ t, a ≤ t → t < b → a ≤ f t ∧ f t < b) :
    Within l l' a b :=
  ⟨hlen, fun k hk => by rw [hget k, hout k hk],
    fun k h1 h2 => ⟨f k, (hin k h1 h2).1, (hin k h1 h2).2, hget k⟩⟩

/-- First special case of `symMerge`: a single element at `a` is inserted into the sorted run
`[a + 1, b)`. -/
theorem symMerge_left_single {α : Type} {less : α → α → Bool} {le : α → α → Prop}
    (hc : Comparator less le) (l : List α) (a b : Nat) (hab : a + 1 < b) (hb : b ≤ l.length)
    (hs : SortedOn le l (a + 1) b) :
    SortedOn le (shiftUpLoop (searchLoop (fun h => lessAt less l h a) (b - (a + 1)) (a + 1) b - 1)
        (searchLoop (fun h => lessAt less l h a) (b - (a + 1)) (a + 1) b - 1 - a) a l) a b ∧
    Within l (shiftUpLoop (searchLoop (fun h => lessAt less l h a) (b - (a + 1)) (a + 1) b - 1)
        (searchLoop (fun h => lessAt less l h a) (b - (a + 1)) (a + 1) b - 1 - a) a l) a b := by
  obtain ⟨h1, h2, h3, h4⟩ := searchLoop_spec (fun h => lessAt less l h a) (b - (a + 1)) (a + 1) b
    (by omega) (le_refl _)
  generalize searchLoop (fun h => lessAt less l h a) (b - (a + 1)) (a + 1) b = i at h1 h2 h3 h4
  obtain ⟨hlen, hget⟩ := shiftUpLoop_spec (i - 1) (i - 1 - a) a l (by omega) (by omega) (le_refl _)
  generalize shiftUpLoop (i - 1) (i - 1 - a) a l = l' at hlen hget
  obtain ⟨xa, hxa⟩ := getElem?_some_of_lt l a (by omega)
  have hf1 : i ≠ a + 1 → ∀ z, l[i - 1]? = some z → le z xa := by
    intro hne z hz
    have := h3 hne
    simp only at this
    rw [lessAt_eq less l (i - 1) a z xa hz hxa] at this
    exact hc.of_true _ _ this
  have hf2 : i ≠ b → ∀ z, l[i]? = some z → le xa z := by
    intro hne z hz
    have := h4 hne
    simp only at this
    rw [lessAt_eq less l i a z xa hz hxa] at this
    exact hc.of_false _ _ this
  constructor
  · intro p q x y hp hpq hq hx hy
    rw [hget] at hx hy
    by_cases hq1 : q < i - 1
    · rw [if_pos ⟨by omega, hq1⟩] at hy
      rw [if_pos ⟨hp, by omega⟩] at hx
      exact hs (p + 1) (q + 1) x y (by omega) (by omega) (by omega) hx hy
    · rw [if_neg (by omega)] at hy
      by_cases hq2 : q = i - 1
      · rw [if_pos hq2, hxa] at hy
        cases hy
        rw [if_pos ⟨hp, by omega⟩] at hx
        by_cases hp1 : p + 1 = i - 1
        · rw [hp1] at hx
          exact hf1 (by omega) x hx
        · obtain ⟨z, hz⟩ := getElem?_some_of_lt l (i - 1) (by omega)
          exact hc.trans _ _ _ (hs (p + 1) (i - 1) x z (by omega) (by omega) (by omega) hx hz)
            (hf1 (by omega) z hz)
      · rw [if_neg hq2] at hy
        by_cases hp1 : p < i - 1
        · rw [if_pos ⟨hp, hp1⟩] at hx
          exact hs (p + 1) q x y (by omega) (by omega) hq hx hy
        · rw [if_neg (by omega)] at hx
          by_cases hp2 : p = i - 1
          · rw [if_pos hp2, hxa] at hx
            cases hx
            by_cases hqi : q = i
            · rw [hqi] at hy
              exact hf2 (by omega) y hy
            · obtain ⟨z, hz⟩ := getElem?_some_of_lt l i (by omega)
              exact hc.trans _ _ _ (hf2 (by omega) z hz)
                (hs i q z y (by omega) (by omega) hq hz hy)
          · rw [if_neg hp2] at hx
            exact hs p q x y (by omega) hpq hq hx hy
  · apply within_of_reindex l l' a b
      (fun t => if a ≤ t ∧ t < i - 1 then t + 1 else if t = i - 1 then a else t) hlen
    · intro t
      rw [hget t]
      split_ifs <;> rfl
    · intro t ht
      split_ifs <;> omega
    · intro t ht1 ht2
      split_ifs <;> omega

/-- Second special case of `symMerge`: a single element at `m` is inserted into the sorted run
`[a, m)`. -/
theorem symMerge_right_single {α : Type} {less : α → α → Bool} {le : α → α → Prop}
    (hc : Comparator less le) (l : List α) (a m : Nat) (ham : a < m) (hb : m + 1 ≤ l.length)
    (hs : SortedOn le l a m) :
    SortedOn le (shiftDownLoop (searchLoop (fun h => !lessAt less l m h) (m - a) a m) m l)
      a (m + 1) ∧
    Within l (shiftDownLoop (searchLoop (fun h => !lessAt less l m h) (m - a) a m) m l)
      a (m + 1) := by
  obtain ⟨h1, h2, h3, h4⟩ := searchLoop_spec (fun h => !lessAt less l m h) (m - a) a m
    (by omega) (le_refl _)
  generalize searchLoop (fun h => !lessAt less l m h) (m - a) a m = i at h1 h2 h3 h4
  obtain ⟨hlen, hget⟩ := shiftDownLoop_spec i m l h2 (by omega)
  generalize shiftDownLoop i m l = l' at hlen hget
  obtain ⟨xm, hxm⟩ := getElem?_some_of_lt l m (by omega)
  have hf1 : i ≠ a → ∀ z, l[i - 1]? = some z → le z xm := by
    intro hne z hz
    have := h3 hne
    simp only [Bool.not_eq_true'] at this
    rw [lessAt_eq less l m (i - 1) xm z hxm hz] at this
    exact hc.of_false _ _ this
  have hf2 : i ≠ m → ∀ z, l[i]? = some z → le xm z := by
    intro hne z hz
    have := h4 hne
    simp only [Bool.not_eq_false'] at this
    rw [lessAt_eq less l m i xm z hxm hz] at this
    exact hc.of_true _ _ this
  constructor
  · intro p q x y hp hpq hq hx hy
    rw [hget] at hx hy
    by_cases hp1 : p = i
    · rw [if_pos hp1, hxm] at hx
      cases hx
      rw [if_neg (by omega), if_pos ⟨by omega, by omega⟩] at hy
      by_cases hq1 : q - 1 = i
      · rw [hq1] at hy
        exact hf2 (by omega) y hy
      · obtain ⟨z, hz⟩ := getElem?_some_of_lt l i (by omega)
        exact hc.trans _ _ _ (hf2 (by omega) z hz)
          (hs i (q - 1) z y (by omega) (by omega) (by omega) hz hy)
    · rw [if_neg hp1] at hx
      by_cases hp2 : i < p
      · rw [if_pos ⟨hp2, by omega⟩] at hx
        rw [if_neg (by omega), if_pos ⟨by omega, by omega⟩] at hy
        exact hs (p - 1) (q - 1) x y (by omega) (by omega) (by omega) hx hy
      · rw [if_neg (by omega)] at hx
        by_cases hq1 : q = i
        · rw [if_pos hq1, hxm] at hy
          cases hy
          by_cases hpi : p = i - 1
          · rw [hpi] at hx
            exact hf1 (by omega) x hx
          · obtain ⟨z, hz⟩ := getElem?_some_of_lt l (i - 1) (by omega)
            exact hc.trans _ _ _ (hs p (i - 1) x z hp (by omega) (by omega) hx hz)
              (hf1 (by omega) z hz)
        · rw [if_neg hq1] at hy
          by_cases hq2 : i < q
          · rw [if_pos ⟨hq2, by omega⟩] at hy
            by_cases hpq1 : p = q - 1
            · omega
            · exact hs p (q - 1) x y hp (by omega) (by omega) hx hy
          · rw [if_neg (by omega)] at hy
            exact hs p q x y hp hpq (by omega) hx hy
  · apply within_of_reindex l l' a (m + 1)
      (fun t => if t = i then m else if i < t ∧ t ≤ m then t - 1 else t) hlen
    · intro t
      rw [hget t]
      split_ifs <;> rfl
    · intro t ht
      split_ifs <;> omega
    · intro t ht1 ht2
      split_ifs <;> omega

end MeterSdk

namespace MeterSdk

theorem comparator_refl {α : Type} {less : α → α → Bool} {le : α → α → Prop}
    (hc : Comparator less le) (x : α) : le x x := by
  cases h : less x x
  · exact hc.of_false _ _ h
  · exact hc.of_true _ _ h

theorem SortedOn.le_of_le {α : Type} {less : α → α → Bool} {le : α → α → Prop}
    (hc : Comparator less le) {l : List α} {a b : Nat} (hs : SortedOn le l a b)
    (i j : Nat) (x y : α) (h1 : a ≤ i) (h2 : i ≤ j) (h3 : j < b) (hx : l[i]? = some x)
    (hy : l[j]? = some y) : le x y := by
  by_cases h : i = j
  · subst h
    rw [hx] at hy
    cases hy
    exact comparator_refl hc x
  · exact hs i j x y h1 (by omega) h3 hx hy

theorem BelowOn.within_left {α : Type} {le : α → α → Prop} {l l' : List α} {a m b : Nat}
    (hw : Within l l' a m) (hb : BelowOn le l a m b) : BelowOn le l' a m b := by
  intro i j x y h1 h2 h3 h4 hx hy
  obtain ⟨k, hk1, hk2, hk⟩ := hw.2.2 i h1 h2
  rw [hk] at hx
  rw [hw.2.1 j (by omega)] at hy
  exact hb k j x y hk1 hk2 h3 h4 hx hy

theorem BelowOn.within_right {α : Type} {le : α → α → Prop} {l l' : List α} {a m b : Nat}
    (hw : Within l l' m b) (hb : BelowOn le l a m b) : BelowOn le l' a m b := by
  intro i j x y h1 h2 h3 h4 hx hy
  obtain ⟨k, hk1, hk2, hk⟩ := hw.2.2 j h3 h4
  rw [hk] at hy
  rw [hw.2.1 i (by omega)] at hx
  exact hb i k x y h1 h2 hk1 hk2 hx hy

/-- The rotation step of `symMerge`, also when it is skipped: the blocks `[start, m)` and
`[m, e)` change places. -/
theorem rotate_or_skip_spec {α : Type} (l : List α) (start m e : Nat) (h1 : start ≤ m)
    (h2 : m ≤ e) (h3 : e ≤ l.length) :
    (if start < m ∧ m < e then rotate l start m e else l).length = l.length ∧
    (if start < m ∧ m < e then rotate l start m e else l).Perm l ∧
    ∀ t, (if start < m ∧ m < e then rotate l start m e else l)[t]? =
      if start ≤ t ∧ t < start + (e - m) then l[t + (m - start)]?
      else if start + (e - m) ≤ t ∧ t < e then l[t - (e - m)]? else l[t]? := by
  by_cases h : start < m ∧ m < e
  · rw [if_pos h]
    exact rotate_spec l start m e h.1 h.2 h3
  · rw [if_neg h]
    refine ⟨rfl, List.Perm.refl _, fun t => ?_⟩
    split_ifs <;> first | rfl | (congr 1; omega)

theorem symMerge_main {α : Type} {less : α → α → Bool} {le : α → α → Prop}
    (hc : Comparator less le) (f : Nat) (ih : SymMergeOk less le f)
    (l : List α) (a m b mid start e : Nat)
    (ha : a ≤ start) (hsm : start ≤ m) (hme : m ≤ e) (heb : e ≤ b) (hb : b ≤ l.length)
    (hmid : mid = start + (e - m)) (hf1 : mid - a ≤ f) (hf2 : b - mid ≤ f)
    (hs1 : SortedOn le l a m) (hs2 : SortedOn le l m b)
    (F1 : a < start → e < b → ∀ u v, l[start - 1]? = some u → l[e]? = some v → le u v)
    (F2 : start < m → m < e → ∀ u v, l[e - 1]? = some u → l[start]? = some v → le u v) :
    SortedOn le
      (if mid < e ∧ e < b then
        symMerge less f
          (if a < start ∧ start < mid then
            symMerge less f (if start < m ∧ m < e then rotate l start m e else l) a start mid
           else (if start < m ∧ m < e then rotate l start m e else l)) mid e b
       else
          (if a < start ∧ start < mid then
            symMerge less f (if start < m ∧ m < e then rotate l start m e else l) a start mid
           else (if start < m ∧ m < e then rotate l start m e else l))) a b ∧
    Within l
      (if mid < e ∧ e < b then
        symMerge less f
          (if a < start ∧ start < mid then
            symMerge less f (if start < m ∧ m < e then rotate l start m e else l) a start mid
           else (if start < m ∧ m < e then rotate l start m e else l)) mid e b
       else
          (if a < start ∧ start < mid then
            symMerge less f (if start < m ∧ m < e then rotate l start m e else l) a start mid
           else (if start < m ∧ m < e then rotate l start m e else l))) a b ∧
    (if mid < e ∧ e < b then
        symMerge less f
          (if a < start ∧ start < mid then
            symMerge less f (if start < m ∧ m < e then rotate l start m e else l) a start mid
           else (if start < m ∧ m < e then rotate l start m e else l)) mid e b
       else
          (if a < start ∧ start < mid then
            symMerge less f (if start < m ∧ m < e then rotate l start m e else l) a start mid
           else (if start < m ∧ m < e then rotate l start m e else l))).Perm l := by
  obtain ⟨hlen1, hperm1, hget1⟩ := rotate_or_skip_spec l start m e hsm hme (by omega)
  generalize (if start < m ∧ m < e then rotate l start m e else l) = l1 at hlen1 hperm1 hget1
  -- the four runs of l1
  have hA : SortedOn le l1 a start := by
    intro p q x y h1 h2 h3 hx hy
    rw [hget1, if_neg (by omega), if_neg (by omega)] at hx hy
    exact hs1 p q x y h1 h2 (by omega) hx hy
  have hB : SortedOn le l1 start mid := by
    intro p q x y h1 h2 h3 hx hy
    rw [hget1, if_pos ⟨by omega, by omega⟩] at hx hy
    exact hs2 _ _ x y (by omega) (by omega) (by omega) hx hy
  have hC : SortedOn le l1 mid e := by
    intro p q x y h1 h2 h3 hx hy
    rw [hget1, if_neg (by omega), if_pos ⟨by omega, by omega⟩] at hx hy
    exact hs1 _ _ x y (by omega) (by omega) (by omega) hx hy
  have hD : SortedOn le l1 e b := by
    intro p q x y h1 h2 h3 hx hy
    rw [hget1, if_neg (by omega), if_neg (by omega)] at hx hy
    exact hs2 p q x y (by omega) h2 h3 hx hy
  have hBelow : BelowOn le l1 a mid b := by
    intro p q x y h1 h2 h3 h4 hx hy
    rw [hget1] at hx hy
    by_cases hp : p < start
    · rw [if_neg (by omega), if_neg (by omega)] at hx
      by_cases hq : q < e
      · rw [if_neg (by omega), if_pos ⟨by omega, hq⟩] at hy
        exact hs1 p _ x y h1 (by omega) (by omega) hx hy
      · rw [if_neg (by omega), if_neg (by omega)] at hy
        obtain ⟨u, hu⟩ := getElem?_some_of_lt l (start - 1) (by omega)
        obtain ⟨v, hv⟩ := getElem?_some_of_lt l e (by omega)
        exact hc.trans _ _ _ (hs1.le_of_le hc p (start - 1) x u h1 (by omega) (by omega) hx hu)
          (hc.trans _ _ _ (F1 (by omega) (by omega) u v hu hv)
            (hs2.le_of_le hc e q v y (by omega) (by omega) h4 hv hy))
    · rw [if_pos ⟨by omega, by omega⟩] at hx
      by_cases hq : q < e
      · rw [if_neg (by omega), if_pos ⟨by omega, hq⟩] at hy
        obtain ⟨u, hu⟩ := getElem?_some_of_lt l (e - 1) (by omega)
        obtain ⟨v, hv⟩ := getElem?_some_of_lt l start (by omega)
        exact hc.trans _ _ _
          (hs2.le_of_le hc _ (e - 1) x u (by omega) (by omega) (by omega) hx hu)
          (hc.trans _ _ _ (F2 (by omega) (by omega) u v hu hv)
            (hs1.le_of_le hc start _ v y (by omega) (by omega) (by omega) hv hy))
      · rw [if_neg (by omega), if_neg (by omega)] at hy
        exact hs2 _ q x y (by omega) (by omega) h4 hx hy
  have hW1 : Within l l1 a b := by
    apply within_of_reindex l l1 a b
      (fun t => if start ≤ t ∧ t < start + (e - m) then t + (m - start)
                else if start + (e - m) ≤ t ∧ t < e then t - (e - m) else t) hlen1
    · intro t
      rw [hget1 t]
      split_ifs <;> rfl
    · intro t ht
      split_ifs <;> omega
    · intro t ht1 ht2
      split_ifs <;> omega
  -- first recursive call
  have h2 : ∃ l2, l2 = (if a < start ∧ start < mid then symMerge less f l1 a start mid else l1) ∧
      SortedOn le l2 a mid ∧ Within l1 l2 a mid ∧ l2.Perm l1 := by
    by_cases hcnd : a < start ∧ start < mid
    · rw [if_pos hcnd]
      obtain ⟨r1, r2, r3⟩ := ih l1 a start mid hcnd.1 hcnd.2 (by omega) hf1 hA hB
      exact ⟨_, rfl, r1, r2, r3⟩
    · rw [if_neg hcnd]
      refine ⟨_, rfl, ?_, within_refl _ _ _, List.Perm.refl _⟩
      by_cases h : a < start
      · have : start = mid := by omega
        subst this
        exact hA
      · have : start = a := by omega
        subst this
        exact hB
  obtain ⟨l2, hl2, hS2, hW2, hP2⟩ := h2
  rw [← hl2]
  have hC2 : SortedOn le l2 mid e := hW2.sortedOn_outside hC (Or.inr (le_refl _))
  have hD2 : SortedOn le l2 e b := hW2.sortedOn_outside hD (Or.inr (by omega))
  have hBelow2 : BelowOn le l2 a mid b := hBelow.within_left hW2
  have h3 : ∃ l3, l3 = (if mid < e ∧ e < b then symMerge less f l2 mid e b else l2) ∧
      SortedOn le l3 mid b ∧ Within l2 l3 mid b ∧ l3.Perm l2 := by
    by_cases hcnd : mid < e ∧ e < b
    · rw [if_pos hcnd]
      obtain ⟨r1, r2, r3⟩ := ih l2 mid e b hcnd.1 hcnd.2 (by rw [hW2.1, hlen1]; exact hb) hf2
        hC2 hD2
      exact ⟨_, rfl, r1, r2, r3⟩
    · rw [if_neg hcnd]
      refine ⟨_, rfl, ?_, within_refl _ _ _, List.Perm.refl _⟩
      by_cases h : mid < e
      · have : e = b := by omega
        subst this
        exact hC2
      · have : e = mid := by omega
        subst this
        exact hD2
  obtain ⟨l3, hl3, hS3, hW3, hP3⟩ := h3
  rw [← hl3]
  refine ⟨?_, ?_, hP3.trans (hP2.trans hperm1)⟩
  · exact sortedOn_glue (hW3.sortedOn_outside hS2 (Or.inl (le_refl _))) hS3
      (hBelow2.within_right hW3)
  · exact hW1.trans ((within_mono hW2 (le_refl _) (by omega)).trans (within_mono hW3 (by omega) (le_refl _)))

end MeterSdk

namespace MeterSdk

theorem symMerge_ok {α : Type} {less : α → α → Bool} {le : α → α → Prop}
    (hc : Comparator less le) : ∀ f, SymMergeOk less le f := by
  intro f
  induction f with
  | zero => intro l a m b ham hmb _ hf; omega
  | succ f ih =>
    intro l a m b ham hmb hb hf hs1 hs2
    unfold symMerge
    by_cases c1 : m - a = 1
    · rw [if_pos c1]
      have : m = a + 1 := by omega
      subst this
      obtain ⟨r1, r2⟩ := symMerge_left_single hc l a b hmb hb hs2
      exact ⟨r1, r2, shiftUpLoop_perm _ _ _ _⟩
    · rw [if_neg c1]
      by_cases c2 : b - m = 1
      · rw [if_pos c2]
        have : b = m + 1 := by omega
        subst this
        obtain ⟨r1, r2⟩ := symMerge_right_single hc l a m ham hb hs1
        exact ⟨r1, r2, shiftDownLoop_perm _ _ _⟩
      · rw [if_neg c2]
        simp only []
        obtain ⟨start0, hstart0⟩ : ∃ s, s = (if m > (a + b) / 2 then (a + b) / 2 + m - b else a) :=
          ⟨_, rfl⟩
        obtain ⟨r0, hr0⟩ : ∃ r, r = (if m > (a + b) / 2 then (a + b) / 2 else m) := ⟨_, rfl⟩
        rw [← hstart0, ← hr0]
        have P1 : a ≤ start0 ∧ (a + b) / 2 + m - b ≤ start0 ∧
            (start0 = a ∨ start0 + b = (a + b) / 2 + m) := by
          rw [hstart0]; split_ifs <;> omega
        have P2 : r0 ≤ m ∧ r0 ≤ (a + b) / 2 ∧ (r0 = m ∨ r0 = (a + b) / 2) := by
          rw [hr0]; split_ifs <;> omega
        have P3 : start0 ≤ r0 := by
          rw [hstart0, hr0]; split_ifs <;> omega
        obtain ⟨g1, g2, g3, g4⟩ := searchLoop_spec
          (fun c => !lessAt less l ((a + b) / 2 + m - 1 - c) c) (r0 - start0) start0 r0 P3
          (le_refl _)
        generalize searchLoop (fun c => !lessAt less l ((a + b) / 2 + m - 1 - c) c) (r0 - start0)
          start0 r0 = start at g1 g2 g3 g4
        apply symMerge_main hc f ih l a m b ((a + b) / 2) start ((a + b) / 2 + m - start)
          (by omega) (by omega) (by omega) (by omega) hb (by omega) (by omega) (by omega) hs1 hs2
        · intro h1 h2 u v hu hv
          have h := g3 (by omega)
          simp only [Bool.not_eq_true'] at h
          have hidx : (a + b) / 2 + m - 1 - (start - 1) = (a + b) / 2 + m - start := by omega
          rw [hidx, lessAt_eq less l _ _ v u hv hu] at h
          exact hc.of_false _ _ h
        · intro h1 h2 u v hu hv
          have h := g4 (by omega)
          simp only [Bool.not_eq_false'] at h
          have hidx : (a + b) / 2 + m - 1 - start = (a + b) / 2 + m - start - 1 := by omega
          rw [hidx, lessAt_eq less l _ _ u v hu hv] at h
          exact hc.of_true _ _ h

end MeterSdk

namespace MeterSdk

theorem dvd_add_le_of_lt {d s a : Nat} (hs : d ∣ s) (ha : d ∣ a) (h : s < a) : s + d ≤ a := by
  obtain ⟨x, rfl⟩ := hs
  obtain ⟨y, rfl⟩ := ha
  have hd : 0 < d := by
    rcases Nat.eq_zero_or_pos d with h0 | h0
    · subst h0; simp at h
    · exact h0
  have hxy : x < y := lt_of_mul_lt_mul_left h (Nat.zero_le d)
  calc d * x + d = d * (x + 1) := by ring
    _ ≤ d * y := Nat.mul_le_mul_left d hxy

theorem dvd_eq_of_lt_add {d s a : Nat} (hs : d ∣ s) (ha : d ∣ a) (h1 : a ≤ s) (h2 : s < a + d) :
    s = a := by
  by_contra hne
  have := dvd_add_le_of_lt ha hs (by omega : a < s)
  omega

theorem stableBlocksLoop_spec {α : Type} {less : α → α → Bool} {le : α → α → Prop}
    (hc : Comparator less le) (bs n : Nat) (hbs : 0 < bs) :
    ∀ (fuel a : Nat) (l : List α), bs ∣ a → a ≤ n → n ≤ l.length → n ≤ a + fuel →
      (∀ s, bs ∣ s → s < a → SortedOn le l s (s + bs)) →
      bs ∣ (stableBlocksLoop less bs n fuel a (a + bs) l).2 ∧
      (stableBlocksLoop less bs n fuel a (a + bs) l).2 ≤ n ∧
      n < (stableBlocksLoop less bs n fuel a (a + bs) l).2 + bs ∧
      (stableBlocksLoop less bs n fuel a (a + bs) l).1.length = l.length ∧
      (stableBlocksLoop less bs n fuel a (a + bs) l).1.Perm l ∧
      (∀ s, bs ∣ s → s < (stableBlocksLoop less bs n fuel a (a + bs) l).2 →
        SortedOn le (stableBlocksLoop less bs n fuel a (a + bs) l).1 s (s + bs)) := by
  intro fuel
  induction fuel with
  | zero =>
    intro a l hdiv han hlen hf hinv
    simp only [stableBlocksLoop]
    exact ⟨hdiv, han, by omega, trivial, List.Perm.refl _, hinv⟩
  | succ f ih =>
    intro a l hdiv han hlen hf hinv
    unfold stableBlocksLoop
    by_cases hb : a + bs ≤ n
    · rw [if_pos hb]
      obtain ⟨r1, r2, r3⟩ := insertionSort_spec hc l a (a + bs) (by omega) (by omega)
      have hinv' : ∀ s, bs ∣ s → s < a + bs →
          SortedOn le (insertionSort less l a (a + bs)) s (s + bs) := by
        intro s hs hlt
        by_cases hsa : s < a
        · exact r2.sortedOn_outside (hinv s hs hsa) (Or.inl (dvd_add_le_of_lt hs hdiv hsa))
        · have : s = a := dvd_eq_of_lt_add hs hdiv (by omega) hlt
          subst this
          exact r1
      obtain ⟨q1, q2, q3, q4, q5, q6⟩ := ih (a + bs) (insertionSort less l a (a + bs))
        (Nat.dvd_add hdiv (dvd_refl bs)) hb (by rw [r2.1]; exact hlen) (by omega) hinv'
      exact ⟨q1, q2, q3, q4.trans r2.1, q5.trans r3, q6⟩
    · rw [if_neg hb]
      exact ⟨hdiv, han, by omega, rfl, List.Perm.refl _, hinv⟩

theorem stableMergeLoop_spec {α : Type} {less : α → α → Bool} {le : α → α → Prop}
    (hc : Comparator less le) (bs n : Nat) (hbs : 0 < bs) :
    ∀ (fuel a : Nat) (l : List α), (2 * bs) ∣ a → a ≤ n → n ≤ l.length → n ≤ a + fuel →
      (∀ s, (2 * bs) ∣ s → s < a → SortedOn le l s (s + 2 * bs)) →
      (∀ s, bs ∣ s → a ≤ s → SortedOn le l s (min (s + bs) n)) →
      (2 * bs) ∣ (stableMergeLoop less bs n fuel a (a + 2 * bs) l).2 ∧
      (stableMergeLoop less bs n fuel a (a + 2 * bs) l).2 ≤ n ∧
      n < (stableMergeLoop less bs n fuel a (a + 2 * bs) l).2 + 2 * bs ∧
      (stableMergeLoop less bs n fuel a (a + 2 * bs) l).1.length = l.length ∧
      (stableMergeLoop less bs n fuel a (a + 2 * bs) l).1.Perm l ∧
      (∀ s, (2 * bs) ∣ s → s < (stableMergeLoop less bs n fuel a (a + 2 * bs) l).2 →
        SortedOn le (stableMergeLoop less bs n fuel a (a + 2 * bs) l).1 s (s + 2 * bs)) ∧
      (∀ s, bs ∣ s → (stableMergeLoop less bs n fuel a (a + 2 * bs) l).2 ≤ s →
        SortedOn le (stableMergeLoop less bs n fuel a (a + 2 * bs) l).1 s (min (s + bs) n)) := by
  intro fuel
  induction fuel with
  | zero =>
    intro a l hdiv han hlen hf hinv hrest
    simp only [stableMergeLoop]
    exact ⟨hdiv, han, by omega, trivial, List.Perm.refl _, hinv, hrest⟩
  | succ f ih =>
    intro a l hdiv han hlen hf hinv hrest
    unfold stableMergeLoop
    by_cases hb : a + 2 * bs ≤ n
    · rw [if_pos hb]
      have hbsa : bs ∣ a := Dvd.dvd.trans (Dvd.intro_left 2 rfl) hdiv
      have hA : SortedOn le l a (a + bs) := by
        have := hrest a hbsa (le_refl _)
        rwa [Nat.min_eq_left (by omega)] at this
      have hB : SortedOn le l (a + bs) (a + 2 * bs) := by
        have := hrest (a + bs) (Nat.dvd_add hbsa (dvd_refl bs)) (by omega)
        rwa [show a + bs + bs = a + 2 * bs by omega, Nat.min_eq_left hb] at this
      obtain ⟨r1, r2, r3⟩ := symMerge_ok hc (a + 2 * bs - a + 1) l a (a + bs) (a + 2 * bs)
        (by omega) (by omega) (by omega) (by omega) hA hB
      have hinv' : ∀ s, (2 * bs) ∣ s → s < a + 2 * bs →
          SortedOn le (symMerge less (a + 2 * bs - a + 1) l a (a + bs) (a + 2 * bs)) s
            (s + 2 * bs) := by
        intro s hs hlt
        by_cases hsa : s < a
        · exact r2.sortedOn_outside (hinv s hs hsa) (Or.inl (dvd_add_le_of_lt hs hdiv hsa))
        · have : s = a := dvd_eq_of_lt_add hs hdiv (by omega) hlt
          subst this
          exact r1
      have hrest' : ∀ s, bs ∣ s → a + 2 * bs ≤ s →
          SortedOn le (symMerge less (a + 2 * bs - a + 1) l a (a + bs) (a + 2 * bs)) s
            (min (s + bs) n) := by
        intro s hs hle
        exact r2.sortedOn_outside (hrest s hs (by omega)) (Or.inr hle)
      obtain ⟨q1, q2, q3, q4, q5, q6, q7⟩ := ih (a + 2 * bs)
        (symMerge less (a + 2 * bs - a + 1) l a (a + bs) (a + 2 * bs))
        (Nat.dvd_add hdiv (dvd_refl _)) hb (by rw [r2.1]; exact hlen) (by omega) hinv' hrest'
      exact ⟨q1, q2, q3, q4.trans r2.1, q5.trans r3, q6, q7⟩
    · rw [if_neg hb]
      exact ⟨hdiv, han, by omega, rfl, List.Perm.refl _, hinv, hrest⟩

end MeterSdk

namespace MeterSdk

theorem stablePass_step {α : Type} {less : α → α → Bool} {le : α → α → Prop}
    (hc : Comparator less le) (n bs : Nat) (hbs : 0 < bs) (l : List α) (hlen : n ≤ l.length)
    (hbl : BlocksSorted le l bs n) :
    BlocksSorted le
      (if (stableMergeLoop less bs n n 0 (2 * bs) l).2 + bs < n then
        symMerge less (n - (stableMergeLoop less bs n n 0 (2 * bs) l).2 + 1)
          (stableMergeLoop less bs n n 0 (2 * bs) l).1 (stableMergeLoop less bs n n 0 (2 * bs) l).2
          ((stableMergeLoop less bs n n 0 (2 * bs) l).2 + bs) n
       else (stableMergeLoop less bs n n 0 (2 * bs) l).1) (bs * 2) n ∧
    (if (stableMergeLoop less bs n n 0 (2 * bs) l).2 + bs < n then
        symMerge less (n - (stableMergeLoop less bs n n 0 (2 * bs) l).2 + 1)
          (stableMergeLoop less bs n n 0 (2 * bs) l).1 (stableMergeLoop less bs n n 0 (2 * bs) l).2
          ((stableMergeLoop less bs n n 0 (2 * bs) l).2 + bs) n
       else (stableMergeLoop less bs n n 0 (2 * bs) l).1).length = l.length ∧
    (if (stableMergeLoop less bs n n 0 (2 * bs) l).2 + bs < n then
        symMerge less (n - (stableMergeLoop less bs n n 0 (2 * bs) l).2 + 1)
          (stableMergeLoop less bs n n 0 (2 * bs) l).1 (stableMergeLoop less bs n n 0 (2 * bs) l).2
          ((stableMergeLoop less bs n n 0 (2 * bs) l).2 + bs) n
       else (stableMergeLoop less bs n n 0 (2 * bs) l).1).Perm l := by
  have h := stableMergeLoop_spec hc bs n hbs n 0 l (dvd_zero _) (Nat.zero_le _) hlen (by omega)
    (fun s _ hs => by omega) (fun s hs _ => hbl s hs)
  rw [Nat.zero_add] at h
  obtain ⟨q1, q2, q3, q4, q5, q6, q7⟩ := h
  generalize (stableMergeLoop less bs n n 0 (2 * bs) l).2 = a' at q1 q2 q3 q6 q7
  generalize (stableMergeLoop less bs n n 0 (2 * bs) l).1 = l' at q4 q5 q6 q7
  have hbsa : bs ∣ a' := Dvd.dvd.trans (Dvd.intro_left 2 rfl) q1
  have key : ∃ l1, l1 = (if a' + bs < n then symMerge less (n - a' + 1) l' a' (a' + bs) n else l') ∧
      SortedOn le l1 a' n ∧ Within l' l1 a' n ∧ l1.Perm l' := by
    by_cases hcnd : a' + bs < n
    · rw [if_pos hcnd]
      have hA : SortedOn le l' a' (a' + bs) := by
        have := q7 a' hbsa (le_refl _)
        rwa [Nat.min_eq_left (by omega)] at this
      have hB : SortedOn le l' (a' + bs) n := by
        have := q7 (a' + bs) (Nat.dvd_add hbsa (dvd_refl bs)) (by omega)
        rwa [Nat.min_eq_right (by omega)] at this
      obtain ⟨r1, r2, r3⟩ := symMerge_ok hc (n - a' + 1) l' a' (a' + bs) n (by omega) hcnd
        (by rw [q4]; exact hlen) (by omega) hA hB
      exact ⟨_, rfl, r1, r2, r3⟩
    · rw [if_neg hcnd]
      refine ⟨_, rfl, ?_, within_refl _ _ _, List.Perm.refl _⟩
      have := q7 a' hbsa (le_refl _)
      rwa [Nat.min_eq_right (by omega)] at this
  obtain ⟨l1, hl1, hS, hW, hP⟩ := key
  rw [← hl1]
  refine ⟨?_, hW.1.trans q4, hP.trans q5⟩
  intro s hs
  rw [Nat.mul_comm] at hs
  by_cases hsa : s < a'
  · have h1 := q6 s hs hsa
    have h2 := dvd_add_le_of_lt hs q1 hsa
    have h3 : min (s + bs * 2) n = s + 2 * bs := by
      rw [Nat.mul_comm]; exact Nat.min_eq_left (by omega)
    rw [h3]
    exact hW.sortedOn_outside h1 (Or.inl h2)
  · by_cases hsa2 : s = a'
    · subst hsa2
      have h3 : min (s + bs * 2) n = n := Nat.min_eq_right (by omega)
      rw [h3]
      exact hS
    · have h2 := dvd_add_le_of_lt q1 hs (by omega : a' < s)
      intro p q x y hp hpq hq
      have : q < n := lt_of_lt_of_le hq (Nat.min_le_right _ _)
      omega

theorem stablePassLoop_spec {α : Type} {less : α → α → Bool} {le : α → α → Prop}
    (hc : Comparator less le) (n : Nat) :
    ∀ (fuel bs : Nat) (l : List α), 0 < bs → n ≤ l.length → n ≤ bs + fuel →
      BlocksSorted le l bs n →
      SortedOn le (stablePassLoop less n fuel bs l) 0 n ∧
      (stablePassLoop less n fuel bs l).length = l.length ∧
      (stablePassLoop less n fuel bs l).Perm l := by
  intro fuel
  induction fuel with
  | zero =>
    intro bs l hbs hlen hf hbl
    simp only [stablePassLoop]
    refine ⟨?_, trivial, List.Perm.refl _⟩
    have := hbl 0 (dvd_zero _)
    rwa [Nat.zero_add, Nat.min_eq_right (by omega)] at this
  | succ f ih =>
    intro bs l hbs hlen hf hbl
    unfold stablePassLoop
    by_cases hlt : bs < n
    · rw [if_pos hlt]
      simp only []
      obtain ⟨s1, s2, s3⟩ := stablePass_step hc n bs hbs l hlen hbl
      obtain ⟨t1, t2, t3⟩ := ih (bs * 2) _ (by omega) (by rw [s2]; exact hlen) (by omega) s1
      exact ⟨t1, t2.trans s2, t3.trans s3⟩
    · rw [if_neg hlt]
      refine ⟨?_, rfl, List.Perm.refl _⟩
      have := hbl 0 (dvd_zero _)
      rwa [Nat.zero_add, Nat.min_eq_right (by omega)] at this

/-- Go `stable` sorts: for a comparator deciding a total preorder, the result is ordered on all
positions and is a permutation of the input. -/
theorem stable_spec {α : Type} {less : α → α → Bool} {le : α → α → Prop}
    (hc : Comparator less le) (l : List α) :
    SortedOn le (stable less l) 0 l.length ∧ (stable less l).length = l.length ∧
    (stable less l).Perm l := by
  unfold stable
  simp only []
  have h := stableBlocksLoop_spec hc 20 l.length (by norm_num) l.length 0 l (dvd_zero _)
    (Nat.zero_le _) (le_refl _) (by omega) (fun s _ hs => by omega)
  rw [Nat.zero_add] at h
  obtain ⟨q1, q2, q3, q4, q5, q6⟩ := h
  generalize (stableBlocksLoop less 20 l.length l.length 0 20 l).2 = a' at q1 q2 q3 q6
  generalize (stableBlocksLoop less 20 l.length l.length 0 20 l).1 = l' at q4 q5 q6
  obtain ⟨r1, r2, r3⟩ := insertionSort_spec hc l' a' l.length q2 (by rw [q4])
  have hbl : BlocksSorted le (insertionSort less l' a' l.length) 20 l.length := by
    intro s hs
    by_cases hsa : s < a'
    · have h2 := dvd_add_le_of_lt hs q1 hsa
      rw [Nat.min_eq_left (by omega)]
      exact r2.sortedOn_outside (q6 s hs hsa) (Or.inl h2)
    · by_cases hsa2 : s = a'
      · subst hsa2
        rw [Nat.min_eq_right (by omega)]
        exact r1
      · have h2 := dvd_add_le_of_lt q1 hs (by omega : a' < s)
        intro p q x y hp hpq hq
        have : q < l.length := lt_of_lt_of_le hq (Nat.min_le_right _ _)
        omega
  obtain ⟨t1, t2, t3⟩ := stablePassLoop_spec hc l.length l.length 20
    (insertionSort less l' a' l.length) (by norm_num) (by rw [r2.1, q4]) (by omega) hbl
  exact ⟨t1, t2.trans (r2.1.trans q4), t3.trans (r3.trans q5)⟩

theorem pairwise_of_sortedOn {α : Type} {le : α → α → Prop} (l : List α)
    (h : SortedOn le l 0 l.length) : l.Pairwise le := by
  rw [List.pairwise_iff_getElem]
  intro i j hi hj hij
  exact h i j _ _ (Nat.zero_le _) hij hj (List.getElem?_eq_getElem hi) (List.getElem?_eq_getElem hj)

/-- Go `sort.SliceStable` with a comparator deciding a total preorder returns an ordered
permutation of its input. -/
theorem SliceStable_sorted_perm {α : Type} {less : α → α → Bool} {le : α → α → Prop}
    (hc : Comparator less le) (l : List α) :
    (SliceStable less l).Pairwise le ∧ (SliceStable less l).Perm l := by
  obtain ⟨h1, h2, h3⟩ := stable_spec hc l
  refine ⟨?_, h3⟩
  apply pairwise_of_sortedOn
  unfold SliceStable
  rw [h2]
  exact h1

end MeterSdk

namespace MeterSdk

theorem bytesLE_refl : ∀ a : List Byte, bytesLE a a = true
  | [] => rfl
  | x :: xs => by
    unfold bytesLE
    simp [bytesLE_refl xs]

theorem bytesLE_total : ∀ a b : List Byte, bytesLE a b = false → bytesLE b a = true
  | [], _, h => by simp [bytesLE] at h
  | _ :: _, [], _ => by simp [bytesLE]
  | x :: xs, y :: ys, h => by
    unfold bytesLE at h ⊢
    by_cases h1 : x.val < y.val
    · simp [h1] at h
    · by_cases h2 : y.val < x.val
      · simp [h2]
      · simp only [h1, h2, if_false] at h ⊢
        exact bytesLE_total xs ys h

theorem bytesLE_trans : ∀ a b c : List Byte, bytesLE a b = true → bytesLE b c = true →
    bytesLE a c = true
  | [], _, _, _, _ => by simp [bytesLE]
  | _ :: _, [], _, h, _ => by simp [bytesLE] at h
  | _ :: _, _ :: _, [], _, h => by simp [bytesLE] at h
  | x :: xs, y :: ys, z :: zs, h1, h2 => by
    unfold bytesLE at h1 h2 ⊢
    by_cases hxy : x.val < y.val
    · by_cases hyz : y.val < z.val
      · have : x.val < z.val := by omega
        simp [this]
      · by_cases hzy : z.val < y.val
        · simp [hyz, hzy] at h2
        · have : x.val < z.val := by omega
          simp [this]
    · by_cases hyx : y.val < x.val
      · simp [hxy, hyx] at h1
      · simp only [hxy, hyx, if_false] at h1
        by_cases hyz : y.val < z.val
        · have : x.val < z.val := by omega
          simp [this]
        · by_cases hzy : z.val < y.val
          · simp [hyz, hzy] at h2
          · simp only [hyz, hzy, if_false] at h2
            have e1 : ¬ x.val < z.val := by omega
            have e2 : ¬ z.val < x.val := by omega
            simp only [e1, e2, if_false]
            exact bytesLE_trans xs ys zs h1 h2

theorem bytesLE_antisymm : ∀ a b : List Byte, bytesLE a b = true → bytesLE b a = true → a = b
  | [], [], _, _ => rfl
  | [], _ :: _, _, h => by simp [bytesLE] at h
  | _ :: _, [], h, _ => by simp [bytesLE] at h
  | x :: xs, y :: ys, h1, h2 => by
    unfold bytesLE at h1 h2
    by_cases hxy : x.val < y.val
    · have : ¬ y.val < x.val := by omega
      simp [hxy, this] at h2
    · by_cases hyx : y.val < x.val
      · simp [hxy, hyx] at h1
      · simp only [hxy, hyx, if_false] at h1 h2
        have : x = y := Fin.ext (by omega)
        rw [this, bytesLE_antisymm xs ys h1 h2]

/-- The comparator of `CalcCommitteeByNonce` decides the bytewise order of commit keys. -/
theorem commitKeyLE_comparator :
    Comparator commitKeyLE (fun a b => bytesLE a.CommitKey b.CommitKey = true) :=
  ⟨fun x y z => bytesLE_trans _ _ _, fun _ _ h => h, fun x y h => bytesLE_total _ _ h⟩

theorem putUvarintLoop_length : ∀ (fuel x k : Nat), x < 128 ^ (k + 1) → x ≤ fuel →
    (putUvarintLoop fuel x).length ≤ k + 1 := by
  intro fuel
  induction fuel with
  | zero => intro x k _ _; simp [putUvarintLoop]
  | succ f ih =>
    intro x k hx hf
    unfold putUvarintLoop
    by_cases h : 128 ≤ x
    · rw [if_pos h]
      cases k with
      | zero => simp at hx; omega
      | succ k =>
        have h1 : x / 128 < 128 ^ (k + 1) := by
          rw [Nat.div_lt_iff_lt_mul (by norm_num)]
          calc x < 128 ^ (k + 1 + 1) := hx
            _ = 128 ^ (k + 1) * 128 := by rw [pow_succ]
        have := ih (x / 128) k h1 (by omega)
        simp only [List.length_cons]
        omega
    · rw [if_neg h]
      simp

theorem putUvarint_length (x : Nat) (hx : x < 2 ^ 64) : (putUvarint x).length ≤ 10 := by
  unfold putUvarint
  apply putUvarintLoop_length x x 9 _ (le_refl _)
  calc x < 2 ^ 64 := hx
    _ ≤ 128 ^ (9 + 1) := by norm_num

theorem nonceBuf_length (nonce : Nat) (h : nonce < 2 ^ 64) : (nonceBuf nonce).length = 10 := by
  have := putUvarint_length nonce h
  unfold nonceBuf MaxVarintLen64
  simp only [List.length_append, List.length_replicate]
  omega

end MeterSdk

namespace MeterSdk

theorem committeeVals_length (keccak256 : List Byte → List Byte) (ds : List Delegate) (nonce : Nat) :
    (committeeVals keccak256 ds nonce).length = ds.length := by
  simp [committeeVals]

theorem sortedVals_spec (keccak256 : List Byte → List Byte) (ds : List Delegate) (nonce : Nat) :
    (SliceStable commitKeyLE (committeeVals keccak256 ds nonce)).Pairwise
      (fun a b => bytesLE a.CommitKey b.CommitKey = true) ∧
    (SliceStable commitKeyLE (committeeVals keccak256 ds nonce)).Perm
      (committeeVals keccak256 ds nonce) ∧
    (SliceStable commitKeyLE (committeeVals keccak256 ds nonce)).length = ds.length := by
  obtain ⟨h1, h2⟩ := SliceStable_sorted_perm commitKeyLE_comparator (committeeVals keccak256 ds nonce)
  exact ⟨h1, h2, h2.length_eq.trans (committeeVals_length _ _ _)⟩

/-- Whatever `CalcCommitteeByNonce` returns, its committee is the first `committeeSize` entries of
the sorted validator list. -/
theorem CalcCommitteeByNonce_committee (keccak256 : List Byte → List Byte)
    (conR : ConsensusReactor) (nonce : Nat) (r : CommitteeResult)
    (h : conR.CalcCommitteeByNonce keccak256 nonce = Outcome.ok r) :
    r.committee = (SliceStable commitKeyLE (committeeVals keccak256 conR.curDelegates nonce)).take
      conR.committeeSize.toNat := by
  unfold ConsensusReactor.CalcCommitteeByNonce at h
  simp only [] at h
  split_ifs at h with h1
  generalize SliceStable commitKeyLE (committeeVals keccak256 conR.curDelegates nonce) = vals at h ⊢
  cases vals with
  | nil => simp at h
  | cons v0 rest =>
    simp only at h
    split_ifs at h with h2
    · cases h; rfl
    · cases hf : findPubKey conR.myPubKey (v0 :: rest) 0 with
      | none => rw [hf] at h; cases h; rfl
      | some i => rw [hf] at h; cases h; rfl

/-- With at least `committeeSize >= 1` delegates, `CalcCommitteeByNonce` returns a result. -/
theorem CalcCommitteeByNonce_ok (keccak256 : List Byte → List Byte) (conR : ConsensusReactor)
    (nonce : Nat) (h1 : 1 ≤ conR.committeeSize)
    (h2 : conR.committeeSize ≤ (conR.curDelegates.length : Int)) :
    ∃ r, conR.CalcCommitteeByNonce keccak256 nonce = Outcome.ok r := by
  obtain ⟨_, _, hlen⟩ := sortedVals_spec keccak256 conR.curDelegates nonce
  unfold ConsensusReactor.CalcCommitteeByNonce
  simp only []
  generalize SliceStable commitKeyLE (committeeVals keccak256 conR.curDelegates nonce) = vals at hlen ⊢
  have hc : ¬ (conR.committeeSize < 0 ∨ (vals.length : Int) < conR.committeeSize) := by
    rw [hlen]; omega
  rw [if_neg hc]
  cases vals with
  | nil =>
    simp only [List.length_nil] at hlen
    omega
  | cons v0 rest =>
    simp only
    split_ifs
    · exact ⟨_, rfl⟩
    · cases findPubKey conR.myPubKey (v0 :: rest) 0 with
      | none => exact ⟨_, rfl⟩
      | some i => exact ⟨_, rfl⟩

/-- C3: with at least `committeeSize >= 1` delegates, `CalcCommitteeByNonce` returns a committee of
exactly `committeeSize` members, in ascending bytewise order of `CommitKey`, made of the delegates
with the smallest commit keys: together with the validators left out it is a rearrangement of all
delegates' validators, and no validator left out has a smaller commit key than one taken. -/
theorem CalcCommitteeByNonce_smallest (keccak256 : List Byte → List Byte)
    (conR : ConsensusReactor) (nonce : Nat) (h1 : 1 ≤ conR.committeeSize)
    (h2 : conR.committeeSize ≤ (conR.curDelegates.length : Int)) :
    ∃ r, conR.CalcCommitteeByNonce keccak256 nonce = Outcome.ok r ∧
      (r.committee.length : Int) = conR.committeeSize ∧
      r.committee.Pairwise (fun a b => bytesLE a.CommitKey b.CommitKey = true) ∧
      ∃ rest, (r.committee ++ rest).Perm (committeeVals keccak256 conR.curDelegates nonce) ∧
        ∀ x ∈ rest, ∀ y ∈ r.committee,
          bytesLE y.CommitKey x.CommitKey = true ∧
          ¬ (bytesLE x.CommitKey y.CommitKey = true ∧ x.CommitKey ≠ y.CommitKey) := by
  obtain ⟨r, hr⟩ := CalcCommitteeByNonce_ok keccak256 conR nonce h1 h2
  have hcom := CalcCommitteeByNonce_committee keccak256 conR nonce r hr
  obtain ⟨hsorted, hperm, hlen⟩ := sortedVals_spec keccak256 conR.curDelegates nonce
  generalize SliceStable commitKeyLE (committeeVals keccak256 conR.curDelegates nonce) = vals
    at hcom hsorted hperm hlen
  refine ⟨r, hr, ?_, ?_, vals.drop conR.committeeSize.toNat, ?_, ?_⟩
  · rw [hcom, List.length_take, hlen]
    omega
  · rw [hcom]
    exact hsorted.sublist (List.take_sublist _ _)
  · rw [hcom, List.take_append_drop]
    exact hperm
  · intro x hx y hy
    rw [hcom] at hy
    have hsplit : (vals.take conR.committeeSize.toNat ++ vals.drop conR.committeeSize.toNat).Pairwise
        (fun a b => bytesLE a.CommitKey b.CommitKey = true) := by
      rw [List.take_append_drop]; exact hsorted
    have hle := (List.pairwise_append.1 hsplit).2.2 y hy x hx
    refine ⟨hle, ?_⟩
    rintro ⟨hxy, hne⟩
    exact hne (bytesLE_antisymm _ _ hxy hle)

/-- Witness for C3: two delegates and a committee of one. -/
theorem CalcCommitteeByNonce_smallest_witness :
    ((1 : Int) ≤ ({ curDelegates := [delegateOfKey 5, delegateOfKey 3], committeeSize := 1 } :
        ConsensusReactor).committeeSize ∧
      ({ curDelegates := [delegateOfKey 5, delegateOfKey 3], committeeSize := 1 } :
        ConsensusReactor).committeeSize ≤
      ((({ curDelegates := [delegateOfKey 5, delegateOfKey 3], committeeSize := 1 } :
        ConsensusReactor).curDelegates.length : Nat) : Int)) ∧
    ∃ r, ({ curDelegates := [delegateOfKey 5, delegateOfKey 3], committeeSize := 1 } :
        ConsensusReactor).CalcCommitteeByNonce firstByteHash 0 = Outcome.ok r ∧
      (r.committee.length : Int) = 1 :=
  ⟨⟨by decide, by decide⟩,
    (CalcCommitteeByNonce_smallest firstByteHash
      { curDelegates := [delegateOfKey 5, delegateOfKey 3], committeeSize := 1 } 0
      (by decide) (by decide)).imp fun _ h => ⟨h.1, h.2.1⟩⟩

end MeterSdk

namespace MeterSdk

theorem committeeVals_commitKey (keccak256 : List Byte → List Byte) (ds : List Delegate)
    (nonce : Nat) (v : Validator) (hv : v ∈ committeeVals keccak256 ds nonce) :
    v.CommitKey = keccak256 (v.PubKey ++ nonceBuf nonce) := by
  unfold committeeVals at hv
  obtain ⟨d, _, rfl⟩ := List.mem_map.1 hv
  rfl

/-- C5 (as amended): every member of the committee returned by `CalcCommitteeByNonce` carries as
`CommitKey` the hash of its serialized public key followed by the whole ten-byte buffer: the
unsigned-varint encoding of the nonce padded with zero bytes to `MaxVarintLen64 = 10` bytes. -/
theorem CalcCommitteeByNonce_commitKey (keccak256 : List Byte → List Byte)
    (conR : ConsensusReactor) (nonce : Nat) (r : CommitteeResult) (hn : nonce < 2 ^ 64)
    (h : conR.CalcCommitteeByNonce keccak256 nonce = Outcome.ok r) :
    (∀ v ∈ r.committee, v.CommitKey = keccak256 (v.PubKey ++ nonceBuf nonce)) ∧
    (nonceBuf nonce).length = 10 ∧
    nonceBuf nonce = putUvarint nonce ++ List.replicate (10 - (putUvarint nonce).length) 0 := by
  refine ⟨?_, nonceBuf_length nonce hn, rfl⟩
  intro v hv
  rw [CalcCommitteeByNonce_committee keccak256 conR nonce r h] at hv
  obtain ⟨_, hperm, _⟩ := sortedVals_spec keccak256 conR.curDelegates nonce
  exact committeeVals_commitKey keccak256 conR.curDelegates nonce v
    (hperm.subset (List.mem_of_mem_take hv))

/-- Witness for C5: one delegate, nonce 300. -/
theorem CalcCommitteeByNonce_commitKey_witness :
    ((300 : Nat) < 2 ^ 64 ∧
      ({ curDelegates := [delegateOfKey 7], committeeSize := 1 } :
        ConsensusReactor).CalcCommitteeByNonce firstByteHash 300 =
        Outcome.ok ⟨[⟨"", Address.zero, [7], 0, ⟨[], 0⟩, [7]⟩], CONSENSUS_COMMIT_ROLE_NONE, 0, false⟩) ∧
    (nonceBuf 300).length = 10 :=
  ⟨⟨by decide, by rfl⟩,
    (CalcCommitteeByNonce_commitKey firstByteHash
      { curDelegates := [delegateOfKey 7], committeeSize := 1 } 300 _ (by decide) (by rfl)).2.1⟩

/-- C5 as stated fails: for nonce 0 the hashed input is the public key followed by ten zero
bytes, not by the one-byte varint encoding; shown with the identity in place of the hash. -/
theorem CalcCommitteeByNonce_commitKey_padding :
    putUvarint 0 = [0] ∧
    ({ curDelegates := [delegateOfKey 7], committeeSize := 1 } :
        ConsensusReactor).CalcCommitteeByNonce id 0 =
      Outcome.ok ⟨[⟨"", Address.zero, [7], 0, ⟨[], 0⟩, [7, 0, 0, 0, 0, 0, 0, 0, 0, 0, 0]⟩],
        CONSENSUS_COMMIT_ROLE_NONE, 0, false⟩ ∧
    ([7, 0, 0, 0, 0, 0, 0, 0, 0, 0, 0] : List Byte) ≠ [7] ++ putUvarint 0 := by
  refine ⟨by rfl, by rfl, by decide⟩

/-- C6: for delegates whose commit keys are pairwise distinct, `CalcCommitteeByNonce` gives the
same outcome (committee, role, index, flag) for every reordering of the delegate list. -/
theorem CalcCommitteeByNonce_perm (keccak256 : List Byte → List Byte) (conR : ConsensusReactor)
    (nonce : Nat) (ds : List Delegate) (hperm : ds.Perm conR.curDelegates)
    (hdistinct : ((committeeVals keccak256 conR.curDelegates nonce).map
      (fun v => v.CommitKey)).Nodup) :
    ({ conR with curDelegates := ds } : ConsensusReactor).CalcCommitteeByNonce keccak256 nonce
      = conR.CalcCommitteeByNonce keccak256 nonce := by
  obtain ⟨hs1, hp1, _⟩ := sortedVals_spec keccak256 ds nonce
  obtain ⟨hs2, hp2, _⟩ := sortedVals_spec keccak256 conR.curDelegates nonce
  have hvals : (committeeVals keccak256 ds nonce).Perm
      (committeeVals keccak256 conR.curDelegates nonce) := by
    unfold committeeVals
    exact hperm.map _
  have hinj := List.inj_on_of_nodup_map hdistinct
  have heq : SliceStable commitKeyLE (committeeVals keccak256 ds nonce)
      = SliceStable commitKeyLE (committeeVals keccak256 conR.curDelegates nonce) := by
    apply List.Perm.eq_of_sorted _ hs1 hs2 (hp1.trans (hvals.trans hp2.symm))
    intro a b ha hb hab hba
    exact hinj ((hp1.trans hvals).subset ha) (hp2.subset hb) (bytesLE_antisymm _ _ hab hba)
  unfold ConsensusReactor.CalcCommitteeByNonce
  simp only [heq]

/-- Witness for C6: two delegates listed in both orders. -/
theorem CalcCommitteeByNonce_perm_witness :
    ([delegateOfKey 3, delegateOfKey 5].Perm
        ({ curDelegates := [delegateOfKey 5, delegateOfKey 3], committeeSize := 2, myPubKey := [5] } :
          ConsensusReactor).curDelegates ∧
      ((committeeVals firstByteHash [delegateOfKey 5, delegateOfKey 3] 0).map
        (fun v => v.CommitKey)).Nodup) ∧
    ({ curDelegates := [delegateOfKey 3, delegateOfKey 5], committeeSize := 2, myPubKey := [5] } :
        ConsensusReactor).CalcCommitteeByNonce firstByteHash 0
      = ({ curDelegates := [delegateOfKey 5, delegateOfKey 3], committeeSize := 2, myPubKey := [5] } :
        ConsensusReactor).CalcCommitteeByNonce firstByteHash 0 :=
  ⟨⟨List.Perm.swap _ _ _, by decide⟩,
    CalcCommitteeByNonce_perm firstByteHash
      { curDelegates := [delegateOfKey 5, delegateOfKey 3], committeeSize := 2, myPubKey := [5] } 0
      [delegateOfKey 3, delegateOfKey 5] (List.Perm.swap _ _ _) (by decide)⟩

/-- C4 (defect): with two delegates and a committee of one, a node whose commit key sorts second
is reported in-committee as validator with index 1, although the returned committee has a
single member, that of the other delegate. -/
theorem CalcCommitteeByNonce_index_outside :
    ({ curDelegates := [delegateOfKey 3, delegateOfKey 5], committeeSize := 1, myPubKey := [5] } :
        ConsensusReactor).CalcCommitteeByNonce firstByteHash 0 =
      Outcome.ok ⟨[⟨"", Address.zero, [3], 0, ⟨[], 0⟩, [3]⟩], CONSENSUS_COMMIT_ROLE_VALIDATOR, 1, true⟩ := by
  rfl

theorem committeeVals_delegate (keccak256 : List Byte → List Byte) (ds : List Delegate)
    (nonce : Nat) (v : Validator) (hv : v ∈ committeeVals keccak256 ds nonce) :
    ∃ d ∈ ds, v.PubKey = d.PubKey ∧
      v.CommitKey = keccak256 (commitKeyInput d.PubKey nonce) := by
  unfold committeeVals at hv
  obtain ⟨d, hd, rfl⟩ := List.mem_map.1 hv
  exact ⟨d, hd, rfl, rfl⟩

/-- C7: when the hash has no collision on the inputs hashed for the delegates (as Keccak-256
has none on any input the code can receive), two members of the committee returned by
`CalcCommitteeByNonce` that carry equal commit keys carry equal public keys, so the one placed
first never has the lexicographically larger public key, whatever the order of the delegate
list. -/
theorem CalcCommitteeByNonce_tie_order (keccak256 : List Byte → List Byte)
    (conR : ConsensusReactor) (nonce : Nat) (r : CommitteeResult)
    (hinj : ∀ d1 ∈ conR.curDelegates, ∀ d2 ∈ conR.curDelegates,
      keccak256 (commitKeyInput d1.PubKey nonce) = keccak256 (commitKeyInput d2.PubKey nonce) →
      commitKeyInput d1.PubKey nonce = commitKeyInput d2.PubKey nonce)
    (h : conR.CalcCommitteeByNonce keccak256 nonce = Outcome.ok r) :
    ∀ i j v w, i < j → r.committee.get? i = some v → r.committee.get? j = some w →
      v.CommitKey = w.CommitKey →
      v.PubKey = w.PubKey ∧ bytesLE v.PubKey w.PubKey = true := by
  intro i j v w _ hv hw hkey
  have hmem : ∀ x, x ∈ r.committee → x ∈ committeeVals keccak256 conR.curDelegates nonce := by
    intro x hx
    rw [CalcCommitteeByNonce_committee keccak256 conR nonce r h] at hx
    obtain ⟨_, hperm, _⟩ := sortedVals_spec keccak256 conR.curDelegates nonce
    exact hperm.subset (List.mem_of_mem_take hx)
  obtain ⟨d1, hd1, hp1, hk1⟩ := committeeVals_delegate keccak256 _ nonce v
    (hmem v (List.get?_mem hv))
  obtain ⟨d2, hd2, hp2, hk2⟩ := committeeVals_delegate keccak256 _ nonce w
    (hmem w (List.get?_mem hw))
  have hin := hinj d1 hd1 d2 hd2 (by rw [← hk1, ← hk2, hkey])
  unfold commitKeyInput at hin
  have hpk : v.PubKey = w.PubKey := by
    rw [hp1, hp2]
    exact List.append_cancel_right hin
  refine ⟨hpk, ?_⟩
  rw [hpk]
  exact bytesLE_refl _

/-- Witness for C7: three delegates with public keys `[5]`, `[3]` and `[5]` under a hash
without collision on their inputs; the two members with the commit key of `[5]` come last and
carry the same public key. -/
theorem CalcCommitteeByNonce_tie_order_witness :
    ({ curDelegates := [delegateOfKey 5, delegateOfKey 3, delegateOfKey 5], committeeSize := 3 } :
        ConsensusReactor).CalcCommitteeByNonce firstByteHash 0 =
      Outcome.ok ⟨[⟨"", Address.zero, [3], 0, ⟨[], 0⟩, [3]⟩, ⟨"", Address.zero, [5], 0, ⟨[], 0⟩, [5]⟩,
        ⟨"", Address.zero, [5], 0, ⟨[], 0⟩, [5]⟩], CONSENSUS_COMMIT_ROLE_NONE, 0, false⟩ ∧
    ((⟨"", Address.zero, [5], 0, ⟨[], 0⟩, [5]⟩ : Validator).PubKey
        = (⟨"", Address.zero, [5], 0, ⟨[], 0⟩, [5]⟩ : Validator).PubKey ∧
      bytesLE (⟨"", Address.zero, [5], 0, ⟨[], 0⟩, [5]⟩ : Validator).PubKey
        (⟨"", Address.zero, [5], 0, ⟨[], 0⟩, [5]⟩ : Validator).PubKey = true) :=
  ⟨by rfl,
    CalcCommitteeByNonce_tie_order firstByteHash
      { curDelegates := [delegateOfKey 5, delegateOfKey 3, delegateOfKey 5], committeeSize := 3 }
      0 _ (by decide) (by rfl) 1 2 _ _ (by decide) (by rfl) (by rfl) (by rfl)⟩

end MeterSdk

namespace MeterSdk

theorem bigEndianAux_zero (fuel : Nat) (acc : List Byte) : bigEndianAux fuel 0 acc = acc := by
  cases fuel <;> simp [bigEndianAux]

theorem beValue_foldl (bs : List Byte) (init : Nat) :
    bs.foldl (fun acc b => acc * 256 + b.val) init = init * 256 ^ bs.length + beValue bs := by
  induction bs generalizing init with
  | nil => simp [beValue]
  | cons x xs ih =>
    simp only [List.foldl_cons, beValue, List.length_cons]
    rw [ih (init * 256 + x.val), ih (0 * 256 + x.val)]
    simp only [beValue]
    ring

theorem beValue_cons (x : Byte) (xs : List Byte) :
    beValue (x :: xs) = x.val * 256 ^ xs.length + beValue xs := by
  simp only [beValue, List.foldl_cons]
  rw [beValue_foldl]
  simp [beValue]

theorem beValue_bigEndianAux (fuel n : Nat) (acc : List Byte) (h : n ≤ fuel) :
    beValue (bigEndianAux fuel n acc) = n * 256 ^ acc.length + beValue acc := by
  induction fuel generalizing n acc with
  | zero =>
    have : n = 0 := by omega
    subst this
    simp [bigEndianAux]
  | succ f ih =>
    by_cases hn : n = 0
    · subst hn
      simp [bigEndianAux]
    · simp only [bigEndianAux, if_neg hn]
      rw [ih (n / 256) _ (by omega), beValue_cons]
      simp only [List.length_cons, Fin.ofNat, pow_succ]
      have h256 : n % (255 + 1) = n % 256 := rfl
      rw [h256]
      generalize 256 ^ acc.length = P
      have hsplit : n * P = (256 * (n / 256) + n % 256) * P := by rw [Nat.div_add_mod]
      rw [hsplit]
      ring

theorem beValue_bigEndian (n : Nat) : beValue (bigEndian n) = n := by
  unfold bigEndian
  rw [beValue_bigEndianAux n n [] (le_refl n)]
  simp [beValue]

theorem bigEndianAux_length_le (fuel n k : Nat) (acc : List Byte) (h : n ≤ fuel)
    (hk : n < 256 ^ k) : (bigEndianAux fuel n acc).length ≤ acc.length + k := by
  induction fuel generalizing n k acc with
  | zero => simp [bigEndianAux]
  | succ f ih =>
    by_cases hn : n = 0
    · subst hn
      simp [bigEndianAux]
    · simp only [bigEndianAux, if_neg hn]
      cases k with
      | zero => simp at hk; omega
      | succ k =>
        have h1 : n / 256 < 256 ^ k := by
          rw [pow_succ] at hk
          exact Nat.div_lt_of_lt_mul (by omega)
        have := ih (n / 256) k (Fin.ofNat n :: acc) (by omega) h1
        simp only [List.length_cons] at this
        omega

theorem bigEndian_length_le (n k : Nat) (hk : n < 256 ^ k) : (bigEndian n).length ≤ k := by
  have := bigEndianAux_length_le n n k [] (le_refl n) hk
  simpa [bigEndian] using this

theorem bigEndianAux_head (fuel n : Nat) (acc : List Byte) (h : n ≤ fuel) (hn : 0 < n) :
    ∃ x rest, bigEndianAux fuel n acc = x :: rest ∧ x.val ≠ 0 := by
  induction fuel generalizing n acc with
  | zero => omega
  | succ f ih =>
    simp only [bigEndianAux, if_neg (show ¬ n = 0 by omega)]
    by_cases h0 : n / 256 = 0
    · rw [h0, bigEndianAux_zero]
      refine ⟨Fin.ofNat n, acc, rfl, ?_⟩
      have : n < 256 := by omega
      simp only [Fin.ofNat]
      omega
    · exact ih (n / 256) _ (by omega) (by omega)

theorem bigEndian_head (n : Nat) (hn : 0 < n) :
    ∃ x rest, bigEndian n = x :: rest ∧ x.val ≠ 0 :=
  bigEndianAux_head n n [] (le_refl n) hn

theorem bigEndian_zero : bigEndian 0 = [] := rfl

theorem bigEndian_head_ne_zero (n : Nat) : (bigEndian n).head? ≠ some 0 := by
  rcases Nat.eq_zero_or_pos n with h | h
  · subst h
    simp [bigEndian_zero]
  · obtain ⟨x, rest, hx, hne⟩ := bigEndian_head n h
    rw [hx]
    simp only [List.head?_cons, ne_eq, Option.some.injEq]
    intro h0
    apply hne
    rw [h0]
    rfl

end MeterSdk

namespace MeterSdk

theorem bigEndian_length_pos (n : Nat) (hn : 0 < n) : 0 < (bigEndian n).length := by
  obtain ⟨x, rest, hx, _⟩ := bigEndian_head n hn
  rw [hx]
  simp

theorem readSize_bigEndian (len : Nat) (tail : List Byte) (h : 56 ≤ len) :
    readSize (bigEndian len).length (bigEndian len ++ tail) = some (len, tail) := by
  unfold readSize
  have htake : (bigEndian len ++ tail).take (bigEndian len).length = bigEndian len :=
    List.take_left' rfl
  have hdrop : (bigEndian len ++ tail).drop (bigEndian len).length = tail :=
    List.drop_left' rfl
  rw [htake, hdrop, beValue_bigEndian]
  rw [if_neg (by simp), if_neg (fun hc => bigEndian_head_ne_zero len hc.2), if_neg (by omega)]

theorem rlpHead_cases (off len : Nat) (hlen : len < 2 ^ 64) :
    (len < 56 ∧ rlpHead off len = [Fin.ofNat (off + len)]) ∨
    (56 ≤ len ∧ 1 ≤ (bigEndian len).length ∧ (bigEndian len).length ≤ 8 ∧
      rlpHead off len = Fin.ofNat (off + 55 + (bigEndian len).length) :: bigEndian len) := by
  unfold rlpHead
  by_cases h : len < 56
  · left
    exact ⟨h, by rw [if_pos h]⟩
  · right
    refine ⟨by omega, bigEndian_length_pos len (by omega), ?_, by rw [if_neg h]⟩
    exact bigEndian_length_le len 8 (by norm_num at hlen ⊢; omega)

theorem rlpHead_length_pos (off len : Nat) : 0 < (rlpHead off len).length := by
  unfold rlpHead
  split <;> simp

theorem readKind_cons (b : Byte) (rest : List Byte) :
    readKind (b :: rest) =
    if b.val < 128 then some (false, [b], rest)
    else if b.val < 184 then
      if rest.length < b.val - 128 then none
      else if b.val - 128 = 1 ∧ (rest.take 1).all (fun x => x.val < 128) then none
      else some (false, rest.take (b.val - 128), rest.drop (b.val - 128))
    else if b.val < 192 then
      match readSize (b.val - 183) rest with
      | none => none
      | some (size, rest1) =>
        if rest1.length < size then none
        else some (false, rest1.take size, rest1.drop size)
    else if b.val < 248 then
      if rest.length < b.val - 192 then none
      else some (true, rest.take (b.val - 192), rest.drop (b.val - 192))
    else
      match readSize (b.val - 247) rest with
      | none => none
      | some (size, rest1) =>
        if rest1.length < size then none
        else some (true, rest1.take size, rest1.drop size) := rfl

/-- Reading the header of a string followed by its content gives the string back. -/
theorem readKind_strHead (b rest : List Byte) (hlen : b.length < 2 ^ 64)
    (hone : ∀ x, b = [x] → 128 ≤ x.val) :
    readKind (rlpHead 128 b.length ++ b ++ rest) = some (false, b, rest) := by
  rcases rlpHead_cases 128 b.length hlen with ⟨h56, hh⟩ | ⟨h56, h1, h8, hh⟩
  · rw [hh]
    simp only [List.singleton_append, List.cons_append, List.nil_append]
    rw [readKind_cons]
    have hv : (Fin.ofNat (128 + b.length) : Byte).val = 128 + b.length := by
      simp only [Fin.ofNat]
      omega
    rw [hv, if_neg (by omega), if_pos (by omega), if_neg (by simp)]
    have hsub : 128 + b.length - 128 = b.length := by omega
    rw [hsub, List.take_left' rfl, List.drop_left' rfl]
    rw [if_neg]
    rintro ⟨hl, hall⟩
    match b, hl, hone with
    | [x], _, hx =>
      have := hx x rfl
      simp at hall
      omega
  · rw [hh]
    simp only [List.cons_append, List.append_assoc]
    rw [readKind_cons]
    have hv : (Fin.ofNat (128 + 55 + (bigEndian b.length).length) : Byte).val =
        183 + (bigEndian b.length).length := by
      simp only [Fin.ofNat]
      omega
    rw [hv, if_neg (by omega), if_neg (by omega), if_pos (by omega)]
    have hsub : 183 + (bigEndian b.length).length - 183 = (bigEndian b.length).length := by omega
    rw [hsub, readSize_bigEndian _ _ h56]
    simp only
    rw [if_neg (by simp), List.take_left' rfl, List.drop_left' rfl]

theorem readKind_rlpBytes (b rest : List Byte) (hlen : b.length < 2 ^ 64) :
    readKind (rlpBytes b ++ rest) = some (false, b, rest) := by
  match b, hlen with
  | [], hlen =>
    have := readKind_strHead [] rest hlen (by simp)
    simpa [rlpBytes] using this
  | [x], hlen =>
    by_cases hx : x.val < 128
    · simp only [rlpBytes, if_pos hx, List.singleton_append]
      rw [readKind_cons, if_pos hx]
    · have := readKind_strHead [x] rest hlen (by
        intro y hy
        simp only [List.cons.injEq, and_true] at hy
        subst hy
        omega)
      simpa [rlpBytes, if_neg hx] using this
  | x :: y :: l, hlen =>
    have := readKind_strHead (x :: y :: l) rest hlen (by simp)
    simpa [rlpBytes] using this

/-- Reading the header of a list followed by its payload gives the payload back. -/
theorem readKind_listHead (payload rest : List Byte) (hlen : payload.length < 2 ^ 64) :
    readKind (rlpHead 192 payload.length ++ payload ++ rest) = some (true, payload, rest) := by
  rcases rlpHead_cases 192 payload.length hlen with ⟨h56, hh⟩ | ⟨h56, h1, h8, hh⟩
  · rw [hh]
    simp only [List.singleton_append, List.cons_append, List.nil_append]
    rw [readKind_cons]
    have hv : (Fin.ofNat (192 + payload.length) : Byte).val = 192 + payload.length := by
      simp only [Fin.ofNat]
      omega
    rw [hv, if_neg (by omega), if_neg (by omega), if_neg (by omega), if_pos (by omega),
      if_neg (by simp)]
    have hsub : 192 + payload.length - 192 = payload.length := by omega
    rw [hsub, List.take_left' rfl, List.drop_left' rfl]
  · rw [hh]
    simp only [List.cons_append, List.append_assoc]
    rw [readKind_cons]
    have hv : (Fin.ofNat (192 + 55 + (bigEndian payload.length).length) : Byte).val =
        247 + (bigEndian payload.length).length := by
      simp only [Fin.ofNat]
      omega
    rw [hv, if_neg (by omega), if_neg (by omega), if_neg (by omega), if_neg (by omega)]
    have hsub : 247 + (bigEndian payload.length).length - 247 =
        (bigEndian payload.length).length := by omega
    rw [hsub, readSize_bigEndian _ _ h56]
    simp only
    rw [if_neg (by simp), List.take_left' rfl, List.drop_left' rfl]

theorem decodeFuel_of_str (f : Nat) (input content rest : List Byte)
    (h : readKind input = some (false, content, rest)) :
    RLP.decodeFuel (f + 1) input = some (RLP.str content, rest) := by
  rw [RLP.decodeFuel, h]

theorem decodeFuel_of_list (f : Nat) (input content rest : List Byte) (items : List RLP)
    (h : readKind input = some (true, content, rest))
    (hitems : RLP.decodeItemsFuel f content = some items) :
    RLP.decodeFuel (f + 1) input = some (RLP.list items, rest) := by
  rw [RLP.decodeFuel, h]
  simp only
  rw [hitems]

theorem decodeItemsFuel_nil (f : Nat) : RLP.decodeItemsFuel (f + 1) [] = some [] := by
  rw [RLP.decodeItemsFuel]
  rfl

theorem decodeItemsFuel_of_cons (f : Nat) (input rest1 : List Byte) (x : RLP) (xs : List RLP)
    (hne : input ≠ []) (hx : RLP.decodeFuel f input = some (x, rest1))
    (hxs : RLP.decodeItemsFuel f rest1 = some xs) :
    RLP.decodeItemsFuel (f + 1) input = some (x :: xs) := by
  rw [RLP.decodeItemsFuel, if_neg (by simpa using hne), hx]
  simp only
  rw [hxs]

theorem rlpBytes_length_pos (b : List Byte) : 0 < (rlpBytes b).length := by
  unfold rlpBytes
  split
  · split
    · simp
    · have := rlpHead_length_pos 128 1
      simp only [List.length_append]
      omega
  · have := rlpHead_length_pos 128 b.length
    simp only [List.length_append]
    omega

theorem rlpBytes_length_ge (b : List Byte) : b.length ≤ (rlpBytes b).length := by
  unfold rlpBytes
  split
  · split
    · simp
    · simp only [List.length_append]
      omega
  · simp only [List.length_append]
    omega

theorem RLP.encode_length_pos (t : RLP) : 0 < t.encode.length := by
  cases t with
  | str b =>
    rw [RLP.encode]
    exact rlpBytes_length_pos b
  | list items =>
    rw [RLP.encode]
    have := rlpHead_length_pos 192 (RLP.encodeItems items).length
    simp only [List.length_append]
    omega

mutual
/-- Decoding the encoding of a value gives the value and leaves the rest of the input. -/
theorem RLP.decodeFuel_encode : ∀ (t : RLP) (fuel : Nat) (rest : List Byte),
    t.encode.length < 2 ^ 64 → 2 * t.encode.length ≤ fuel →
    RLP.decodeFuel fuel (t.encode ++ rest) = some (t, rest)
  | .str b, fuel, rest, hlen, hf => by
    rw [RLP.encode] at hlen hf ⊢
    have hpos := rlpBytes_length_pos b
    obtain ⟨f, rfl⟩ : ∃ f, fuel = f + 1 := ⟨fuel - 1, by omega⟩
    have hb := rlpBytes_length_ge b
    exact decodeFuel_of_str f _ b rest (readKind_rlpBytes b rest (by omega))
  | .list items, fuel, rest, hlen, hf => by
    rw [RLP.encode] at hlen hf ⊢
    have hpos := rlpHead_length_pos 192 (RLP.encodeItems items).length
    simp only [List.length_append] at hlen hf
    obtain ⟨f, rfl⟩ : ∃ f, fuel = f + 1 := ⟨fuel - 1, by omega⟩
    exact decodeFuel_of_list f _ (RLP.encodeItems items) rest items
      (readKind_listHead _ rest (by omega))
      (RLP.decodeItemsFuel_encode items f (by omega) (by omega))
/-- Decoding the concatenated encodings of a list of values gives the list. -/
theorem RLP.decodeItemsFuel_encode : ∀ (items : List RLP) (fuel : Nat),
    (RLP.encodeItems items).length < 2 ^ 64 → 2 * (RLP.encodeItems items).length + 1 ≤ fuel →
    RLP.decodeItemsFuel fuel (RLP.encodeItems items) = some items
  | [], fuel, _, hf => by
    obtain ⟨f, rfl⟩ : ∃ f, fuel = f + 1 := ⟨fuel - 1, by omega⟩
    rw [RLP.encodeItems]
    exact decodeItemsFuel_nil f
  | x :: xs, fuel, hlen, hf => by
    rw [RLP.encodeItems] at hlen hf ⊢
    have hpos := RLP.encode_length_pos x
    simp only [List.length_append] at hlen hf
    obtain ⟨f, rfl⟩ : ∃ f, fuel = f + 1 := ⟨fuel - 1, by omega⟩
    refine decodeItemsFuel_of_cons f _ (RLP.encodeItems xs) x xs ?_
      (RLP.decodeFuel_encode x f _ (by omega) (by omega))
      (RLP.decodeItemsFuel_encode xs f (by omega) (by omega))
    intro h
    have := congrArg List.length h
    simp only [List.length_append, List.length_nil] at this
    omega
end

/-- Byte-level round trip: decoding the encoding of a value returns the value. -/
theorem RLP.decode_encode (t : RLP) (hlen : t.encode.length < 2 ^ 64) :
    RLP.decode t.encode = some t := by
  unfold RLP.decode
  have := RLP.decodeFuel_encode t (2 * t.encode.length + 2) [] hlen (by omega)
  rw [List.append_nil] at this
  rw [this]

end MeterSdk

namespace MeterSdk

theorem uintFromRLP_bigEndian (k n : Nat) (h : n < 256 ^ k) :
    uintFromRLP k (RLP.str (bigEndian n)) = some n := by
  simp only [uintFromRLP]
  rw [if_pos ⟨bigEndian_length_le n k h, bigEndian_head_ne_zero n⟩, beValue_bigEndian]

theorem bytes32FromRLP_data (h : Bytes32) : bytes32FromRLP (RLP.str h.data) = some h := by
  simp only [bytes32FromRLP]
  rw [dif_pos h.size_eq]

theorem addressFromRLP_data (a : Address) : addressFromRLP (RLP.str a.data) = some a := by
  simp only [addressFromRLP]
  rw [dif_pos a.size_eq]

theorem mapM_map_some {α β : Type} (f : β → Option α) (g : α → β) (xs : List α)
    (h : ∀ x ∈ xs, f (g x) = some x) : (xs.map g).mapM f = some xs := by
  induction xs with
  | nil => rfl
  | cons x xs ih =>
    rw [List.map_cons, List.mapM_cons, h x (List.mem_cons_self x xs),
      ih (fun y hy => h y (List.mem_cons_of_mem x hy))]
    rfl

theorem listFromRLP_map {α : Type} (f : RLP → Option α) (g : α → RLP) (xs : List α)
    (h : ∀ x ∈ xs, f (g x) = some x) : listFromRLP f (RLP.list (xs.map g)) = some xs := by
  simp only [listFromRLP]
  exact mapM_map_some f g xs h

theorem headerBody_fromRLP_toRLP (h : headerBody) (h1 : h.Timestamp < 2 ^ 64)
    (h2 : h.GasLimit < 2 ^ 64) (h3 : h.LastKBlockHeight < 2 ^ 32) (h4 : h.BlockType < 2 ^ 32)
    (h5 : h.GasUsed < 2 ^ 64) (h6 : h.TotalScore < 2 ^ 64) :
    headerBody.fromRLP h.toRLP = some h := by
  simp only [headerBody.toRLP, headerBody.fromRLP]
  rw [bytes32FromRLP_data, bytes32FromRLP_data, bytes32FromRLP_data, bytes32FromRLP_data,
    addressFromRLP_data, addressFromRLP_data,
    uintFromRLP_bigEndian 8 h.Timestamp (by norm_num at h1 ⊢; omega),
    uintFromRLP_bigEndian 8 h.GasLimit (by norm_num at h2 ⊢; omega),
    uintFromRLP_bigEndian 4 h.LastKBlockHeight (by norm_num at h3 ⊢; omega),
    uintFromRLP_bigEndian 4 h.BlockType (by norm_num at h4 ⊢; omega),
    uintFromRLP_bigEndian 8 h.GasUsed (by norm_num at h5 ⊢; omega),
    uintFromRLP_bigEndian 8 h.TotalScore (by norm_num at h6 ⊢; omega)]
  rfl

theorem Header_fromRLP_toRLP (h : Header) (h1 : h.Body.Timestamp < 2 ^ 64)
    (h2 : h.Body.GasLimit < 2 ^ 64) (h3 : h.Body.LastKBlockHeight < 2 ^ 32)
    (h4 : h.Body.BlockType < 2 ^ 32) (h5 : h.Body.GasUsed < 2 ^ 64)
    (h6 : h.Body.TotalScore < 2 ^ 64) :
    Header.fromRLP h.toRLP = some { Body := h.Body, cache := headerCache.empty } := by
  simp only [Header.toRLP, Header.fromRLP]
  rw [headerBody_fromRLP_toRLP h.Body h1 h2 h3 h4 h5 h6]
  rfl

theorem NetAddress_fromRLP_toRLP (a : NetAddress) (h : a.Port < 2 ^ 16) :
    NetAddress.fromRLP a.toRLP = some a := by
  simp only [NetAddress.toRLP, NetAddress.fromRLP, bytesFromRLP]
  rw [uintFromRLP_bigEndian 2 a.Port (by norm_num at h ⊢; omega)]
  rfl

theorem KBlockData_fromRLP_toRLP (d : KBlockData) (h : d.Nonce < 2 ^ 64) :
    KBlockData.fromRLP d.toRLP = some d := by
  simp only [KBlockData.toRLP, KBlockData.fromRLP, bytesFromRLP]
  rw [uintFromRLP_bigEndian 8 d.Nonce (by norm_num at h ⊢; omega),
    listFromRLP_map _ RLP.str d.Data (fun _ _ => rfl)]
  rfl

theorem CommitteeInfo_fromRLP_toRLP (c : CommitteeInfo) (h1 : c.CSIndex < 2 ^ 32)
    (h2 : c.NetAddr.Port < 2 ^ 16) : CommitteeInfo.fromRLP c.toRLP = some c := by
  simp only [CommitteeInfo.toRLP, CommitteeInfo.fromRLP, bytesFromRLP]
  rw [uintFromRLP_bigEndian 4 c.CSIndex (by norm_num at h1 ⊢; omega),
    NetAddress_fromRLP_toRLP c.NetAddr h2]
  rfl

theorem CommitteeInfos_fromRLP_toRLP (c : CommitteeInfos) (h1 : c.Epoch < 2 ^ 64)
    (h2 : ∀ x ∈ c.CommitteeInfo, x.CSIndex < 2 ^ 32 ∧ x.NetAddr.Port < 2 ^ 16) :
    CommitteeInfos.fromRLP c.toRLP = some c := by
  simp only [CommitteeInfos.toRLP, CommitteeInfos.fromRLP]
  rw [uintFromRLP_bigEndian 8 c.Epoch (by norm_num at h1 ⊢; omega),
    listFromRLP_map _ CommitteeInfo.toRLP c.CommitteeInfo
      (fun x hx => CommitteeInfo_fromRLP_toRLP x (h2 x hx).1 (h2 x hx).2)]
  rfl

theorem Block_fromRLP_toRLP (env : BlockCodecEnv) (b : Block) (hty : b.WellTyped)
    (hqc : env.qcFromRLP (env.qcToRLP b.QC) = some b.QC)
    (htx : ∀ t ∈ b.Txs, env.txFromRLP (env.txToRLP t) = some t) :
    Block.fromRLP env (b.toRLP env) =
      some { b with BlockHeader := { Body := b.BlockHeader.Body, cache := headerCache.empty } } := by
  obtain ⟨h1, h2, h3, h4, h5, h6, h7, h8, h9, h10⟩ := hty
  simp only [Block.toRLP, Block.fromRLP, bytesFromRLP]
  rw [Header_fromRLP_toRLP b.BlockHeader h1 h2 h3 h4 h5 h6,
    listFromRLP_map _ env.txToRLP b.Txs htx, KBlockData_fromRLP_toRLP b.KBlockData h7,
    CommitteeInfos_fromRLP_toRLP b.CommitteeInfos h8 h9, hqc]
  simp only [Option.bind_eq_bind, Option.some_bind, Option.pure_def]
  rw [if_pos h10]

end MeterSdk

namespace MeterSdk

/-- C8: for a block whose fields are in the ranges of their Go types, whose encoding is shorter
than 2^64 bytes, and whose QC and transactions are round-tripped by their own codecs,
`BlockDecodeFromBytes (BlockEncodeBytes b)` succeeds with a block whose header body,
transactions, `KBlockData`, `CommitteeInfos`, QC and magic equal those of `b`, and encoding the
decoded block gives the same bytes. -/
theorem BlockDecodeFromBytes_BlockEncodeBytes (env : BlockCodecEnv) (b : Block)
    (hty : b.WellTyped)
    (hqc : env.qcFromRLP (env.qcToRLP b.QC) = some b.QC)
    (htx : ∀ t ∈ b.Txs, env.txFromRLP (env.txToRLP t) = some t)
    (hsize : (BlockEncodeBytes env b).length < 2 ^ 64) :
    ∃ b', BlockDecodeFromBytes env (BlockEncodeBytes env b) = some b' ∧
      b'.BlockHeader.Body = b.BlockHeader.Body ∧ b'.Txs = b.Txs ∧
      b'.KBlockData = b.KBlockData ∧ b'.CommitteeInfos = b.CommitteeInfos ∧
      b'.QC = b.QC ∧ b'.Magic = b.Magic ∧
      BlockEncodeBytes env b' = BlockEncodeBytes env b := by
  refine ⟨{ b with BlockHeader := { Body := b.BlockHeader.Body, cache := headerCache.empty } },
    ?_, rfl, rfl, rfl, rfl, rfl, rfl, rfl⟩
  unfold BlockDecodeFromBytes
  unfold BlockEncodeBytes at hsize ⊢
  rw [RLP.decode_encode (b.toRLP env) hsize]
  exact Block_fromRLP_toRLP env b hty hqc htx

/-- Witness for C8: the sample block under the sample codec is decoded from its own encoding. -/
theorem BlockDecodeFromBytes_BlockEncodeBytes_witness :
    sampleBlock.WellTyped ∧
    ∃ b', BlockDecodeFromBytes sampleCodec (BlockEncodeBytes sampleCodec sampleBlock) = some b' ∧
      b'.BlockHeader.Body = sampleBlock.BlockHeader.Body ∧ b'.Txs = sampleBlock.Txs ∧
      b'.KBlockData = sampleBlock.KBlockData ∧
      b'.CommitteeInfos = sampleBlock.CommitteeInfos ∧
      b'.QC = sampleBlock.QC ∧ b'.Magic = sampleBlock.Magic ∧
      BlockEncodeBytes sampleCodec b' = BlockEncodeBytes sampleCodec sampleBlock :=
  ⟨by unfold Block.WellTyped; decide,
   BlockDecodeFromBytes_BlockEncodeBytes sampleCodec sampleBlock
    (by unfold Block.WellTyped; decide) rfl (by intro t _; rfl) (by decide)⟩

end MeterSdk

namespace MeterSdk

theorem MajorityTwoThird_nonneg (v N : Int) (h : MajorityTwoThird v N = true) : 0 ≤ v := by
  by_contra hv
  have hneg : v < 0 := by omega
  unfold MajorityTwoThird at h
  simp [hneg] at h

/-- C26 (as amended): for a committee size `1 ≤ N ≤ 3 * 2 ^ 51 + 1` and voter counts
`v1, v2` (in particular those with `v1, v2 ≤ N`) that both pass `MajorityTwoThird`, the two
quorums share at least `floor((N - 1) / 3) + 1` members. -/
theorem MajorityTwoThird_intersection (v1 v2 N : Int) (hN : 1 ≤ N)
    (hNb : N ≤ 6755399441055745)
    (hm1 : MajorityTwoThird v1 N = true) (hm2 : MajorityTwoThird v2 N = true) :
    v1 + v2 - N ≥ (N - 1) / 3 + 1 := by
  have hv1 := MajorityTwoThird_nonneg v1 N hm1
  have hv2 := MajorityTwoThird_nonneg v2 N hm2
  rw [MajorityTwoThird_eq v1 N hN hNb hv1, decide_eq_true_eq] at hm1
  rw [MajorityTwoThird_eq v2 N hN hNb hv2, decide_eq_true_eq] at hm2
  omega

/-- Witness for C26: committee size 4 with two quorums of 3 voters, which share 2 members. -/
theorem MajorityTwoThird_intersection_witness :
    (MajorityTwoThird 3 4 = true ∧ (3 : Int) ≤ 4) ∧ (3 : Int) + 3 - 4 ≥ (4 - 1) / 3 + 1 :=
  ⟨⟨by decide, by decide⟩,
    MajorityTwoThird_intersection 3 3 4 (by decide) (by decide) (by decide) (by decide)⟩

/-- C26 as stated fails for a 64-bit committee size: at `N = 3 * 2 ^ 51 + 2` two quorums of
`2 ^ 52 + 1` voters pass `MajorityTwoThird` and share only `2 ^ 51` members, one fewer than
`floor((N - 1) / 3) + 1`. -/
theorem MajorityTwoThird_intersection_counterexample :
    MajorityTwoThird 4503599627370497 6755399441055746 = true ∧
    (4503599627370497 : Int) ≤ 6755399441055746 ∧
    (4503599627370497 : Int) + 4503599627370497 - 6755399441055746 = 2251799813685248 ∧
    ((6755399441055746 : Int) - 1) / 3 + 1 = 2251799813685249 ∧
    ¬ ((4503599627370497 : Int) + 4503599627370497 - 6755399441055746
        ≥ (6755399441055746 - 1) / 3 + 1) := by
  refine ⟨by decide, by decide, by decide, by decide, by decide⟩

/-- C27 (defect): for a node whose parent chain ends after three nodes and does not contain
`b_locked`, `IsExtendedFromBLocked` does not return false: the loop follows `Parent` of the nil
node and faults. With a nil `b_locked` the same chain answers true. -/
theorem Pacemaker.IsExtendedFromBLocked_short_chain :
    ancestorAt (⟨chainHeap, some 50, fun _ => none⟩ : Pacemaker Unit Unit) 2 (some 2) = some 0 ∧
    ancestorAt (⟨chainHeap, some 50, fun _ => none⟩ : Pacemaker Unit Unit) 3 (some 2) = none ∧
    (⟨chainHeap, some 50, fun _ => none⟩ : Pacemaker Unit Unit).IsExtendedFromBLocked (some 2)
      = Outcome.panic "invalid memory address or nil pointer dereference" ∧
    (⟨chainHeap, none, fun _ => none⟩ : Pacemaker Unit Unit).IsExtendedFromBLocked (some 2)
      = Outcome.ok true := by
  refine ⟨by rfl, by rfl, by rfl, by rfl⟩

end MeterSdk

namespace MeterSdk

theorem memberKeyLE_comparator :
    Comparator memberKeyLE (fun a b => bytesLE a.CommitKey b.CommitKey = true) :=
  ⟨fun _ _ _ => bytesLE_trans _ _ _, fun _ _ h => h, fun _ _ h => bytesLE_total _ _ h⟩

theorem UpdateActualCommittee_true (conR conR' : ConsensusReactor) (indexes : List Int)
    (pubKeys : List (List Byte))
    (h : conR.UpdateActualCommittee indexes pubKeys = Outcome.ok (conR', true)) :
    ∃ members first rest, SliceStable memberKeyLE members = first :: rest ∧
      first.PubKey = conR.myPubKey ∧
      conR'.curActualCommittee = SliceStable memberKeyLE members := by
  unfold ConsensusReactor.UpdateActualCommittee at h
  split at h
  · simp at h
  split at h
  · simp at h
  split at h
  · simp at h
  split at h
  · simp at h
  split at h
  · simp at h
  dsimp only at h
  split at h
  · simp at h
  rename_i members hm
  split at h
  · simp at h
  split at h
  · simp at h
  rename_i first rest hs
  split at h
  · rename_i hpk
    simp only [Outcome.ok.injEq, Prod.mk.injEq, and_true] at h
    refine ⟨members, first, rest, hs, hpk, ?_⟩
    rw [← h]
  · simp at h

/-- C21: when `UpdateActualCommittee` returns true, the resulting `curActualCommittee` is in
ascending bytewise order of `CommitKey` and its first member carries this node's public key;
a call with `len(indexes) != len(pubKeys)` or `len(indexes) > committeeSize` returns false and
leaves the reactor unchanged. -/
theorem ConsensusReactor.UpdateActualCommittee_spec (conR : ConsensusReactor)
    (indexes : List Int) (pubKeys : List (List Byte)) :
    (∀ conR', conR.UpdateActualCommittee indexes pubKeys = Outcome.ok (conR', true) →
      conR'.curActualCommittee.Pairwise (fun a b => bytesLE a.CommitKey b.CommitKey = true) ∧
      ∃ first rest, conR'.curActualCommittee = first :: rest ∧ first.PubKey = conR.myPubKey) ∧
    ((indexes.length ≠ pubKeys.length ∨ (indexes.length : Int) > conR.committeeSize) →
      conR.UpdateActualCommittee indexes pubKeys = Outcome.ok (conR, false)) := by
  constructor
  · intro conR' h
    obtain ⟨members, first, rest, hs, hpk, hc⟩ := UpdateActualCommittee_true conR conR' _ _ h
    rw [hc]
    exact ⟨(SliceStable_sorted_perm memberKeyLE_comparator members).1, first, rest, hs, hpk⟩
  · intro h
    unfold ConsensusReactor.UpdateActualCommittee
    rw [if_pos h]

/-- Witness for C21: the leader of a two-member committee adds member 1 and gets true; the
actual committee is in commit-key order and starts with the leader. -/
theorem ConsensusReactor.UpdateActualCommittee_spec_witness :
    (∃ conR', leaderReactor.UpdateActualCommittee [1] [[5]] = Outcome.ok (conR', true) ∧
      conR'.curActualCommittee.map (fun m => m.PubKey) = [[7], [8]] ∧
      conR'.curActualCommittee.Pairwise (fun a b => bytesLE a.CommitKey b.CommitKey = true)) ∧
    leaderReactor.UpdateActualCommittee [1] [] = Outcome.ok (leaderReactor, false) :=
  ⟨⟨_, rfl, rfl,
      ((ConsensusReactor.UpdateActualCommittee_spec leaderReactor [1] [[5]]).1 _ rfl).1⟩,
    (ConsensusReactor.UpdateActualCommittee_spec leaderReactor [1] []).2 (Or.inl (by decide))⟩

/-- C28 (defect): with exactly `committeeSize = 1` validators, the index 1 passes the sanity
check `index == -1 || index > committeeSize` and the lookup `Validators[1]` is out of range; so
does the index -2. The index 0 is in range. -/
theorem ConsensusReactor.UpdateActualCommittee_index_out_of_range :
    singleReactor.curCommittee.map List.length = some 1 ∧ singleReactor.committeeSize = 1 ∧
    ¬ ((1 : Int) = -1 ∨ (1 : Int) > singleReactor.committeeSize) ∧
    singleReactor.UpdateActualCommittee [1] [[5]] = Outcome.panic "index out of range" ∧
    ¬ ((-2 : Int) = -1 ∨ (-2 : Int) > singleReactor.committeeSize) ∧
    singleReactor.UpdateActualCommittee [-2] [[5]] = Outcome.panic "index out of range" ∧
    (∃ conR', singleReactor.UpdateActualCommittee [0] [[5]] = Outcome.ok (conR', true)) := by
  refine ⟨by rfl, by rfl, by decide, by rfl, by decide, by rfl, ⟨_, rfl⟩⟩

end MeterSdk

namespace MeterSdk

theorem getRoundProposer_ofNat (conR : ConsensusReactor) (k : Nat)
    (h : 0 < conR.curActualCommittee.length) :
    conR.getRoundProposer (k : Int) =
      Outcome.ok (conR.curActualCommittee.get
        ⟨k % conR.curActualCommittee.length, Nat.mod_lt k h⟩) := by
  unfold ConsensusReactor.getRoundProposer
  have hmod : Int.tmod (k : Int) (conR.curActualCommittee.length : Int) =
      ((k % conR.curActualCommittee.length : Nat) : Int) := by
    rw [Int.tmod_eq_emod (by omega) (by omega)]
    rfl
  simp only [hmod]
  rw [if_neg (by omega), if_neg (by omega), Int.toNat_ofNat,
    List.get?_eq_get (Nat.mod_lt k h)]

theorem getRoundProposer_range (conR : ConsensusReactor) (k : Nat)
    (h : 0 < conR.curActualCommittee.length) :
    (List.range conR.curActualCommittee.length).map
        (fun (i : Nat) => conR.getRoundProposer ((k : Int) + (i : Int))) =
      (conR.curActualCommittee.rotate k).map Outcome.ok := by
  apply List.ext_getElem
  · simp
  · intro i h1 h2
    simp only [List.length_map, List.length_range] at h1
    simp only [List.getElem_map, List.getElem_range]
    have hcast : (k : Int) + (i : Int) = ((k + i : Nat) : Int) := by push_cast; rfl
    rw [hcast, getRoundProposer_ofNat conR (k + i) h, List.getElem_rotate]
    simp only [List.get_eq_getElem]
    congr 2
    rw [Nat.add_comm]

/-- C22: with a non-empty actual committee of size `n`, `getRoundProposer r` for a round
`r ≥ 0` is the member at position `r mod n`; rounds `r` and `r + n` have the same proposer; the
proposers of the `n` consecutive rounds `r, …, r + n - 1` are the committee members, each
exactly once; `getCurrentProposer` equals `getRoundProposer curRound`; with an empty committee
both return the zero `CommitteeMember`. -/
theorem ConsensusReactor.getRoundProposer_rotation (conR : ConsensusReactor) (r : Int) :
    (0 ≤ r → 0 < conR.curActualCommittee.length →
      (∃ m, conR.curActualCommittee.get? (r.toNat % conR.curActualCommittee.length) = some m ∧
        conR.getRoundProposer r = Outcome.ok m) ∧
      conR.getRoundProposer (r + conR.curActualCommittee.length) = conR.getRoundProposer r ∧
      ((List.range conR.curActualCommittee.length).map
        (fun (i : Nat) => conR.getRoundProposer (r + (i : Int)))).Perm
        (conR.curActualCommittee.map Outcome.ok)) ∧
    conR.getCurrentProposer = conR.getRoundProposer conR.curRound ∧
    (conR.curActualCommittee = [] →
      conR.getRoundProposer r = Outcome.ok ⟨Address.zero, [], 0, [], ⟨[], 0⟩, [], 0⟩ ∧
      conR.getCurrentProposer = Outcome.ok ⟨Address.zero, [], 0, [], ⟨[], 0⟩, [], 0⟩) := by
  refine ⟨?_, rfl, ?_⟩
  · intro hr hn
    obtain ⟨k, rfl⟩ := Int.eq_ofNat_of_zero_le hr
    refine ⟨⟨_, ?_, getRoundProposer_ofNat conR k hn⟩, ?_, ?_⟩
    · rw [Int.toNat_ofNat, List.get?_eq_get (Nat.mod_lt k hn)]
    · have hcast : (k : Int) + (conR.curActualCommittee.length : Int) =
          ((k + conR.curActualCommittee.length : Nat) : Int) := by push_cast; rfl
      rw [hcast, getRoundProposer_ofNat conR _ hn, getRoundProposer_ofNat conR k hn]
      congr 2
      simp
    · rw [getRoundProposer_range conR k hn]
      exact (List.rotate_perm _ k).map _
  · intro he
    unfold ConsensusReactor.getRoundProposer ConsensusReactor.getCurrentProposer
    simp [he]

/-- Witness for C22: a committee of three members and round 4, whose proposer is the member at
position 1. -/
theorem ConsensusReactor.getRoundProposer_rotation_witness :
    ((0 : Int) ≤ 4 ∧
      0 < ({ curActualCommittee := [memberOfKey [1], memberOfKey [2], memberOfKey [3]] } :
        ConsensusReactor).curActualCommittee.length) ∧
    ({ curActualCommittee := [memberOfKey [1], memberOfKey [2], memberOfKey [3]] } :
        ConsensusReactor).getRoundProposer 4 = Outcome.ok (memberOfKey [2]) ∧
    ({ curActualCommittee := [memberOfKey [1], memberOfKey [2], memberOfKey [3]] } :
        ConsensusReactor).getRoundProposer (4 + 3) = Outcome.ok (memberOfKey [2]) :=
  ⟨⟨by decide, by decide⟩, rfl,
    (((ConsensusReactor.getRoundProposer_rotation
      { curActualCommittee := [memberOfKey [1], memberOfKey [2], memberOfKey [3]] } 4).1
        (by decide) (by decide)).2.1).trans rfl⟩

/-- C23: `enterConsensusLeader e` sets `curEpoch` to `e` when `e > curEpoch` and leaves the
reactor unchanged when `e ≤ curEpoch`, so `curEpoch` never decreases; `exitConsensusLeader e`
leaves the reactor unchanged unless `e = curEpoch`, in which case it clears the leader and its
role bit, and it never changes `curEpoch`. -/
theorem ConsensusReactor.leader_epoch (env : LeaderEnv) (conR : ConsensusReactor) (e : Nat) :
    (e > conR.curEpoch → (conR.enterConsensusLeader env e).curEpoch = e) ∧
    (e ≤ conR.curEpoch → conR.enterConsensusLeader env e = conR) ∧
    conR.curEpoch ≤ (conR.enterConsensusLeader env e).curEpoch ∧
    (e ≠ conR.curEpoch → conR.exitConsensusLeader e = conR) ∧
    (e = conR.curEpoch → (conR.exitConsensusLeader e).csLeader = none ∧
      (conR.exitConsensusLeader e).csRoleInitialized =
        andNot64 conR.csRoleInitialized CONSENSUS_COMMIT_ROLE_LEADER) ∧
    (conR.exitConsensusLeader e).curEpoch = conR.curEpoch := by
  unfold ConsensusReactor.enterConsensusLeader ConsensusReactor.exitConsensusLeader
  refine ⟨?_, ?_, ?_, ?_, ?_, ?_⟩
  · intro h
    rw [if_neg (by omega)]
  · intro h
    rw [if_pos h]
  · by_cases h : e ≤ conR.curEpoch
    · rw [if_pos h]
    · rw [if_neg h]
      show conR.curEpoch ≤ e
      omega
  · intro h
    rw [if_pos (fun hc => h hc.symm)]
  · intro h
    rw [if_neg (fun hc => hc h.symm)]
    exact ⟨rfl, rfl⟩
  · by_cases h : conR.curEpoch ≠ e
    · rw [if_pos h]
    · rw [if_neg h]

/-- Witness for C23: entering epoch 5 from epoch 3 sets the epoch and the leader role; entering
epoch 2 afterwards changes nothing; leaving epoch 5 clears the role and keeps the epoch. -/
theorem ConsensusReactor.leader_epoch_witness :
    (5 > ({ curEpoch := 3 } : ConsensusReactor).curEpoch ∧
      (({ curEpoch := 3 } : ConsensusReactor).enterConsensusLeader sampleLeaderEnv 5).curEpoch
        = 5) ∧
    (({ curEpoch := 3 } : ConsensusReactor).enterConsensusLeader sampleLeaderEnv 5).csRoleInitialized
      = 1 ∧
    ((({ curEpoch := 3 } : ConsensusReactor).enterConsensusLeader sampleLeaderEnv
      5).exitConsensusLeader 5).csRoleInitialized = 0 :=
  ⟨⟨by decide,
     (ConsensusReactor.leader_epoch sampleLeaderEnv { curEpoch := 3 } 5).1 (by decide)⟩,
   by rfl, by rfl⟩

end MeterSdk

namespace MeterSdk

theorem maxHeight_append (objs : List powObject) (o : powObject) :
    maxHeight (objs ++ [o]) = max (maxHeight objs) o.Height := by
  simp [maxHeight, List.foldl_append]

theorem updates_append (mkr : latestHeightMarker) (objs : List powObject) (o : powObject) :
    mkr.updates (objs ++ [o]) = (mkr.updates objs).update o := by
  simp [latestHeightMarker.updates, List.foldl_append]

theorem update_height_le (mkr : latestHeightMarker) (o : powObject) :
    mkr.height ≤ (mkr.update o).height := by
  unfold latestHeightMarker.update
  dsimp only
  split_ifs with h1 h2
  · exact Nat.le_of_lt h1
  · exact Nat.le_refl _
  · exact Nat.le_refl _

theorem updates_height_le (mkr : latestHeightMarker) (objs : List powObject) :
    mkr.height ≤ (mkr.updates objs).height := by
  induction objs using List.reverseRecOn with
  | nil => exact Nat.le_refl _
  | append_singleton l y ihl =>
    rw [updates_append]
    exact le_trans ihl (update_height_le _ y)

theorem le_maxHeight (objs : List powObject) : ∀ x ∈ objs, x.Height ≤ maxHeight objs := by
  induction objs using List.reverseRecOn with
  | nil => intro x hx; simp at hx
  | append_singleton l y ihl =>
    intro x hx
    rw [maxHeight_append]
    rcases List.mem_append.1 hx with h | h
    · exact le_trans (ihl x h) (le_max_left _ _)
    · simp only [List.mem_singleton] at h
      subst h
      exact le_max_right _ _

theorem exists_maxHeight (objs : List powObject) (hne : objs ≠ []) :
    ∃ x ∈ objs, x.Height = maxHeight objs := by
  induction objs using List.reverseRecOn with
  | nil => exact absurd rfl hne
  | append_singleton l y ihl =>
    rw [maxHeight_append]
    by_cases hl : l = []
    · subst hl
      refine ⟨y, by simp, ?_⟩
      simp [maxHeight]
    · obtain ⟨x, hx, hxe⟩ := ihl hl
      rcases le_total (maxHeight l) y.Height with hc | hc
      · exact ⟨y, by simp, by rw [max_eq_right hc]⟩
      · exact ⟨x, List.mem_append_left _ hx, by rw [max_eq_left hc, hxe]⟩

theorem updates_fresh (objs : List powObject) :
    (newLatestHeightMarker.updates objs).height = maxHeight objs ∧
    (newLatestHeightMarker.updates objs).powObjs =
      objs.filter (fun o => o.Height = maxHeight objs) := by
  induction objs using List.reverseRecOn with
  | nil => exact ⟨rfl, rfl⟩
  | append_singleton objs o ih =>
    obtain ⟨ih1, ih2⟩ := ih
    rw [updates_append, maxHeight_append]
    have hle := le_maxHeight objs
    generalize newLatestHeightMarker.updates objs = mkr at ih1 ih2
    obtain ⟨mh, mo⟩ := mkr
    simp only at ih1 ih2
    subst ih1 ih2
    unfold latestHeightMarker.update
    dsimp only
    by_cases h1 : o.Height > maxHeight objs
    · rw [if_pos h1, max_eq_right (Nat.le_of_lt h1)]
      refine ⟨rfl, ?_⟩
      rw [List.filter_append]
      have hnone : objs.filter (fun x => decide (x.Height = o.Height)) = [] := by
        rw [List.filter_eq_nil_iff]
        intro x hx
        have := hle x hx
        simp only [decide_eq_true_eq]
        omega
      rw [hnone]
      simp
    · rw [if_neg h1]
      by_cases h2 : o.Height = maxHeight objs
      · rw [if_pos h2, h2, max_self]
        refine ⟨rfl, ?_⟩
        rw [List.filter_append]
        simp [h2]
      · rw [if_neg h2, max_eq_left (by omega)]
        refine ⟨rfl, ?_⟩
        rw [List.filter_append]
        simp [h2]

/-- C25: after any sequence of `update` calls on a fresh marker, `height` is the maximum
`Height()` of the updated objects (0 if none) and `powObjs` is the subsequence, in arrival
order, of the updated objects whose `Height()` is that maximum; on any marker, an `update` or
a sequence of them never decreases `height`. -/
theorem latestHeightMarker.updates_spec (objs : List powObject) (mkr : latestHeightMarker)
    (o : powObject) :
    (newLatestHeightMarker.updates objs).height = maxHeight objs ∧
    (newLatestHeightMarker.updates objs).powObjs =
      objs.filter (fun x => x.Height = maxHeight objs) ∧
    (∀ x ∈ objs, x.Height ≤ maxHeight objs) ∧
    (objs ≠ [] → ∃ x ∈ objs, x.Height = maxHeight objs) ∧
    maxHeight [] = 0 ∧
    mkr.height ≤ (mkr.update o).height ∧
    mkr.height ≤ (mkr.updates objs).height :=
  ⟨(updates_fresh objs).1, (updates_fresh objs).2, le_maxHeight objs, exists_maxHeight objs, rfl,
    update_height_le mkr o, updates_height_le mkr objs⟩

end MeterSdk

namespace MeterSdk

theorem untagNat_tagNat (n : Nat) (rest : List Byte) :
    untagNat (tagNat n ++ rest) = some (n, rest) := by
  induction n with
  | zero => simp [tagNat, untagNat]
  | succ n ih =>
    show untagNat (1 :: (tagNat n ++ rest)) = some (n + 1, rest)
    rw [untagNat, if_neg (by decide), ih]

theorem untagBytes_tagBytes (l rest : List Byte) :
    untagBytes (tagBytes l ++ rest) = some (l, rest) := by
  induction l with
  | nil =>
    cases rest with
    | nil => simp [tagBytes, untagBytes]
    | cons b r => simp [tagBytes, untagBytes]
  | cons b l ih =>
    show untagBytes (1 :: b :: (tagBytes l ++ rest)) = some (b :: l, rest)
    rw [untagBytes, if_neg (by decide), ih]

theorem tagList_length (xs : List (List Byte)) : xs.length < (tagList xs).length := by
  induction xs with
  | nil => simp [tagList]
  | cons x xs ih =>
    simp only [tagList, List.length_cons, List.length_append]
    omega

theorem untagList_tagList (xs : List (List Byte)) :
    ∀ (f : Nat) (rest : List Byte), xs.length < f →
    untagList f (tagList xs ++ rest) = some (xs, rest) := by
  induction xs with
  | nil =>
    intro f rest hf
    obtain ⟨g, rfl⟩ : ∃ g, f = g + 1 := ⟨f - 1, by omega⟩
    simp [tagList, untagList]
  | cons x xs ih =>
    intro f rest hf
    obtain ⟨g, rfl⟩ : ∃ g, f = g + 1 := ⟨f - 1, by simp at hf; omega⟩
    show untagList (g + 1) (1 :: ((tagBytes x ++ tagList xs) ++ rest)) = some (x :: xs, rest)
    rw [untagList, if_neg (by decide), List.append_assoc, untagBytes_tagBytes]
    dsimp only
    rw [ih g rest (by simp at hf; omega)]

/-- The sample codec returns every certificate it has written. -/
theorem sampleQCCodec_roundtrip (q : QuorumCert) :
    sampleQCCodec.QCDecodeFromBytes (sampleQCCodec.ToBytes q) = Except.ok q := by
  simp only [sampleQCCodec]
  rw [untagNat_tagNat]
  simp only
  rw [untagNat_tagNat]
  simp only
  rw [untagNat_tagNat]
  simp only
  rw [untagBytes_tagBytes]
  simp only
  rw [untagBytes_tagBytes]
  simp only
  have h := untagList_tagList q.VoterSig ((tagList q.VoterSig).length + 1) []
    (by have := tagList_length q.VoterSig; omega)
  rw [List.append_nil] at h
  rw [h]

/-- C29: when the block-level certificate codec (`QuorumCert.ToBytes` and
`block.QCDecodeFromBytes`) returns every certificate it has written, then for a pacemaker
certificate `qc` with `uint64` height and round `DecodeQCFromBytes (EncodeQCToBytes qc)`
succeeds exactly when `(QCHeight, QCRound)` is addressable in the proposal map: in that case the
result has the same `QCHeight`, `QCRound`, `VoterSig`, `VoterMsgHash` and `VoterAggSig` and its
`QCNode` is the proposal-map node at that height; otherwise decoding fails with an error. -/
theorem Pacemaker.DecodeQCFromBytes_EncodeQCToBytes {β σ : Type} (p : Pacemaker β σ)
    (codec : QCCodec) (qc : pmQuorumCert)
    (hcodec : ∀ q : QuorumCert, q.WellTyped →
      codec.QCDecodeFromBytes (codec.ToBytes q) = Except.ok q)
    (hH : qc.QCHeight < 2 ^ 64) (hR : qc.QCRound < 2 ^ 64) :
    (∀ a node, p.proposalMap qc.QCHeight = some a → p.heap a = some node →
      node.Height = qc.QCHeight → node.Round = qc.QCRound →
      p.DecodeQCFromBytes codec (p.EncodeQCToBytes codec qc) =
        Except.ok { qc with QCNode := some a }) ∧
    (p.AddressBlock qc.QCHeight qc.QCRound = none →
      p.DecodeQCFromBytes codec (p.EncodeQCToBytes codec qc) =
        Except.error "can not address qcNode") ∧
    (∀ a, p.AddressBlock qc.QCHeight qc.QCRound = some a ↔
      p.proposalMap qc.QCHeight = some a ∧
      ∃ node, p.heap a = some node ∧ node.Height = qc.QCHeight ∧ node.Round = qc.QCRound) := by
  have hdec : codec.QCDecodeFromBytes (p.EncodeQCToBytes codec qc) =
      Except.ok { QCHeight := qc.QCHeight, QCRound := qc.QCRound, EpochID := 0,
                  VoterSig := qc.VoterSig, VoterMsgHash := qc.VoterMsgHash,
                  VoterAggSig := qc.VoterAggSig } := by
    unfold Pacemaker.EncodeQCToBytes
    exact hcodec _ ⟨hH, hR, by norm_num⟩
  refine ⟨?_, ?_, ?_⟩
  · intro a node hmap hheap hh hr
    unfold Pacemaker.DecodeQCFromBytes
    rw [hdec]
    simp only [Pacemaker.AddressBlock, hmap, hheap, hh, hr, and_self, if_true]
  · intro hnone
    unfold Pacemaker.DecodeQCFromBytes
    rw [hdec]
    simp only [hnone]
  · intro a
    unfold Pacemaker.AddressBlock
    cases hmap : p.proposalMap qc.QCHeight with
    | none => simp
    | some a' =>
      dsimp only
      cases hheap : p.heap a' with
      | none =>
        dsimp only
        constructor
        · intro h
          cases h
        · rintro ⟨ha, node, hn, _⟩
          cases ha
          rw [hheap] at hn
          cases hn
      | some node =>
        dsimp only
        by_cases hc : node.Height = qc.QCHeight ∧ node.Round = qc.QCRound
        · rw [if_pos hc]
          constructor
          · intro h
            cases h
            exact ⟨rfl, node, hheap, hc.1, hc.2⟩
          · rintro ⟨ha, _⟩
            rw [ha]
        · rw [if_neg hc]
          constructor
          · intro h
            cases h
          · rintro ⟨ha, node', hn, hh, hr⟩
            cases ha
            rw [hheap] at hn
            cases hn
            exact absurd ⟨hh, hr⟩ hc

/-- Witness for C29: a certificate for height 5, round 0 under the sample codec and a proposal
map that holds node 5 at height 5; a certificate for height 9, which the map does not hold. -/
theorem Pacemaker.DecodeQCFromBytes_EncodeQCToBytes_witness :
    chainPacemaker.DecodeQCFromBytes sampleQCCodec
      (chainPacemaker.EncodeQCToBytes sampleQCCodec ⟨5, 0, none, [[1]], [2], [3]⟩) =
      Except.ok ⟨5, 0, some 5, [[1]], [2], [3]⟩ ∧
    chainPacemaker.EncodeQCToBytes sampleQCCodec ⟨5, 0, none, [[1]], [2], [3]⟩ =
      [1, 1, 1, 1, 1, 0, 0, 0, 1, 2, 0, 1, 3, 0, 1, 1, 1, 0, 0] ∧
    chainPacemaker.AddressBlock 9 0 = none ∧
    chainPacemaker.DecodeQCFromBytes sampleQCCodec
      (chainPacemaker.EncodeQCToBytes sampleQCCodec ⟨9, 0, none, [[1]], [2], [3]⟩) =
      Except.error "can not address qcNode" :=
  ⟨(Pacemaker.DecodeQCFromBytes_EncodeQCToBytes chainPacemaker sampleQCCodec
      ⟨5, 0, none, [[1]], [2], [3]⟩ (fun q _ => sampleQCCodec_roundtrip q)
      (by decide) (by decide)).1 5 _ rfl rfl rfl rfl,
   by rfl, by rfl,
   (Pacemaker.DecodeQCFromBytes_EncodeQCToBytes chainPacemaker sampleQCCodec
      ⟨9, 0, none, [[1]], [2], [3]⟩ (fun q _ => sampleQCCodec_roundtrip q)
      (by decide) (by decide)).2.1 rfl⟩

end MeterSdk

namespace MeterSdk

theorem BigHeap.length_write (h : BigHeap) (a : Nat) (v : Int) :
    (h.write a v).length = h.length := by
  simp [BigHeap.write]

theorem BigHeap.read_write (h : BigHeap) (a b : Nat) (v : Int) :
    (h.write a v).read b = if a = b ∧ a < h.length then v else h.read b := by
  unfold BigHeap.write BigHeap.read
  rw [List.getD_eq_getElem?_getD, List.getD_eq_getElem?_getD, List.getElem?_set]
  by_cases hab : a = b
  · subst hab
    by_cases hlt : a < List.length h
    · simp [hlt]
    · simp [hlt]
      rw [List.getElem?_eq_none (by omega)]
      rfl
  · simp [hab]

theorem BigHeap.read_write_same (h : BigHeap) (a : Nat) (v : Int) (ha : a < h.length) :
    (h.write a v).read a = v := by
  rw [BigHeap.read_write, if_pos ⟨rfl, ha⟩]

theorem BigHeap.read_write_ne (h : BigHeap) (a b : Nat) (v : Int) (hab : a ≠ b) :
    (h.write a v).read b = h.read b := by
  rw [BigHeap.read_write, if_neg (fun hc => hab hc.1)]

theorem BigHeap.read_NewInt_old (h : BigHeap) (v : Int) (b : Nat) (hb : b < h.length) :
    (h.NewInt v).1.read b = h.read b := by
  unfold BigHeap.NewInt BigHeap.read
  simp only
  rw [List.getD_eq_getElem?_getD, List.getD_eq_getElem?_getD, List.getElem?_append_left hb]

theorem BigHeap.read_NewInt_new (h : BigHeap) (v : Int) :
    (h.NewInt v).1.read (h.NewInt v).2 = v := by
  unfold BigHeap.NewInt BigHeap.read
  simp [List.getD_eq_getElem?_getD]

theorem BigHeap.length_NewInt (h : BigHeap) (v : Int) :
    (h.NewInt v).1.length = h.length + 1 := by
  simp [BigHeap.NewInt]

theorem BigHeap.snd_NewInt (h : BigHeap) (v : Int) : (h.NewInt v).2 = h.length := rfl

theorem BigHeap.read_append_old (h l : BigHeap) (a : Nat) (ha : a < h.length) :
    BigHeap.read (h ++ l) a = h.read a := by
  unfold BigHeap.read
  rw [List.getD_eq_getElem?_getD, List.getD_eq_getElem?_getD, List.getElem?_append_left ha]

theorem BigHeap.read_append_new (h : BigHeap) (v : Int) (a : Nat) (ha : a = h.length) :
    BigHeap.read (h ++ [v]) a = v := by
  subst ha
  unfold BigHeap.read
  simp [List.getD_eq_getElem?_getD]

end MeterSdk

namespace MeterSdk

theorem selfBucketsLoop_spec (c : Candidate) (bl : BucketList) :
    ∀ (ids : List Bytes32) (acc : List Bucket), (∀ id ∈ ids, (bl.Get id).isSome = true) →
    selfBucketsLoop c bl ids acc = Outcome.ok (acc ++
      (ids.filterMap bl.Get).filter fun b => b.Owner = c.Addr ∧ b.Candidate = c.Addr) := by
  intro ids
  induction ids with
  | nil => intro acc _; simp [selfBucketsLoop]
  | cons id rest ih =>
    intro acc hres
    have hid := hres id (List.mem_cons_self id rest)
    have hrest : ∀ x ∈ rest, (bl.Get x).isSome = true :=
      fun x hx => hres x (List.mem_cons_of_mem id hx)
    obtain ⟨b, hb⟩ := Option.isSome_iff_exists.1 hid
    unfold selfBucketsLoop
    rw [hb]
    dsimp only
    rw [List.filterMap_cons_some hb]
    by_cases hp : b.Owner = c.Addr ∧ b.Candidate = c.Addr
    · rw [if_pos hp, ih _ hrest, List.filter_cons_of_pos (by simpa using hp)]
      simp
    · rw [if_neg hp, ih _ hrest, List.filter_cons_of_neg (by simpa using hp)]

theorem sumVotes_congr (h h' : BigHeap) (bkts : List Bucket)
    (hb : ∀ b ∈ bkts, h'.read b.TotalVotes = h.read b.TotalVotes) :
    sumVotes h' bkts = sumVotes h bkts := by
  unfold sumVotes
  congr 1
  exact List.map_congr_left hb

theorem sumVotesLoop_spec (self : Nat) :
    ∀ (bkts : List Bucket) (h : BigHeap), self < h.length →
    (∀ b ∈ bkts, b.TotalVotes ≠ self) →
    (sumVotesLoop self bkts h).length = h.length ∧
    (sumVotesLoop self bkts h).read self = h.read self + sumVotes h bkts ∧
    ∀ a, a ≠ self → (sumVotesLoop self bkts h).read a = h.read a := by
  intro bkts
  induction bkts with
  | nil => intro h _ _; simp [sumVotesLoop, sumVotes]
  | cons b rest ih =>
    intro h hs hne
    have hb := hne b (List.mem_cons_self b rest)
    have hrest : ∀ x ∈ rest, x.TotalVotes ≠ self :=
      fun x hx => hne x (List.mem_cons_of_mem b hx)
    unfold sumVotesLoop
    obtain ⟨i1, i2, i3⟩ := ih (h.Add self self b.TotalVotes)
      (by unfold BigHeap.Add; rw [BigHeap.length_write]; exact hs) hrest
    refine ⟨?_, ?_, ?_⟩
    · rw [i1]
      unfold BigHeap.Add
      rw [BigHeap.length_write]
    · rw [i2]
      have hc : sumVotes (h.Add self self b.TotalVotes) rest = sumVotes h rest := by
        apply sumVotes_congr
        intro x hx
        unfold BigHeap.Add
        rw [BigHeap.read_write_ne _ _ _ _ (fun hc => hrest x hx hc.symm)]
      rw [hc]
      unfold BigHeap.Add
      rw [BigHeap.read_write_same _ _ _ hs]
      simp only [sumVotes, List.map_cons, List.sum_cons]
      ring
    · intro a ha
      rw [i3 a ha]
      unfold BigHeap.Add
      rw [BigHeap.read_write_ne _ _ _ _ (fun hc => ha hc.symm)]

theorem ratioCheck_spec (ratio : Int) (h : BigHeap) (self tv nv : Nat) (hs : self < h.length)
    (ht : tv < h.length) (hn : nv < h.length) (hr : ratio ≠ 0) :
    ∃ h6, ratioCheck ratio h self tv nv =
        Outcome.ok (h6, decide (Int.ediv (h.read tv + h.read nv) ratio ≤ h.read self)) ∧
      ∀ a, a < h.length → h6.read a = h.read a := by
  unfold ratioCheck
  simp only [BigHeap.NewInt, BigHeap.Add, BigHeap.length_write, List.length_append,
    List.length_singleton]
  rw [BigHeap.read_append_old h [0] tv ht, BigHeap.read_append_old h [0] nv hn]
  have l3 : (h ++ [0]).length = h.length + 1 := by simp
  generalize hh4 : BigHeap.write (h ++ [0]) h.length (h.read tv + h.read nv) = h4
  have l4 : h4.length = h.length + 1 := by rw [← hh4, BigHeap.length_write, l3]
  have r4t : h4.read h.length = h.read tv + h.read nv := by
    rw [← hh4, BigHeap.read_write_same _ _ _ (by omega)]
  have r4o : ∀ a, a < h.length → h4.read a = h.read a := by
    intro a ha
    rw [← hh4, BigHeap.read_write_ne _ _ _ _ (by omega), BigHeap.read_append_old h [0] a ha]
  unfold BigHeap.Div
  rw [BigHeap.read_append_new h4 ratio _ l4.symm, if_neg hr]
  dsimp only
  rw [BigHeap.read_append_old h4 [ratio] _ (by omega), r4t]
  generalize hh6 : BigHeap.write (h4 ++ [ratio]) h.length
    (Int.ediv (h.read tv + h.read nv) ratio) = h6
  have r6t : h6.read h.length = Int.ediv (h.read tv + h.read nv) ratio := by
    rw [← hh6, BigHeap.read_write_same _ _ _ (by simp; omega)]
  have r6o : ∀ a, a < h.length → h6.read a = h.read a := by
    intro a ha
    rw [← hh6, BigHeap.read_write_ne _ _ _ _ (by omega),
      BigHeap.read_append_old h4 [ratio] a (by omega), r4o a ha]
  refine ⟨h6, ?_, r6o⟩
  unfold BigHeap.Cmp
  simp only [r6t, r6o self hs]
  by_cases hle : Int.ediv (h.read tv + h.read nv) ratio ≤ h.read self
  · rw [if_neg]
    · simp [hle]
    · split_ifs <;> omega
  · rw [if_pos]
    · simp [hle]
    · split_ifs <;> omega


/-- What `CheckCandEnoughSelfVotes` computes: for a positive ratio, a candidate whose bucket
ids all resolve, and `big.Int` arguments that exist before the call, it returns true exactly
when the candidate has a self-owned bucket and `floor((c.TotalVotes + newVotes) / ratio)` is at
most the sum `selfVotes` of those buckets' votes, that is
`c.TotalVotes + newVotes < ratio * (selfVotes + 1)`; no `big.Int` that exists before the call
is changed. -/
theorem CheckCandEnoughSelfVotes_spec (ratio : Int) (h : BigHeap) (newVotes : Nat)
    (c : Candidate) (bl : BucketList) (hr : 0 < ratio)
    (hres : ∀ id ∈ c.Buckets, (bl.Get id).isSome = true)
    (hN : newVotes < h.length) (hT : c.TotalVotes < h.length)
    (hB : ∀ b ∈ selfBuckets c bl, b.TotalVotes < h.length) :
    ∃ h' ok, CheckCandEnoughSelfVotes ratio h newVotes c bl = Outcome.ok (h', ok) ∧
      (ok = true ↔ selfBuckets c bl ≠ [] ∧
        Int.ediv (h.read c.TotalVotes + h.read newVotes) ratio ≤ sumVotes h (selfBuckets c bl)) ∧
      (ok = true ↔ selfBuckets c bl ≠ [] ∧
        h.read c.TotalVotes + h.read newVotes < ratio * (sumVotes h (selfBuckets c bl) + 1)) ∧
      ∀ a, a < h.length → h'.read a = h.read a := by
  have hdiv : ∀ x s : Int, Int.ediv x ratio ≤ s ↔ x < ratio * (s + 1) := by
    intro x s
    show x / ratio ≤ s ↔ _
    rw [← Int.lt_add_one_iff, Int.ediv_lt_iff_lt_mul hr, mul_comm]
  have hloop := selfBucketsLoop_spec c bl c.Buckets [] hres
  rw [List.nil_append] at hloop
  change selfBucketsLoop c bl c.Buckets [] = Outcome.ok (selfBuckets c bl) at hloop
  unfold CheckCandEnoughSelfVotes GetCandidateSelfBuckets
  rw [hloop]
  dsimp only
  by_cases hemp : (selfBuckets c bl).length = 0
  · rw [if_pos hemp]
    dsimp only
    have he : selfBuckets c bl = [] := List.length_eq_zero.1 hemp
    refine ⟨h, false, by simp, ?_, ?_, fun _ _ => rfl⟩ <;> simp [he]
  · rw [if_neg hemp]
    have hne : selfBuckets c bl ≠ [] := fun hc => hemp (by rw [hc]; rfl)
    simp only [Bool.false_eq_true, if_false, BigHeap.NewInt]
    generalize selfBuckets c bl = bkts at hB hne ⊢
    obtain ⟨l2, r2, o2⟩ := sumVotesLoop_spec h.length bkts (h ++ [0]) (by simp)
      (fun b hb => Nat.ne_of_lt (hB b hb))
    have hsum : sumVotes (h ++ [0]) bkts = sumVotes h bkts :=
      sumVotes_congr _ _ _ (fun b hb => BigHeap.read_append_old h [0] _ (hB b hb))
    rw [BigHeap.read_append_new h 0 _ rfl, hsum, zero_add] at r2
    have l2' : (sumVotesLoop h.length bkts (h ++ [0])).length = h.length + 1 := by
      rw [l2]; simp
    have o2' : ∀ a, a < h.length →
        (sumVotesLoop h.length bkts (h ++ [0])).read a = h.read a := by
      intro a ha
      rw [o2 a (by omega), BigHeap.read_append_old h [0] a ha]
    generalize sumVotesLoop h.length bkts (h ++ [0]) = h2 at r2 l2' o2' ⊢
    obtain ⟨h6, hrc, hfr⟩ := ratioCheck_spec ratio h2 h.length c.TotalVotes newVotes
      (by omega) (by omega) (by omega) (by omega)
    rw [o2' _ hT, o2' _ hN, r2] at hrc
    refine ⟨h6, _, hrc, ?_, ?_, fun a ha => by rw [hfr a (by omega), o2' a ha]⟩
    · simp [hne]
    · rw [← hdiv]
      simp [hne]

/-- C24 (defect): with ratio 100, a candidate whose only self-owned bucket holds 1 vote passes
the check with 150 total votes, although `150 / 1 > 100`, i.e. `150 > 100 * 1`; likewise with
ratio 2 and 3 total votes. The code compares `floor(total / ratio)` with `selfVotes` where its
comment asks for `total / selfVotes <= ratio`. With 200 total votes the check fails. -/
theorem CheckCandEnoughSelfVotes_rounding :
    (∃ h', CheckCandEnoughSelfVotes 100 [150, 0, 1] 1 sampleCandidate sampleBucketList
      = Outcome.ok (h', true)) ∧
    sumVotes [150, 0, 1] (selfBuckets sampleCandidate sampleBucketList) = 1 ∧
    BigHeap.read [150, 0, 1] sampleCandidate.TotalVotes + BigHeap.read [150, 0, 1] 1 = 150 ∧
    ¬ ((150 : Int) ≤ 100 * 1) ∧
    (∃ h', CheckCandEnoughSelfVotes 2 [3, 0, 1] 1 sampleCandidate sampleBucketList
      = Outcome.ok (h', true)) ∧
    ¬ ((3 : Int) ≤ 2 * 1) ∧
    (∃ h', CheckCandEnoughSelfVotes 100 [200, 0, 1] 1 sampleCandidate sampleBucketList
      = Outcome.ok (h', false)) := by
  refine ⟨⟨_, rfl⟩, by rfl, by rfl, by decide, ⟨_, rfl⟩, by decide, ⟨_, rfl⟩⟩

end MeterSdk

namespace MeterSdk

/-- C30 (defect): in the sample auction (`RlsdMTRG = 4 > 0`, `RcvdMTR = 8`,
`RsvdPrice = 10^18`, one bid of `6 * 10^18`) `ClearAuction` returns the price
`max(floor(8 / 4) * 10^18, 10^18) = 2 * 10^18` and the leftover `4 - floor(6 * 10^18 / price) = 1`
and leaves `RcvdMTR`, `RlsdMTRG` and `RsvdPrice` as they were, but the bid's `Amount` is
overwritten: it is `6 * 10^18` before the call and 3 after it. -/
theorem ClearAuction_overwrites_Amount :
    ∃ r, ClearAuction sampleAuctionHeap sampleAuctionCB = Outcome.ok r ∧
      r.heap.read sampleAuctionCB.RcvdMTR = sampleAuctionHeap.read sampleAuctionCB.RcvdMTR ∧
      r.heap.read sampleAuctionCB.RlsdMTRG = sampleAuctionHeap.read sampleAuctionCB.RlsdMTRG ∧
      r.heap.read sampleAuctionCB.RsvdPrice = sampleAuctionHeap.read sampleAuctionCB.RsvdPrice ∧
      r.heap.read r.actualPrice = 2000000000000000000 ∧
      r.heap.read r.leftOver = 1 ∧
      r.mints = [(addressOfByte 1, 3), (AuctionAccountAddr, 1)] ∧
      sampleAuctionCB.AuctionTxs.map (fun tx => sampleAuctionHeap.read tx.Amount)
        = [6000000000000000000] ∧
      sampleAuctionCB.AuctionTxs.map (fun tx => r.heap.read tx.Amount) = [3] := by
  refine ⟨_, rfl, ?_, ?_, ?_, ?_, ?_, ?_, ?_, ?_⟩ <;> rfl

end MeterSdk
